import Mathlib

/-!
# First-child / next-sibling tree store

A shallow embedding of the two variants of the tree store and of the properties
its design document states about them: the forest variant with its command loop
(`class09/LastChapter/Homeworkfinal.c`, namespace `Forest`) and the tree-only
variant (`Tree.c`, namespace `TreeOnly`).

* A pointer is `Option Nat`: `none` is `NULL`, `some a` is the address `a`.
* The memory is a map from addresses to nodes; an address that holds no node
  (never allocated, or released by `free`) maps to `none`.
* Every `while` loop and every recursion of the C code takes a bound: a loop
  counter or a recursion depth.  A result `none` means that the C execution has no
  defined result within the bound: it dereferences an address that holds no node,
  or it needs more iterations than the bound allows.  The parameter `F` of an
  operation is the bound handed to each loop the operation starts.
* What the C code writes to `stderr` is recorded as a list of `Diag` events.
-/

namespace Forest

/-- A pointer to a node: `none` is `NULL`. -/
abbrev Ptr := Option Nat

/-- The C struct `Node`: `name` is the byte string the `char*` points to. -/
structure Node where
  id : Int
  name : List Nat
  first : Ptr
  nextToFirst : Ptr
deriving DecidableEq

/-- The memory: which node each address holds. -/
abbrev Store := Nat → Option Node

/-- One line written to `stderr`, with the values of its format arguments. -/
inductive Diag where
  | addFailed (childId : Int) (childName : List Nat) (parentId : Int) (parentName : List Nat)
  | added (childId : Int) (childName : List Nat) (parentId : Int) (parentName : List Nat)
  | removing (id : Int) (nodeName : List Nat)
  | promoting (childId : Int) (childName : List Nat)
  | moveInvalid (parentId childId : Int)
  | moveNoParent (parentId : Int)
  | moveNoChild (childId : Int)
  | moving (childId : Int) (childName : List Nat) (parentId : Int) (parentName : List Nat)
deriving DecidableEq

/-- The state the operations act on: the memory and the diagnostics written so far. -/
structure Heap where
  mem : Store
  err : List Diag

/-- Store `n` at address `a`. -/
def Store.set (m : Store) (a : Nat) (n : Node) : Store :=
  fun x => if x = a then some n else m x

/-- Release address `a` (`free`). -/
def Store.free (m : Store) (a : Nat) : Store :=
  fun x => if x = a then none else m x

/-- The cycle check of `addChild` (lines 32-40): walk `temp` from `parent` along
`nextToFirst`; `some true` when `temp == child` is met, `some false` when the walk
reaches `NULL`. -/
def cycleCheck (m : Store) (child : Nat) : Nat → Ptr → Option Bool
  | _, none => some false
  | 0, some _ => none
  | k + 1, some t =>
    if t = child then some true
    else match m t with
      | none => none
      | some n => cycleCheck m child k n.nextToFirst

/-- The walk to the last sibling in `addChild` (lines 45-48): starting at `temp`,
follow `nextToFirst` while it is not `NULL`. -/
def lastSibling (m : Store) : Nat → Nat → Option Nat
  | 0, _ => none
  | k + 1, t =>
    match m t with
    | none => none
    | some n =>
      match n.nextToFirst with
      | none => some t
      | some t' => lastSibling m k t'

/-- The C function `addChild(parent, child)` (lines 28-54).  The diagnostics read
`id` and `name` of both nodes; the link writes do not change these fields, so they
are read from the memory before the write. -/
def addChild (F : Nat) (h : Heap) (parent child : Ptr) : Option Heap :=
  match parent, child with
  | some p, some c =>
    match cycleCheck h.mem c F (some p) with
    | none => none
    | some true =>
      match h.mem p, h.mem c with
      | some np, some nc =>
        some { h with err := h.err ++ [Diag.addFailed nc.id nc.name np.id np.name] }
      | _, _ => none
    | some false =>
      match h.mem p, h.mem c with
      | some np, some nc =>
        let done (m : Store) : Option Heap :=
          some { mem := m, err := h.err ++ [Diag.added nc.id nc.name np.id np.name] }
        match np.first with
        | none => done (h.mem.set p { np with first := some c })
        | some f =>
          match lastSibling h.mem F f with
          | none => none
          | some t =>
            match h.mem t with
            | none => none
            | some nt => done (h.mem.set t { nt with nextToFirst := some c })
      | _, _ => none
  | _, _ => some h

/-- The sibling chain that starts at pointer `p` is the list of addresses `l`: every
address holds a node, each `nextToFirst` leads to the next address, the last one
is `NULL`. -/
def Chain (m : Store) : Ptr → List Nat → Prop
  | p, [] => p = none
  | p, a :: l => p = some a ∧ ∃ n, m a = some n ∧ Chain m n.nextToFirst l

/-- A memory given by the list of its nodes: address `a` holds the `a`-th node. -/
def storeOf (l : List Node) : Store := fun a => l.get? a

/-- A node that is linked nowhere, as `createNode` returns it. -/
def createNode (id : Int) (name : List Nat) : Node :=
  { id := id, name := name, first := none, nextToFirst := none }

/-- Example memory: root 0 with the children 1 and 2. -/
def memSiblings : Store :=
  storeOf [ { id := 0, name := [114], first := some 1, nextToFirst := none },
            { id := 1, name := [65], first := none, nextToFirst := some 2 },
            { id := 2, name := [66], first := none, nextToFirst := none } ]

/-- The scan of `removeNode` over the child chain (lines 61-65 and 91-92): `temp`
walks the chain with `parent` one node behind; the result is `some (parent, temp)`
at the first node with `temp->id == id` and `none` when the chain ends. -/
def scanId (m : Store) (id : Int) : Nat → Ptr → Ptr → Option (Option (Ptr × Nat))
  | _, _, none => some none
  | 0, _, some _ => none
  | k + 1, parent, some t =>
    match m t with
    | none => none
    | some n =>
      if n.id = id then some (some (parent, t))
      else scanId m id k (some t) n.nextToFirst

/-- The promotion loop of `removeNode` (lines 76-83): for each child of the removed
node, clear its sibling link and add it to `root`. -/
def promoteLoop (F : Nat) (root : Nat) : Nat → Heap → Ptr → Option Heap
  | _, h, none => some h
  | 0, _, some _ => none
  | k + 1, h, some c =>
    match h.mem c with
    | none => none
    | some nc =>
      match addChild F
          { mem := h.mem.set c { nc with nextToFirst := none },
            err := h.err ++ [Diag.promoting nc.id nc.name] } (some root) (some c) with
      | none => none
      | some h₂ => promoteLoop F root k h₂ nc.nextToFirst

/-- The loop `while (temp) { visit(temp); temp = temp->nextToFirst; }` of
`removeNode` (lines 96-100). -/
def forEachChild (visit : Heap → Nat → Option Heap) : Nat → Heap → Ptr → Option Heap
  | _, h, none => some h
  | 0, _, some _ => none
  | k + 1, h, some t =>
    match visit h t with
    | none => none
    | some h₁ =>
      match h₁.mem t with
      | none => none
      | some nt => forEachChild visit k h₁ nt.nextToFirst

/-- The C function `removeNode(root, id, keepSubtree)` (lines 58-101); the first
bound is handed to the loops, the second is the recursion depth.  `keepSubtree` is
the truth value of the C `int`. -/
def removeNode (F : Nat) : Nat → Heap → Ptr → Int → Bool → Option Heap
  | _, h, none, _, _ => some h
  | 0, h, some _, id, _ => if id = 0 then some h else none
  | d + 1, h, some r, id, keepSubtree =>
    if id = 0 then some h
    else match h.mem r with
      | none => none
      | some nr =>
        match scanId h.mem id F none nr.first with
        | none => none
        | some (some (parent, t)) =>
          match h.mem t with
          | none => none
          | some nt =>
            let unlinked : Option Store :=
              match parent with
              | some q =>
                match h.mem q with
                | none => none
                | some nq => some (h.mem.set q { nq with nextToFirst := nt.nextToFirst })
              | none => some (h.mem.set r { nr with first := nt.nextToFirst })
            match unlinked with
            | none => none
            | some m₁ =>
              let h₁ : Heap := { mem := m₁, err := h.err ++ [Diag.removing id nt.name] }
              let promoted : Option Heap :=
                if keepSubtree then some h₁
                else match m₁ t with
                  | none => none
                  | some nt₁ => promoteLoop F r F h₁ nt₁.first
              match promoted with
              | none => none
              | some h₂ => some { mem := h₂.mem.free t, err := h₂.err }
        | some none =>
          forEachChild (fun h' t => removeNode F d h' (some t) id keepSubtree) F h nr.first

/-- The C function `findNode(root, id)` (lines 105-113); the bound is the recursion
depth.  `some none` is the result `NULL`. -/
def findNode (m : Store) : Nat → Ptr → Int → Option Ptr
  | _, none, _ => some none
  | 0, some _, _ => none
  | d + 1, some r, id =>
    match m r with
    | none => none
    | some n =>
      if n.id = id then some (some r)
      else match findNode m d n.first id with
        | none => none
        | some (some x) => some (some x)
        | some none => findNode m d n.nextToFirst id

/-- The detach scan of `moveNode` over the child chain of `root` (lines 140-155):
`temp` walks the chain with `currentParent` one node behind; the result is
`some currentParent` when `temp == child` is met and `none` when the chain ends. -/
def detachScan (m : Store) (child : Nat) : Nat → Ptr → Ptr → Option (Option Ptr)
  | _, _, none => some none
  | 0, _, some _ => none
  | k + 1, currentParent, some t =>
    if t = child then some (some currentParent)
    else match m t with
      | none => none
      | some n => detachScan m child k (some t) n.nextToFirst

/-- The C function `moveNode(root, parentId, childId)` (lines 118-159). -/
def moveNode (F : Nat) (h : Heap) (root : Ptr) (parentId childId : Int) : Option Heap :=
  match root with
  | none => some { h with err := h.err ++ [Diag.moveInvalid parentId childId] }
  | some r =>
    if parentId = childId then
      some { h with err := h.err ++ [Diag.moveInvalid parentId childId] }
    else
      match findNode h.mem F root parentId, findNode h.mem F root childId with
      | some parent, some child =>
        match parent with
        | none => some { h with err := h.err ++ [Diag.moveNoParent parentId] }
        | some p =>
          match child with
          | none => some { h with err := h.err ++ [Diag.moveNoChild childId] }
          | some c =>
            match h.mem p, h.mem c, h.mem r with
            | some np, some nc, some nr =>
              let err₁ := h.err ++ [Diag.moving childId nc.name parentId np.name]
              let detached : Option Store :=
                match detachScan h.mem c F none nr.first with
                | none => none
                | some none => some h.mem
                | some (some currentParent) =>
                  let unlinked : Option Store :=
                    match currentParent with
                    | some q =>
                      match h.mem q with
                      | none => none
                      | some nq => some (h.mem.set q { nq with nextToFirst := nc.nextToFirst })
                    | none => some (h.mem.set r { nr with first := nc.nextToFirst })
                  match unlinked with
                  | none => none
                  | some m₁ =>
                    match m₁ c with
                    | none => none
                    | some nc₁ => some (m₁.set c { nc₁ with nextToFirst := none })
              match detached with
              | none => none
              | some m₂ => addChild F { mem := m₂, err := err₁ } (some p) (some c)
            | _, _, _ => none
      | _, _ => none

/-- The inner loop of the two sort functions (lines 168-179 and 188-199): `j` walks
the chain after `i`; where `swapNeeded` holds of the payloads at `i` and `j`, the
`id` and `name` of the two nodes are exchanged. -/
def sortInner (swapNeeded : Node → Node → Bool) (i : Nat) : Nat → Store → Ptr → Option Store
  | _, m, none => some m
  | 0, _, some _ => none
  | k + 1, m, some j =>
    match m i, m j with
    | some ni, some nj =>
      let m' : Store :=
        if swapNeeded ni nj then
          (m.set i { ni with id := nj.id, name := nj.name }).set j
            { nj with id := ni.id, name := ni.name }
        else m
      match m' j with
      | none => none
      | some nj' => sortInner swapNeeded i k m' nj'.nextToFirst
    | _, _ => none

/-- The outer loop of the two sort functions (lines 167 and 187): `i` walks the child
chain. -/
def sortOuter (swapNeeded : Node → Node → Bool) (F : Nat) : Nat → Store → Ptr → Option Store
  | _, m, none => some m
  | 0, _, some _ => none
  | k + 1, m, some i =>
    match m i with
    | none => none
    | some ni =>
      match sortInner swapNeeded i F m ni.nextToFirst with
      | none => none
      | some m' =>
        match m' i with
        | none => none
        | some ni' => sortOuter swapNeeded F k m' ni'.nextToFirst

/-- The common body of `sortChildrenById` and `sortChildrenByName`. -/
def sortChildrenBy (swapNeeded : Node → Node → Bool) (F : Nat) (h : Heap) (parent : Ptr) :
    Option Heap :=
  match parent with
  | none => some h
  | some p =>
    match h.mem p with
    | none => none
    | some np =>
      match np.first with
      | none => some h
      | some f =>
        match sortOuter swapNeeded F F h.mem (some f) with
        | none => none
        | some m => some { mem := m, err := h.err }

/-- The C function `sortChildrenById(parent)` (lines 164-181): the test is
`i->id > j->id`. -/
def sortChildrenById (F : Nat) (h : Heap) (parent : Ptr) : Option Heap :=
  sortChildrenBy (fun ni nj => decide (ni.id > nj.id)) F h parent

/-- The test `strcmp(a, b) > 0` on byte strings without a zero byte. -/
def strcmpGt : List Nat → List Nat → Bool
  | [], _ => false
  | _ :: _, [] => true
  | x :: a, y :: b => if x = y then strcmpGt a b else decide (x > y)

/-- The C function `sortChildrenByName(parent)` (lines 184-201): the test is
`strcmp(i->name, j->name) > 0`. -/
def sortChildrenByName (F : Nat) (h : Heap) (parent : Ptr) : Option Heap :=
  sortChildrenBy (fun ni nj => strcmpGt ni.name nj.name) F h parent

/-- The loop of `printTree` (lines 208-212): the bytes written for the chain from
`child`, a comma (44) after every name that has a successor. -/
def printLoop (m : Store) : Nat → Ptr → Option (List Nat)
  | _, none => some []
  | 0, some _ => none
  | k + 1, some c =>
    match m c with
    | none => none
    | some nc =>
      match printLoop m k nc.nextToFirst with
      | none => none
      | some rest => some (nc.name ++ (if nc.nextToFirst.isSome then [44] else []) ++ rest)

/-- The C function `printTree(parent)` (lines 204-214): the bytes written to
`stdout`, ended by a newline (10) when there is a child. -/
def printTree (F : Nat) (m : Store) (parent : Ptr) : Option (List Nat) :=
  match parent with
  | none => some []
  | some p =>
    match m p with
    | none => none
    | some np =>
      match np.first with
      | none => some []
      | some f =>
        match printLoop m F (some f) with
        | none => none
        | some bytes => some (bytes ++ [10])

/-- One command of the input, with its arguments as read by `scanf`. -/
inductive Cmd where
  | add (parentId childId : Int)
  | remove (id : Int)
  | move (parentId childId : Int)
  | sortId (id : Int)
  | sortName (id : Int)
  | print (id : Int)
deriving DecidableEq

/-- The state of `main` inside the command loop: the memory with the diagnostics,
and the bytes written to `stdout`.  The array `nodes` is never written after
start-up; the model names the address of the node declared with id `i` by `i`, so
`nodes[i]` is the address `i`. -/
structure Interp where
  heap : Heap
  out : List Nat

/-- The read `nodes[id]` for an index that passed the test `id < N`: a negative
index is outside the array and the read has no defined result. -/
def nodesAt (id : Int) : Option Ptr :=
  if 0 ≤ id then some (some id.toNat) else none

/-- The state after the declarations (lines 226-238), for `N = names.length`
declarations that use every id of `[0, N)` once: the node with id `i` carries the
`i`-th name and has no links. -/
def startup (names : List (List Nat)) : Interp :=
  { heap := { mem := fun a => (names.get? a).map (fun nm => createNode a nm), err := [] },
    out := [] }

/-- One turn of the command loop of `main` (lines 243-282); `root` is `nodes[0]`. -/
def execCmd (F N : Nat) (s : Interp) : Cmd → Option Interp
  | .add parentId childId =>
    if parentId < N ∧ childId < N then
      match nodesAt parentId, nodesAt childId with
      | some p, some c =>
        match addChild F s.heap p c with
        | none => none
        | some h => some { s with heap := h }
      | _, _ => none
    else some s
  | .remove id =>
    if id < N ∧ id ≠ 0 then
      match removeNode F F s.heap (some 0) id false with
      | none => none
      | some h => some { s with heap := h }
    else some s
  | .move parentId childId =>
    if parentId < N ∧ childId < N then
      match moveNode F s.heap (some 0) parentId childId with
      | none => none
      | some h => some { s with heap := h }
    else some s
  | .sortId id =>
    if id < N then
      match nodesAt id with
      | none => none
      | some p =>
        match sortChildrenById F s.heap p with
        | none => none
        | some h => some { s with heap := h }
    else some s
  | .sortName id =>
    if id < N then
      match nodesAt id with
      | none => none
      | some p =>
        match sortChildrenByName F s.heap p with
        | none => none
        | some h => some { s with heap := h }
    else some s
  | .print id =>
    if id < N then
      match nodesAt id with
      | none => none
      | some p =>
        match printTree F s.heap.mem p with
        | none => none
        | some bytes => some { s with out := s.out ++ bytes }
    else some s

/-- The command loop of `main` over the commands of the input. -/
def run (F N : Nat) : Interp → List Cmd → Option Interp
  | s, [] => some s
  | s, c :: cs =>
    match execCmd F N s c with
    | none => none
    | some s' => run F N s' cs

/-- The finite unfolding of what a pointer leads to: empty for `NULL`, else the
address and the id of the node, the unfolding of its `first` link and the unfolding
of its `nextToFirst` link. -/
inductive Shape where
  | nil
  | node (addr : Nat) (id : Int) (first next : Shape)
deriving DecidableEq

/-- The nodes of a shape in the order of a full traversal: the node, then the whole
subtree of its first child, then its next sibling and what follows it. -/
def Shape.nodes : Shape → List (Nat × Int)
  | .nil => []
  | .node a i f n => (a, i) :: (f.nodes ++ n.nodes)

/-- The addresses met by the full traversal. -/
def Shape.addrs (b : Shape) : List Nat := b.nodes.map Prod.fst

/-- The ids met by the full traversal. -/
def Shape.ids (b : Shape) : List Int := b.nodes.map Prod.snd

/-- The addresses along the `nextToFirst` links of a shape: for the shape of a
`first` link this is the child list. -/
def Shape.spine : Shape → List Nat
  | .nil => []
  | .node a _ _ n => a :: n.spine

/-- The child list of a shape with the subtree of each child: address, id and the
shape of the `first` link of every node along the `nextToFirst` links. -/
def Shape.kids : Shape → List (Nat × Int × Shape)
  | .nil => []
  | .node a i f n => (a, i, f) :: n.kids

/-- The shape with the given child list. -/
def Shape.ofKids : List (Nat × Int × Shape) → Shape
  | [] => .nil
  | (a, i, f) :: l => .node a i f (Shape.ofKids l)

/-- The shape `b` with the shape `c` linked after the last node of its
`nextToFirst` chain. -/
def Shape.append : Shape → Shape → Shape
  | .nil, c => c
  | .node a i f n, c => .node a i f (n.append c)

/-- Unlink the first node that carries `id` from the `nextToFirst` chain of a
shape: its address, the shape of its `first` link and the remaining chain. -/
def Shape.unlinkId (id : Int) : Shape → Option (Nat × Shape × Shape)
  | .nil => none
  | .node a i f n =>
    if i = id then some (a, f, n)
    else match Shape.unlinkId id n with
      | none => none
      | some (t, ft, rest) => some (t, ft, .node a i f rest)

/-- The shape of a child list after `removeNode` with the promote policy.  With
`scan` the list is searched for `id` first and the match, when there is one, is
replaced by its children at the end of the list; otherwise the removal goes on in
the subtree of every child. -/
def Shape.remove (id : Int) : Bool → Shape → Shape
  | _, .nil => .nil
  | scan, .node a i f n =>
    match scan, Shape.unlinkId id (.node a i f n) with
    | true, some (_, ft, rest) => rest.append ft
    | _, _ => .node a i (Shape.remove id true f) (Shape.remove id false n)

/-- The shape `b` after the shape `cs` is linked after the last child of the node
at address `P`. -/
def Shape.attach (P : Nat) (cs : Shape) : Shape → Shape
  | .nil => .nil
  | .node a i f n =>
    if a = P then .node a i (f.append cs) n
    else .node a i (Shape.attach P cs f) (Shape.attach P cs n)

/-- Pointer `p` unfolds in memory `m` to the shape `b`. -/
def Rep (m : Store) : Ptr → Shape → Prop
  | p, .nil => p = none
  | p, .node a i f n =>
    p = some a ∧ ∃ nd, m a = some nd ∧ nd.id = i ∧ Rep m nd.first f ∧ Rep m nd.nextToFirst n

/-- A well-formed tree: what `p` leads to is finite (it unfolds to the shape `b`)
and no node is met twice (no sharing, no cycle). -/
def WellFormed (m : Store) (p : Ptr) (b : Shape) : Prop :=
  Rep m p b ∧ b.addrs.Nodup

/-- No two nodes of the shape carry the same id. -/
def UniqueIds (b : Shape) : Prop := b.ids.Nodup

/-- The full traversal read off the memory, as the list of the addresses met with
the id found at each: the node, its `first` subtree, its `nextToFirst` sibling;
the bound is the recursion depth. -/
def traverse (m : Store) : Nat → Ptr → Option (List (Nat × Int))
  | _, none => some []
  | 0, some _ => none
  | d + 1, some r =>
    match m r with
    | none => none
    | some n =>
      match traverse m d n.first, traverse m d n.nextToFirst with
      | some l₁, some l₂ => some ((r, n.id) :: (l₁ ++ l₂))
      | _, _ => none

/-- All the non-empty shapes inside a shape, itself included. -/
def Shape.subtrees : Shape → List Shape
  | .nil => []
  | .node a i f n => .node a i f n :: (f.subtrees ++ n.subtrees)

/-- The sibling chain from a pointer read off the memory; the bound is the number
of nodes walked. -/
def chainList (m : Store) : Nat → Ptr → Option (List Nat)
  | _, none => some []
  | 0, some _ => none
  | k + 1, some a =>
    match m a with
    | none => none
    | some n =>
      match chainList m k n.nextToFirst with
      | none => none
      | some l => some (a :: l)

/-- No node at an address below `N` holds a link, `first` or `nextToFirst`, to the
address `c`. -/
def hasNoLink (N : Nat) (m : Store) (c : Nat) : Bool :=
  (List.range N).all fun a =>
    match m a with
    | some n => decide (n.first ≠ some c) && decide (n.nextToFirst ≠ some c)
    | none => true

/-- The input contract of a command, checked in the memory in which the command is
executed.
* `ADD p c`: both ids lie in `[0, N)` and both nodes are allocated (declared and
  not removed).  Either `c` is met on the sibling chain that starts at `p` (then
  `addChild` rejects the call), or `c` is not node 0, no node holds a link to `c`,
  and `p` is neither `c` nor met from the `first` link of `c`.
* `REMOVE`: no condition.
* `MOVE p c`: both ids lie in `[0, N)`.  Either the two ids are equal, or one of
  them is not met from the root (then `moveNode` rejects the call); or `c` stands
  in the child list of the root and `p` is not met from the `first` link of `c`;
  or `c` does not stand in the child list of the root and is met on the sibling
  chain that starts at `p` (then the `addChild` called by `moveNode` rejects).
* the other commands are not structural. -/
def Cmd.respectsContract (N : Nat) (m : Store) : Cmd → Bool
  | .add p c =>
    decide (0 ≤ p) && decide (p < N) && decide (0 ≤ c) && decide (c < N) &&
    match m p.toNat, m c.toNat with
    | some _, some nc =>
      (match chainList m (N + 1) (some p.toNat) with
        | some sibs => decide (c.toNat ∈ sibs)
        | none => false) ||
      (decide (c ≠ 0) && hasNoLink N m c.toNat && decide (p ≠ c) &&
        match traverse m (N + 1) nc.first with
        | some below => decide (p.toNat ∉ below.map Prod.fst)
        | none => false)
    | _, _ => false
  | .remove _ => true
  | .move p c =>
    decide (0 ≤ p) && decide (p < N) && decide (0 ≤ c) && decide (c < N) &&
    (decide (p = c) ||
      match traverse m (N + 1) (some 0), m 0 with
      | some l, some n0 =>
        decide (p.toNat ∉ l.map Prod.fst) || decide (c.toNat ∉ l.map Prod.fst) ||
        (match chainList m (N + 1) n0.first with
          | some kids =>
            if c.toNat ∈ kids then
              match m c.toNat with
              | some nc =>
                (match traverse m (N + 1) nc.first with
                  | some below => decide (p.toNat ∉ below.map Prod.fst)
                  | none => false)
              | none => false
            else
              match chainList m (N + 1) (some p.toNat) with
              | some sibs => decide (c.toNat ∈ sibs)
              | none => false
          | none => false)
      | _, _ => false)
  | _ => false

/-- Every command of the list respects its contract in the state in which the
command loop executes it. -/
def admissible (F N : Nat) : Interp → List Cmd → Bool
  | _, [] => true
  | s, c :: cs =>
    c.respectsContract N s.heap.mem &&
    match execCmd F N s c with
    | none => true
    | some s' => admissible F N s' cs

/-- The addresses of a list of trees. -/
def forestAddrs : List Shape → List Nat
  | [] => []
  | t :: ts => t.addrs ++ forestAddrs ts

/-- The memory holds exactly the trees `ts`: every tree unfolds from its top node,
which has no sibling; no address occurs twice, in one tree or in two; every node
carries its address as id and was declared (its address is below `N`); and every
allocated address occurs in one of the trees. -/
def IsForest (N : Nat) (m : Store) (ts : List Shape) : Prop :=
  (∀ t ∈ ts, ∃ a i g, t = .node a i g .nil ∧ Rep m (some a) t) ∧
  (forestAddrs ts).Nodup ∧
  (∀ t ∈ ts, ∀ x ∈ t.nodes, x.2 = (x.1 : Int) ∧ x.1 < N) ∧
  (∀ a n, m a = some n → a ∈ forestAddrs ts)

/-- Example memory: root 0 with the children 3 and 1, node 2 the only child of
node 1. -/
def memNested : Store :=
  storeOf [ { id := 0, name := [114], first := some 3, nextToFirst := none },
            { id := 1, name := [65], first := some 2, nextToFirst := none },
            { id := 2, name := [66], first := none, nextToFirst := none },
            { id := 3, name := [67], first := none, nextToFirst := some 1 } ]

/-- The shape of `memNested` from address 0. -/
def shapeNested : Shape :=
  .node 0 0 (.node 3 3 .nil (.node 1 1 (.node 2 2 .nil .nil) .nil)) .nil

/-- Example memory: root 0 with the only child 1 (A), whose children are 2 (B) and
3 (C). -/
def memRootABC : Store :=
  storeOf [ { id := 0, name := [114], first := some 1, nextToFirst := none },
            { id := 1, name := [65], first := some 2, nextToFirst := none },
            { id := 2, name := [66], first := none, nextToFirst := some 3 },
            { id := 3, name := [67], first := none, nextToFirst := none } ]

/-- Example memory: a path 0, 1, 2, 3 of first children. -/
def memPath : Store :=
  storeOf [ { id := 0, name := [114], first := some 1, nextToFirst := none },
            { id := 1, name := [65], first := some 2, nextToFirst := none },
            { id := 2, name := [66], first := some 3, nextToFirst := none },
            { id := 3, name := [67], first := none, nextToFirst := none } ]

/-- Example memory: root 0 with the children 1 and 2, node 3 below 1. -/
def memSmallTree : Store :=
  storeOf [ { id := 0, name := [114], first := some 1, nextToFirst := none },
            { id := 1, name := [65], first := some 3, nextToFirst := some 2 },
            { id := 2, name := [66], first := none, nextToFirst := none },
            { id := 3, name := [67], first := none, nextToFirst := none } ]

/-- The shape of `memSmallTree` from address 0. -/
def shapeSmallTree : Shape :=
  .node 0 0 (.node 1 1 (.node 3 3 .nil .nil) (.node 2 2 .nil .nil)) .nil

/-- Example memory: root 0 with the children 1 and 2, and node 3 linked nowhere. -/
def memSiblingsAndLoose : Store :=
  storeOf [ { id := 0, name := [114], first := some 1, nextToFirst := none },
            { id := 1, name := [65], first := none, nextToFirst := some 2 },
            { id := 2, name := [66], first := none, nextToFirst := none },
            { id := 3, name := [67], first := none, nextToFirst := none } ]

/-- The name stored at an address (empty when the address holds no node). -/
def nameAt (m : Store) (a : Nat) : List Nat :=
  match m a with
  | some n => n.name
  | none => []

/-- The id stored at an address (0 when the address holds no node). -/
def idAt (m : Store) (a : Nat) : Int :=
  match m a with
  | some n => n.id
  | none => 0

/-- The diagnostics that report a rejected operation: the "ADD FAILED" line of
`addChild` and the three "MOVE failed" lines of `moveNode`. -/
def Diag.isRejection : Diag → Bool
  | .addFailed _ _ _ _ => true
  | .moveInvalid _ _ => true
  | .moveNoParent _ => true
  | .moveNoChild _ => true
  | _ => false

/-- The payload stored at an address: the id and the name. -/
def payloadAt (m : Store) (a : Nat) : Int × List Nat := (idAt m a, nameAt m a)

/-- The test `i->id > j->id` of `sortChildrenById` on payloads. -/
def idGt (a b : Int × List Nat) : Bool := decide (a.1 > b.1)

/-- The test `strcmp(i->name, j->name) > 0` of `sortChildrenByName` on payloads. -/
def nameGt (a b : Int × List Nat) : Bool := strcmpGt a.2 b.2

/-- What one run of the inner loop does to the payloads: `x` is the payload in slot
`i`, the list holds the payloads in the slots after it; each of them is exchanged
with the one in slot `i` when the test holds.  The result is the final payload of
slot `i` and the final payloads of the other slots. -/
def innerPass (gt : Int × List Nat → Int × List Nat → Bool) (x : Int × List Nat) :
    List (Int × List Nat) → (Int × List Nat) × List (Int × List Nat)
  | [] => (x, [])
  | y :: ys =>
    if gt x y then ((innerPass gt y ys).1, x :: (innerPass gt y ys).2)
    else ((innerPass gt x ys).1, y :: (innerPass gt x ys).2)

/-- What the outer loop does to the list of payloads along the child chain; the
bound is the number of slots. -/
def exchangeSortN (gt : Int × List Nat → Int × List Nat → Bool) :
    Nat → List (Int × List Nat) → List (Int × List Nat)
  | 0, l => l
  | _ + 1, [] => []
  | n + 1, x :: xs => (innerPass gt x xs).1 :: exchangeSortN gt n (innerPass gt x xs).2

/-- Two memories hold nodes at the same addresses, with the same `first` and
`nextToFirst` links. -/
def SameLinks (m m' : Store) : Prop :=
  ∀ a, (m' a).map (fun n => (n.first, n.nextToFirst))
    = (m a).map (fun n => (n.first, n.nextToFirst))

/-- Address `x` is met by following `nextToFirst` from the pointer: for the `first`
link of a node these are its direct children. -/
inductive OnChain (m : Store) : Ptr → Nat → Prop where
  | head (a : Nat) : OnChain m (some a) a
  | tail (a : Nat) (n : Node) (x : Nat) :
      m a = some n → OnChain m n.nextToFirst x → OnChain m (some a) x

/-- Example memory: the state after three nodes `B`, `A`, `C` with the ids 1, 2, 3
were added to root 0 in the order 2, 1, 3. -/
def memUnsorted : Store :=
  storeOf [ { id := 0, name := [114], first := some 2, nextToFirst := none },
            { id := 1, name := [66], first := none, nextToFirst := some 3 },
            { id := 2, name := [65], first := none, nextToFirst := some 1 },
            { id := 3, name := [67], first := none, nextToFirst := none } ]

end Forest

namespace TreeOnly

open Forest

/-! ## The tree-only variant (`src/Tree.c`)

`struct TREE` has the four fields of `struct NODE`; its sibling link is called
`nextSibling`.  The model uses the same record, with `nextToFirst` standing for
`nextSibling`, so a memory of the tree-only variant is a `Store` as well. -/

/-- The C function `createTree(id, name)` (lines 14-26); `a` is the address that
`malloc` returns, and the result is the memory with the new node at `a`. -/
def createTree (m : Store) (a : Nat) (id : Int) (name : List Nat) : Store :=
  m.set a { id := id, name := name, first := none, nextToFirst := none }

/-- The C function `addChild(parent, id, name)` of the tree-only variant (lines
29-42); `a` is the address that `malloc` returns for the new node. -/
def addChild (F : Nat) (m : Store) (a : Nat) (parent : Ptr) (id : Int) (name : List Nat) :
    Option Store :=
  match parent with
  | none => some m
  | some p =>
    let m₁ := createTree m a id name
    match m₁ p with
    | none => none
    | some np =>
      match np.first with
      | none => some (m₁.set p { np with first := some a })
      | some f =>
        match lastSibling m₁ F f with
        | none => none
        | some t =>
          match m₁ t with
          | none => none
          | some nt => some (m₁.set t { nt with nextToFirst := some a })

/-- The loop of `freeSubtree` (lines 49-53): `next` is read before the call on
`child`. -/
def freeChildren (free : Store → Nat → Option Store) : Nat → Store → Ptr → Option Store
  | _, m, none => some m
  | 0, _, some _ => none
  | k + 1, m, some c =>
    match m c with
    | none => none
    | some nc =>
      match free m c with
      | none => none
      | some m₁ => freeChildren free k m₁ nc.nextToFirst

/-- The C function `freeSubtree(node)` (lines 45-57); the first bound is handed to
the loop, the second is the recursion depth.  Releasing a node that is not
allocated has no defined result. -/
def freeSubtree (F : Nat) : Nat → Store → Ptr → Option Store
  | _, m, none => some m
  | 0, _, some _ => none
  | d + 1, m, some a =>
    match m a with
    | none => none
    | some n =>
      match freeChildren (fun m' c => freeSubtree F d m' (some c)) F m n.first with
      | none => none
      | some m₁ =>
        match m₁ a with
        | none => none
        | some _ => some (m₁.free a)

/-- The unlink step of `removeChild` and `moveChild` (lines 75-79 and 101-105):
`parent->first = temp->nextSibling` when `prev` is `NULL`, else
`prev->nextSibling = temp->nextSibling`. -/
def unlink (m : Store) (parent : Nat) (prev : Ptr) (temp : Nat) : Option Store :=
  match m temp with
  | none => none
  | some nt =>
    match prev with
    | none =>
      match m parent with
      | none => none
      | some np => some (m.set parent { np with first := nt.nextToFirst })
    | some q =>
      match m q with
      | none => none
      | some nq => some (m.set q { nq with nextToFirst := nt.nextToFirst })

/-- The C function `removeChild(parent, child)` (lines 60-83).  The locate loop
(lines 67-70) is the loop of `Forest.scanId` with `child->id` as the id. -/
def removeChild (F d : Nat) (m : Store) (parent child : Ptr) : Option Store :=
  match parent with
  | none => some m
  | some p =>
    match m p with
    | none => none
    | some np =>
      match np.first, child with
      | none, _ => some m
      | some _, none => some m
      | some f, some c =>
        match m c with
        | none => none
        | some nc =>
          match scanId m nc.id F none (some f) with
          | none => none
          | some none => some m
          | some (some (prev, temp)) =>
            match unlink m p prev temp with
            | none => none
            | some m₁ => freeSubtree F d m₁ (some temp)

/-- The add step of `moveChild` (lines 109-118): `temp` becomes the first child of
the destination when it has none, else the sibling of its last child. -/
def appendChild (F : Nat) (m : Store) (destinationParent temp : Nat) : Option Store :=
  match m destinationParent with
  | none => none
  | some nd =>
    match nd.first with
    | none => some (m.set destinationParent { nd with first := some temp })
    | some g =>
      match lastSibling m F g with
      | none => none
      | some current =>
        match m current with
        | none => none
        | some ncur => some (m.set current { ncur with nextToFirst := some temp })

/-- The C function `moveChild(sourceParent, destinationParent, child)` (lines
86-119).  With an empty child list of the source the loop condition does not read
`child->id`. -/
def moveChild (F : Nat) (m : Store) (sourceParent destinationParent child : Ptr) :
    Option Store :=
  match sourceParent, destinationParent, child with
  | some s, some dst, some c =>
    match m s with
    | none => none
    | some ns =>
      match ns.first with
      | none => some m
      | some f =>
        match m c with
        | none => none
        | some nc =>
          match scanId m nc.id F none (some f) with
          | none => none
          | some none => some m
          | some (some (prev, temp)) =>
            match unlink m s prev temp with
            | none => none
            | some m₁ =>
              match m₁ temp with
              | none => none
              | some nt => appendChild F (m₁.set temp { nt with nextToFirst := none }) dst temp
  | _, _, _ => some m

/-- The first six calls of `main` (lines 142-151): the root at address 0, its
children `Child1`, `Child2`, `Child3` at the addresses 1, 2, 3 and the children
`SubChild1`, `SubChild2` of `root->first` at the addresses 4 and 5. -/
def mainTree : Option Store :=
  let m₀ := createTree (fun _ => none) 0 1 [82, 111, 111, 116]
  (addChild 8 m₀ 1 (some 0) 2 [67, 104, 105, 108, 100, 49]).bind fun m₁ =>
  (addChild 8 m₁ 2 (some 0) 3 [67, 104, 105, 108, 100, 50]).bind fun m₂ =>
  (addChild 8 m₂ 3 (some 0) 4 [67, 104, 105, 108, 100, 51]).bind fun m₃ =>
  (m₃ 0).bind fun root₃ =>
  (addChild 8 m₃ 4 root₃.first 5 [83, 117, 98, 67, 104, 105, 108, 100, 49]).bind fun m₄ =>
  (m₄ 0).bind fun root₄ =>
  addChild 8 m₄ 5 root₄.first 6 [83, 117, 98, 67, 104, 105, 108, 100, 50]

/-- The memory that `mainTree` builds. -/
def memMain : Store :=
  storeOf [ { id := 1, name := [82, 111, 111, 116], first := some 1, nextToFirst := none },
            { id := 2, name := [67, 104, 105, 108, 100, 49], first := some 4,
              nextToFirst := some 2 },
            { id := 3, name := [67, 104, 105, 108, 100, 50], first := none,
              nextToFirst := some 3 },
            { id := 4, name := [67, 104, 105, 108, 100, 51], first := none,
              nextToFirst := none },
            { id := 5, name := [83, 117, 98, 67, 104, 105, 108, 100, 49], first := none,
              nextToFirst := some 5 },
            { id := 6, name := [83, 117, 98, 67, 104, 105, 108, 100, 50], first := none,
              nextToFirst := none } ]

/-- The shape of `memMain` from the root. -/
def shapeMain : Shape :=
  .node 0 1 (.node 1 2 (.node 4 5 .nil (.node 5 6 .nil .nil))
    (.node 2 3 .nil (.node 3 4 .nil .nil))) .nil

/-- The memory of `main` after the call of `moveChild` (line 158): `SubChild1` is
the only child of `Child2`. -/
def memMoved : Store :=
  storeOf [ { id := 1, name := [82, 111, 111, 116], first := some 1, nextToFirst := none },
            { id := 2, name := [67, 104, 105, 108, 100, 49], first := some 5,
              nextToFirst := some 2 },
            { id := 3, name := [67, 104, 105, 108, 100, 50], first := some 4,
              nextToFirst := some 3 },
            { id := 4, name := [67, 104, 105, 108, 100, 51], first := none,
              nextToFirst := none },
            { id := 5, name := [83, 117, 98, 67, 104, 105, 108, 100, 49], first := none,
              nextToFirst := none },
            { id := 6, name := [83, 117, 98, 67, 104, 105, 108, 100, 50], first := none,
              nextToFirst := none } ]

/-- The shape of `memMoved` from the root. -/
def shapeMoved : Shape :=
  .node 0 1 (.node 1 2 (.node 5 6 .nil .nil)
    (.node 2 3 (.node 4 5 .nil .nil) (.node 3 4 .nil .nil))) .nil

/-- Example memory: a root at address 0 with the children `A` (address 1, id 1)
and `B` (address 2, id 2). -/
def memPair : Store :=
  storeOf [ { id := 0, name := [114], first := some 1, nextToFirst := none },
            { id := 1, name := [65], first := none, nextToFirst := some 2 },
            { id := 2, name := [66], first := none, nextToFirst := none } ]

end TreeOnly

namespace Forest

/-! ## Sibling chains -/

theorem Chain.alloc {m : Store} : ∀ {l : List Nat} {p : Ptr} {a : Nat},
    Chain m p l → a ∈ l → ∃ n, m a = some n
  | [], _, _, _, ha => by simp at ha
  | b :: l, p, a, hl, ha => by
    obtain ⟨_, n, hn, hrest⟩ := hl
    rcases List.mem_cons.1 ha with rfl | ha
    · exact ⟨n, hn⟩
    · exact Chain.alloc hrest ha

theorem cycleCheck_of_mem {m : Store} {c : Nat} : ∀ {l : List Nat} {p : Ptr} {k : Nat},
    Chain m p l → c ∈ l → l.length ≤ k → cycleCheck m c k p = some true
  | [], _, _, _, hc, _ => by simp at hc
  | b :: l, p, k, hl, hc, hk => by
    obtain ⟨rfl, n, hn, hrest⟩ := hl
    obtain ⟨k, rfl⟩ : ∃ j, k = j + 1 := ⟨k - 1, by simp at hk; omega⟩
    by_cases hbc : b = c
    · simp [cycleCheck, hbc]
    · have hc2 : c ∈ l := by
        rcases List.mem_cons.1 hc with h | h
        · exact absurd h.symm hbc
        · exact h
      have hk2 : l.length ≤ k := by simp at hk; omega
      simp [cycleCheck, hbc, hn, cycleCheck_of_mem hrest hc2 hk2]

/-- C3: when `child` is `parent` itself or lies on the finite sibling chain that
starts at `parent`, `addChild(parent, child)` takes the rejection branch: it
returns, the memory (every link and every payload) is the one before the call, and
the only effect is the diagnostic "ADD FAILED: Cycle detected". -/
theorem addChild_rejects_on_sibling_chain (F : Nat) (h : Heap) (p c : Nat) (l : List Nat)
    (hl : Chain h.mem (some p) l) (hc : c ∈ l) (hF : l.length ≤ F) :
    ∃ np nc, h.mem p = some np ∧ h.mem c = some nc ∧
      addChild F h (some p) (some c) =
        some { mem := h.mem, err := h.err ++ [Diag.addFailed nc.id nc.name np.id np.name] } := by
  have hp : p ∈ l := by
    cases l with
    | nil => simp at hc
    | cons b l => obtain ⟨hb, _⟩ := hl; simp at hb; simp [hb]
  obtain ⟨np, hnp⟩ := Chain.alloc hl hp
  obtain ⟨nc, hnc⟩ := Chain.alloc hl hc
  refine ⟨np, nc, hnp, hnc, ?_⟩
  simp [addChild, cycleCheck_of_mem hl hc hF, hnp, hnc]

/-- C3 at a concrete input: in `memSiblings` node 2 is the next sibling of node 1, and
`addChild(1, 2)` is rejected. -/
theorem addChild_rejects_on_sibling_chain_witness :
    ∃ np nc, memSiblings 1 = some np ∧ memSiblings 2 = some nc ∧
      addChild 2 { mem := memSiblings, err := [] } (some 1) (some 2) =
        some { mem := memSiblings, err := [] ++ [Diag.addFailed nc.id nc.name np.id np.name] } :=
  addChild_rejects_on_sibling_chain 2 { mem := memSiblings, err := [] } 1 2 [1, 2]
    (by simp [Chain, memSiblings, storeOf]) (by decide) (by decide)

/-! ## Shapes -/

@[simp] theorem Shape.addrs_nil : Shape.nil.addrs = [] := rfl

@[simp] theorem Shape.addrs_node (a : Nat) (i : Int) (f n : Shape) :
    (Shape.node a i f n).addrs = a :: (f.addrs ++ n.addrs) := by
  simp [Shape.addrs, Shape.nodes]

@[simp] theorem Shape.ids_nil : Shape.nil.ids = [] := rfl

@[simp] theorem Shape.ids_node (a : Nat) (i : Int) (f n : Shape) :
    (Shape.node a i f n).ids = i :: (f.ids ++ n.ids) := by
  simp [Shape.ids, Shape.nodes]

/-! ## Lookup -/

theorem findNode_eq_find {m : Store} (id : Int) : ∀ (b : Shape) (p : Ptr) (d : Nat),
    Rep m p b → b.addrs.length < d →
    findNode m d p id = some ((b.nodes.find? (fun x => x.2 = id)).map Prod.fst)
  | .nil, p, d, hb, _ => by
    have hp : p = none := hb
    subst hp
    cases d <;> simp [findNode, Shape.nodes]
  | .node a i f n, p, d, hb, hd => by
    obtain ⟨rfl, nd, hnd, hid, hf, hn⟩ := hb
    obtain ⟨d, rfl⟩ : ∃ j, d = j + 1 := ⟨d - 1, by omega⟩
    simp at hd
    have hdf : f.addrs.length < d := by omega
    have hdn : n.addrs.length < d := by omega
    by_cases hi : i = id
    · simp [findNode, hnd, hid, hi, Shape.nodes]
    · have e1 := findNode_eq_find id f nd.first d hf hdf
      have e2 := findNode_eq_find id n nd.nextToFirst d hn hdn
      simp only [findNode, hnd, hid, hi, if_false, e1, Shape.nodes]
      simp only [List.find?_cons, decide_eq_true_eq, hi, decide_False, List.find?_append]
      cases hfind : f.nodes.find? (fun x => x.2 = id) with
      | none => simp [e2]
      | some x => simp

/-- C4: on a well-formed tree `findNode(root, id)` returns, and its result is the
first node carrying `id` in the order root, subtree of the first child, next
sibling and what follows it; the result is `NULL` exactly when no node of that
traversal carries `id`.  (`findNode` only reads the memory: it is a function of the
memory and returns a pointer, so the store after the call is the store before it.) -/
theorem findNode_first_in_traversal (m : Store) (root : Ptr) (b : Shape) (id : Int) (d : Nat)
    (hwf : WellFormed m root b) (hd : b.addrs.length < d) :
    findNode m d root id = some ((b.nodes.find? (fun x => x.2 = id)).map Prod.fst) ∧
    (findNode m d root id = some none ↔ id ∉ b.ids) := by
  have e := findNode_eq_find id b root d hwf.1 hd
  refine ⟨e, ?_⟩
  rw [e]
  simp only [Shape.ids, Option.some.injEq, Option.map_eq_none', List.find?_eq_none,
    decide_eq_true_eq, List.mem_map, not_exists, not_and, Prod.forall]

/-- C4 at a concrete input: the lookup of id 2 in `memSmallTree`. -/
theorem findNode_first_in_traversal_witness :
    findNode memSmallTree 5 (some 0) 2 =
        some ((shapeSmallTree.nodes.find? (fun x => x.2 = 2)).map Prod.fst) ∧
    (findNode memSmallTree 5 (some 0) 2 = some none ↔ (2 : Int) ∉ shapeSmallTree.ids) :=
  findNode_first_in_traversal memSmallTree (some 0) shapeSmallTree 2 5
    ⟨by simp [Rep, shapeSmallTree, memSmallTree, storeOf], by decide⟩ (by decide)

/-! ## Writes -/

@[simp] theorem Store.set_same (m : Store) (a : Nat) (n : Node) : m.set a n a = some n := by
  simp [Store.set]

theorem Store.set_ne (m : Store) {a x : Nat} (n : Node) (h : x ≠ a) : m.set a n x = m x := by
  simp [Store.set, h]

@[simp] theorem Store.free_same (m : Store) (a : Nat) : m.free a a = none := by
  simp [Store.free]

theorem Store.free_ne (m : Store) {a x : Nat} (h : x ≠ a) : m.free a x = m x := by
  simp [Store.free, h]

/-! ## More on sibling chains -/

theorem Chain.agree {m m' : Store} : ∀ {l : List Nat} {p : Ptr},
    Chain m p l → (∀ a ∈ l, m' a = m a) → Chain m' p l
  | [], _, hl, _ => hl
  | b :: l, p, hl, hm => by
    obtain ⟨hp, n, hn, hrest⟩ := hl
    refine ⟨hp, n, ?_, Chain.agree hrest (fun a ha => hm a (List.mem_cons_of_mem _ ha))⟩
    rw [hm b (List.mem_cons_self _ _)]
    exact hn

theorem Chain.unique {m : Store} : ∀ {l l' : List Nat} {p : Ptr},
    Chain m p l → Chain m p l' → l = l'
  | [], [], _, _, _ => rfl
  | [], _ :: _, p, h, h' => by
    have h1 : p = none := h
    obtain ⟨h2, _⟩ := h'
    simp [h1] at h2
  | _ :: _, [], p, h, h' => by
    have h1 : p = none := h'
    obtain ⟨h2, _⟩ := h
    simp [h1] at h2
  | a :: l, a' :: l', p, h, h' => by
    obtain ⟨hp, n, hn, hrest⟩ := h
    obtain ⟨hp', n', hn', hrest'⟩ := h'
    have haa : a = a' := by
      rw [hp] at hp'
      exact Option.some.inj hp'
    subst haa
    rw [hn] at hn'
    have hnn : n = n' := Option.some.inj hn'
    subst hnn
    rw [Chain.unique hrest hrest']

theorem Chain.from_mem {m : Store} : ∀ {l : List Nat} {p : Ptr} {a : Nat},
    Chain m p l → a ∈ l → ∃ l₁ l₂, l = l₁ ++ a :: l₂ ∧ Chain m (some a) (a :: l₂)
  | [], _, _, _, ha => by simp at ha
  | b :: l, p, a, hl, ha => by
    by_cases hab : a = b
    · subst hab
      obtain ⟨_, n, hn, hrest⟩ := hl
      exact ⟨[], l, rfl, rfl, n, hn, hrest⟩
    · obtain ⟨_, n, _, hrest⟩ := hl
      have ha2 : a ∈ l := by
        rcases List.mem_cons.1 ha with h | h
        · exact absurd h hab
        · exact h
      obtain ⟨l₁, l₂, e, hc⟩ := Chain.from_mem hrest ha2
      exact ⟨b :: l₁, l₂, by simp [e], hc⟩

theorem Chain.nodup {m : Store} : ∀ {l : List Nat} {p : Ptr}, Chain m p l → l.Nodup
  | [], _, _ => List.nodup_nil
  | b :: l, p, hl => by
    obtain ⟨hp, n, hn, hrest⟩ := hl
    refine List.nodup_cons.2 ⟨?_, Chain.nodup hrest⟩
    intro hb
    obtain ⟨l₁, l₂, e, hc⟩ := Chain.from_mem hrest hb
    have hfull : Chain m (some b) (b :: l) := ⟨rfl, n, hn, hrest⟩
    have e2 := Chain.unique hfull hc
    have e3 : l.length = l₂.length := by
      have := congrArg List.length e2
      simpa using this
    have e4 := congrArg List.length e
    simp at e4
    omega

theorem cycleCheck_of_not_mem {m : Store} {c : Nat} : ∀ {l : List Nat} {p : Ptr} {k : Nat},
    Chain m p l → c ∉ l → l.length ≤ k → cycleCheck m c k p = some false
  | [], p, k, hl, _, _ => by
    have hp : p = none := hl
    subst hp
    cases k <;> rfl
  | b :: l, p, k, hl, hc, hk => by
    obtain ⟨rfl, n, hn, hrest⟩ := hl
    obtain ⟨k, rfl⟩ : ∃ j, k = j + 1 := ⟨k - 1, by simp at hk; omega⟩
    have hbc : b ≠ c := fun e => hc (by simp [e])
    have hc2 : c ∉ l := fun e => hc (List.mem_cons_of_mem _ e)
    have hk2 : l.length ≤ k := by simp at hk; omega
    simp [cycleCheck, hbc, hn, cycleCheck_of_not_mem hrest hc2 hk2]

theorem lastSibling_eq {m : Store} : ∀ {l : List Nat} {f : Nat} {k : Nat},
    Chain m (some f) l → l.length ≤ k → ∃ t, lastSibling m k f = some t ∧ l.getLast? = some t
  | [], _, _, hl, _ => by
    have h1 : some _ = none := hl
    simp at h1
  | [a], f, k, hl, hk => by
    obtain ⟨hf, n, hn, hrest⟩ := hl
    have hfa : f = a := Option.some.inj hf
    subst hfa
    have hnone : n.nextToFirst = none := hrest
    obtain ⟨k, rfl⟩ : ∃ j, k = j + 1 := ⟨k - 1, by simp at hk; omega⟩
    exact ⟨f, by simp [lastSibling, hn, hnone], rfl⟩
  | a :: b :: l, f, k, hl, hk => by
    obtain ⟨hf, n, hn, hrest⟩ := hl
    have hfa : f = a := Option.some.inj hf
    subst hfa
    have hnb : n.nextToFirst = some b := hrest.1
    obtain ⟨k, rfl⟩ : ∃ j, k = j + 1 := ⟨k - 1, by simp at hk; omega⟩
    have hk2 : (b :: l).length ≤ k := by simp at hk ⊢; omega
    rw [hnb] at hrest
    obtain ⟨t, ht, hlast⟩ := lastSibling_eq hrest hk2
    refine ⟨t, by simp [lastSibling, hn, hnb, ht], ?_⟩
    rw [List.getLast?_cons_cons]
    exact hlast

/-- Appending to a chain by a write to the `nextToFirst` link of its last node. -/
theorem Chain.snoc_last {m : Store} {c t : Nat} {nt nc : Node} (hnt : m t = some nt)
    (hnc : m c = some nc) (hnext : nc.nextToFirst = none) : ∀ {l : List Nat} {p : Ptr},
    Chain m p l → l.getLast? = some t → l.Nodup → c ∉ l →
    Chain (m.set t { nt with nextToFirst := some c }) p (l ++ [c])
  | [], _, _, hlast, _, _ => by simp at hlast
  | [a], p, hl, hlast, _, hc => by
    obtain ⟨hp, n, hn, _⟩ := hl
    have hat : a = t := by simpa using hlast
    subst hat
    have hca : c ≠ a := fun e => hc (by simp [e])
    refine ⟨hp, _, Store.set_same _ _ _, rfl, nc, ?_, hnext⟩
    rw [Store.set_ne _ _ hca]
    exact hnc
  | a :: b :: l, p, hl, hlast, hnd, hc => by
    obtain ⟨hp, n, hn, hrest⟩ := hl
    rw [List.getLast?_cons_cons] at hlast
    have hc2 : c ∉ b :: l := fun e => hc (List.mem_cons_of_mem _ e)
    have hnd2 := (List.nodup_cons.1 hnd).2
    have hat : a ≠ t := by
      intro e
      have : t ∈ b :: l := List.mem_of_getLast?_eq_some hlast
      exact (List.nodup_cons.1 hnd).1 (e ▸ this)
    refine ⟨hp, n, ?_, Chain.snoc_last hnt hnc hnext hrest hlast hnd2 hc2⟩
    rw [Store.set_ne _ _ hat]
    exact hn

/-! ## Child insertion -/

/-- What `addChild` does when the cycle check passes: one write, to the `first`
link of `parent` when it has no child, else to the `nextToFirst` link of its last
child. -/
theorem addChild_run (F : Nat) (h : Heap) (p c : Nat) (S L : List Nat) (np nc : Node)
    (hS : Chain h.mem (some p) S) (hcS : c ∉ S) (hp : h.mem p = some np)
    (hL : Chain h.mem np.first L) (hc : h.mem c = some nc)
    (hFS : S.length ≤ F) (hFL : L.length ≤ F) :
    ∃ m', addChild F h (some p) (some c) =
        some { mem := m', err := h.err ++ [Diag.added nc.id nc.name np.id np.name] } ∧
      ((L = [] ∧ m' = h.mem.set p { np with first := some c }) ∨
       (∃ t nt, L.getLast? = some t ∧ h.mem t = some nt ∧
          m' = h.mem.set t { nt with nextToFirst := some c })) := by
  have hcc := cycleCheck_of_not_mem hS hcS hFS
  cases L with
  | nil =>
    have hfirst : np.first = none := hL
    refine ⟨_, ?_, Or.inl ⟨rfl, rfl⟩⟩
    simp [addChild, hcc, hp, hc, hfirst]
  | cons a L =>
    have hfirst : np.first = some a := hL.1
    rw [hfirst] at hL
    obtain ⟨t, ht, hlast⟩ := lastSibling_eq hL hFL
    obtain ⟨nt, hnt⟩ := Chain.alloc hL (List.mem_of_getLast?_eq_some hlast)
    refine ⟨_, ?_, Or.inr ⟨t, nt, hlast, hnt, rfl⟩⟩
    simp [addChild, hcc, hp, hc, hfirst, ht, hnt]

/-- C2, as amended: for every memory, when the sibling chain of `parent` is finite
and does not hold `child`, the child chain of `parent` is finite and does not hold
`child`, and the `nextToFirst` link of `child` is empty, `addChild(parent, child)`
returns and the child list of `parent` is its previous child list, in the same
order, followed by `child` as the last entry. -/
theorem addChild_appends_child (F : Nat) (h : Heap) (p c : Nat) (S L : List Nat)
    (np nc : Node) (hS : Chain h.mem (some p) S) (hcS : c ∉ S) (hp : h.mem p = some np)
    (hL : Chain h.mem np.first L) (hcL : c ∉ L) (hc : h.mem c = some nc)
    (hnext : nc.nextToFirst = none) (hFS : S.length ≤ F) (hFL : L.length ≤ F) :
    ∃ h' np', addChild F h (some p) (some c) = some h' ∧ h'.mem p = some np' ∧
      Chain h'.mem np'.first (L ++ [c]) ∧
      h'.err = h.err ++ [Diag.added nc.id nc.name np.id np.name] := by
  obtain ⟨m', hrun, hw⟩ := addChild_run F h p c S L np nc hS hcS hp hL hc hFS hFL
  have hpS : p ∈ S := by
    cases S with
    | nil =>
      have h1 : some p = none := hS
      simp at h1
    | cons b S => obtain ⟨hb, _⟩ := hS; simp at hb; simp [hb]
  have hcp : c ≠ p := fun e => hcS (e ▸ hpS)
  rcases hw with ⟨rfl, rfl⟩ | ⟨t, nt, hlast, hnt, rfl⟩
  · refine ⟨_, _, hrun, Store.set_same _ _ _, ?_, rfl⟩
    refine ⟨rfl, nc, ?_, hnext⟩
    show (h.mem.set p _) c = some nc
    rw [Store.set_ne _ _ hcp]
    exact hc
  · have hch := Chain.snoc_last hnt hc hnext hL hlast (Chain.nodup hL) hcL
    by_cases htp : p = t
    · subst htp
      rw [hp] at hnt
      have hnn : np = nt := Option.some.inj hnt
      subst hnn
      exact ⟨_, _, hrun, Store.set_same _ _ _, hch, rfl⟩
    · refine ⟨_, np, hrun, ?_, hch, rfl⟩
      show (h.mem.set t _) p = some np
      rw [Store.set_ne _ _ htp]
      exact hp

/-- C2 as amended, at a concrete input: the loose node 3 is added to root 0 of
`memSiblingsAndLoose`, whose children are 1 and 2. -/
theorem addChild_appends_child_witness :
    ∃ h' np', addChild 2 { mem := memSiblingsAndLoose, err := [] } (some 0) (some 3) = some h' ∧
      h'.mem 0 = some np' ∧ Chain h'.mem np'.first ([1, 2] ++ [3]) ∧
      h'.err = [] ++ [Diag.added 3 [67] 0 [114]] :=
  addChild_appends_child 2 { mem := memSiblingsAndLoose, err := [] } 0 3 [0] [1, 2]
    { id := 0, name := [114], first := some 1, nextToFirst := none }
    { id := 3, name := [67], first := none, nextToFirst := none }
    (by simp [Chain, memSiblingsAndLoose, storeOf]) (by decide) rfl
    (by simp [Chain, memSiblingsAndLoose, storeOf]) (by decide) rfl rfl (by decide) (by decide)

/-- C2, counterexample: node 3 has no child and no sibling and node 1 is linked
nowhere reachable from node 3 (it is the first child of node 0, followed by node 2).
After `addChild(3, 1)` the child list of node 3 is `[1, 2]`: node 1 is not its
last entry, the list is not the previous one followed by node 1. -/
theorem addChild_child_with_sibling_not_last :
    ∃ h' n3 n3', memSiblingsAndLoose 3 = some n3 ∧ n3.nextToFirst = none ∧
      Chain memSiblingsAndLoose n3.first [] ∧
      addChild 4 { mem := memSiblingsAndLoose, err := [] } (some 3) (some 1) = some h' ∧
      h'.mem 3 = some n3' ∧ Chain h'.mem n3'.first [1, 2] ∧
      ¬ Chain h'.mem n3'.first ([] ++ [1]) := by
  refine ⟨_, _, _, rfl, rfl, rfl, rfl, rfl, ?_, ?_⟩
  · simp [Chain, memSiblingsAndLoose, storeOf, Store.set]
  · simp [Chain, memSiblingsAndLoose, storeOf, Store.set]

/-! ## Unfoldings -/

theorem Rep.congr {m m' : Store} : ∀ {b : Shape} {p : Ptr},
    Rep m p b → (∀ a ∈ b.addrs, m' a = m a) → Rep m' p b
  | .nil, _, hb, _ => hb
  | .node a i f n, p, hb, hm => by
    obtain ⟨hp, nd, hnd, hid, hf, hn⟩ := hb
    have ha : m' a = m a := hm a (by simp)
    refine ⟨hp, nd, ha ▸ hnd, hid, Rep.congr hf ?_, Rep.congr hn ?_⟩
    · intro x hx
      exact hm x (by simp [hx])
    · intro x hx
      exact hm x (by simp [hx])

theorem Shape.spine_subset_addrs : ∀ (b : Shape), ∀ a ∈ b.spine, a ∈ b.addrs
  | .nil, a, h => by simp [Shape.spine] at h
  | .node x i f n, a, h => by
    simp only [Shape.spine, List.mem_cons] at h
    rcases h with rfl | h
    · simp
    · simp [Shape.spine_subset_addrs n a h]

theorem Shape.spine_length_le : ∀ (b : Shape), b.spine.length ≤ b.addrs.length
  | .nil => by simp [Shape.spine]
  | .node x i f n => by
    have := Shape.spine_length_le n
    simp [Shape.spine]
    omega

theorem Rep.chain {m : Store} : ∀ {b : Shape} {p : Ptr}, Rep m p b → Chain m p b.spine
  | .nil, _, hb => hb
  | .node _ _ _ _, _, hb => by
    obtain ⟨hp, nd, hnd, _, _, hn⟩ := hb
    exact ⟨hp, nd, hnd, Rep.chain hn⟩

/-! ## Removal: the id is absent -/

theorem scanId_absent {m : Store} {id : Int} : ∀ (b : Shape) (p parent : Ptr) (k : Nat),
    Rep m p b → id ∉ b.ids → b.spine.length ≤ k → scanId m id k parent p = some none
  | .nil, p, parent, k, hb, _, _ => by
    have hp : p = none := hb
    subst hp
    cases k <;> rfl
  | .node a i f n, p, parent, k, hb, hid, hk => by
    obtain ⟨rfl, nd, hnd, hi, _, hn⟩ := hb
    obtain ⟨k, rfl⟩ : ∃ j, k = j + 1 := ⟨k - 1, by simp [Shape.spine] at hk; omega⟩
    have hne : ¬ nd.id = id := by
      intro e
      apply hid
      simp [← e, hi]
    have hid2 : id ∉ n.ids := fun e => hid (by simp [e])
    have hk2 : n.spine.length ≤ k := by simp [Shape.spine] at hk; omega
    simp [scanId, hnd, hne, scanId_absent n nd.nextToFirst (some a) k hn hid2 hk2]

theorem removeNode_absent_aux (F : Nat) (id : Int) (keep : Bool) (hid0 : id ≠ 0) :
    ∀ (b : Shape) (d k : Nat) (h : Heap) (p : Ptr),
      Rep h.mem p b → id ∉ b.ids → b.addrs.length ≤ F → b.addrs.length ≤ d →
      b.spine.length ≤ k →
      forEachChild (fun h' t => removeNode F d h' (some t) id keep) k h p = some h
  | .nil, d, k, h, p, hb, _, _, _, _ => by
    have hp : p = none := hb
    subst hp
    cases k <;> rfl
  | .node a i f n, d, k, h, p, hb, hid, hF, hd, hk => by
    obtain ⟨rfl, nd, hnd, hi, hf, hn⟩ := hb
    obtain ⟨k, rfl⟩ : ∃ j, k = j + 1 := ⟨k - 1, by simp [Shape.spine] at hk; omega⟩
    obtain ⟨d, rfl⟩ : ∃ j, d = j + 1 := ⟨d - 1, by simp at hd; omega⟩
    simp at hF hd
    have hidf : id ∉ f.ids := fun e => hid (by simp [e])
    have hidn : id ∉ n.ids := fun e => hid (by simp [e])
    have hsf := Shape.spine_length_le f
    have hscan := scanId_absent f nd.first none F hf hidf (by omega)
    have hin := removeNode_absent_aux F id keep hid0 f d F h nd.first hf hidf
      (by omega) (by omega) (by omega)
    have hvisit : removeNode F (d + 1) h (some a) id keep = some h := by
      simp [removeNode, hid0, hnd, hscan, hin]
    have hrest := removeNode_absent_aux F id keep hid0 n (d + 1) k h nd.nextToFirst hn hidn
      (by omega) (by omega) (by simp [Shape.spine] at hk; omega)
    simp [forEachChild, hvisit, hnd, hrest]

/-- C8: `removeNode(root, id, keepSubtree)` returns and leaves the memory (every
link and every payload) and the diagnostics as they were, whichever the policy flag,
when `root` is `NULL`, when `id` is 0, and when `root` is a well-formed tree none of
whose nodes below the root carries `id`. -/
theorem removeNode_absent_is_noop (F d : Nat) (h : Heap) (root : Ptr) (id : Int) (keep : Bool)
    (hcase : root = none ∨ id = 0 ∨
      ∃ r ir f nx, root = some r ∧ WellFormed h.mem root (.node r ir f nx) ∧ id ∉ f.ids ∧
        (Shape.node r ir f nx).addrs.length ≤ F ∧ (Shape.node r ir f nx).addrs.length ≤ d) :
    removeNode F d h root id keep = some h := by
  rcases hcase with rfl | rfl | ⟨r, ir, f, nx, rfl, hwf, hid, hF, hd⟩
  · cases d <;> rfl
  · cases root with
    | none => cases d <;> rfl
    | some r => cases d <;> simp [removeNode]
  · by_cases hid0 : id = 0
    · subst hid0
      cases d <;> simp [removeNode]
    · obtain ⟨⟨_, nd, hnd, hi, hf, hn⟩, _⟩ := hwf
      obtain ⟨d, rfl⟩ : ∃ j, d = j + 1 := ⟨d - 1, by simp at hd; omega⟩
      simp at hF hd
      have hsf := Shape.spine_length_le f
      have hscan := scanId_absent f nd.first none F hf hid (by omega)
      have hin := removeNode_absent_aux F id keep hid0 f d F h nd.first hf hid
        (by omega) (by omega) (by omega)
      simp [removeNode, hid0, hnd, hscan, hin]

/-- C8 at a concrete input: no node of `memSmallTree` carries id 7. -/
theorem removeNode_absent_is_noop_witness :
    removeNode 4 4 { mem := memSmallTree, err := [] } (some 0) 7 true =
      some { mem := memSmallTree, err := [] } :=
  removeNode_absent_is_noop 4 4 { mem := memSmallTree, err := [] } (some 0) 7 true
    (Or.inr (Or.inr ⟨0, 0, .node 1 1 (.node 3 3 .nil .nil) (.node 2 2 .nil .nil), .nil, rfl,
      ⟨by simp [Rep, memSmallTree, storeOf], by decide⟩, by decide, by decide, by decide⟩))

/-! ## Counting addresses -/

theorem not_mem_of_count_eq_zero {a : Nat} {l : List Nat} (h : l.count a = 0) : a ∉ l :=
  List.count_eq_zero.1 h

theorem Shape.addrs_append : ∀ (b c : Shape), (b.append c).addrs = b.addrs ++ c.addrs
  | .nil, c => by simp [Shape.append]
  | .node a i f n, c => by simp [Shape.append, Shape.addrs_append n c]

theorem Shape.ids_append : ∀ (b c : Shape), (b.append c).ids = b.ids ++ c.ids
  | .nil, c => by simp [Shape.append]
  | .node a i f n, c => by simp [Shape.append, Shape.ids_append n c]

theorem Shape.spine_append : ∀ (b c : Shape), (b.append c).spine = b.spine ++ c.spine
  | .nil, c => by simp [Shape.append, Shape.spine]
  | .node a i f n, c => by simp [Shape.append, Shape.spine, Shape.spine_append n c]

theorem Shape.append_assoc : ∀ (a b c : Shape), (a.append b).append c = a.append (b.append c)
  | .nil, b, c => by simp [Shape.append]
  | .node x i f n, b, c => by simp [Shape.append, Shape.append_assoc n b c]

theorem Shape.append_nil : ∀ (a : Shape), a.append .nil = a
  | .nil => rfl
  | .node x i f n => by simp [Shape.append, Shape.append_nil n]

theorem Shape.spine_eq_nil : ∀ {b : Shape}, b.spine = [] → b = .nil
  | .nil, _ => rfl
  | .node _ _ _ _, h => by simp [Shape.spine] at h

/-- Linking the shape `cs` after the last node of the chain of `cur`, by a write to
the `nextToFirst` link of that node. -/
theorem Rep.snoc {m : Store} {c t : Nat} {nt : Node} {cs : Shape} (hnt : m t = some nt) :
    ∀ {cur : Shape} {p : Ptr},
    Rep m p cur → cur.spine.getLast? = some t → (cur.addrs ++ cs.addrs).Nodup →
    Rep m (some c) cs →
    Rep (m.set t { nt with nextToFirst := some c }) p (cur.append cs)
  | .nil, _, _, hlast, _, _ => by simp [Shape.spine] at hlast
  | .node a i f n, p, hcur, hlast, hnd, hcs => by
    obtain ⟨hp, nd, hnda, hid, hf, hn⟩ := hcur
    have hcount := List.nodup_iff_count_le_one.1 hnd
    have hframe : ∀ (b : Shape) (q : Ptr), Rep m q b → t ∉ b.addrs →
        Rep (m.set t { nt with nextToFirst := some c }) q b := by
      intro b q hb htb
      refine Rep.congr hb ?_
      intro x hx
      exact Store.set_ne _ _ (fun e => htb (e ▸ hx))
    cases n with
    | nil =>
      have hat : a = t := by simpa [Shape.spine] using hlast
      subst hat
      rw [hnda] at hnt
      have hnn : nd = nt := Option.some.inj hnt
      subst hnn
      have hf' : a ∉ f.addrs := by
        apply not_mem_of_count_eq_zero
        have := hcount a
        simp only [Shape.addrs_node, Shape.addrs_nil, List.count_append, List.count_cons,
          List.count_nil, List.cons_append, beq_self_eq_true, if_true] at this
        omega
      have hc' : a ∉ cs.addrs := by
        apply not_mem_of_count_eq_zero
        have := hcount a
        simp only [Shape.addrs_node, Shape.addrs_nil, List.count_append, List.count_cons,
          List.count_nil, List.cons_append, beq_self_eq_true, if_true] at this
        omega
      exact ⟨hp, _, Store.set_same _ _ _, hid, hframe f _ hf hf', hframe cs _ hcs hc'⟩
    | node a' i' f' n' =>
      have hlast' : (Shape.node a' i' f' n').spine.getLast? = some t := by
        simpa [Shape.spine, List.getLast?_cons_cons] using hlast
      have htn : t ∈ (Shape.node a' i' f' n').addrs :=
        Shape.spine_subset_addrs _ _ (List.mem_of_getLast?_eq_some hlast')
      have htc := List.count_pos_iff.2 htn
      have hat : a ≠ t := by
        rintro rfl
        have := hcount a
        simp only [Shape.addrs_node, List.count_append, List.count_cons,
          List.count_nil, List.cons_append, beq_self_eq_true, if_true] at this htc
        omega
      have hf' : t ∉ f.addrs := by
        apply not_mem_of_count_eq_zero
        have := hcount t
        simp only [Shape.addrs_node, List.count_append, List.count_cons,
          List.count_nil, List.cons_append] at this htc
        omega
      have hnd' : ((Shape.node a' i' f' n').addrs ++ cs.addrs).Nodup := by
        rw [List.nodup_iff_count_le_one]
        intro x
        have := hcount x
        simp only [Shape.addrs_node, List.count_append, List.count_cons,
          List.count_nil, List.cons_append] at this ⊢
        omega
      refine ⟨hp, nd, ?_, hid, hframe f _ hf hf', Rep.snoc hnt hn hlast' hnd' hcs⟩
      rw [Store.set_ne _ _ hat]
      exact hnda

theorem Rep.frame_set {m : Store} {b : Shape} {q : Ptr} (hb : Rep m q b) {t : Nat} (n : Node)
    (ht : t ∉ b.addrs) : Rep (m.set t n) q b :=
  Rep.congr hb (fun _ hx => Store.set_ne _ _ (fun e => ht (e ▸ hx)))

theorem Rep.head_mem {m : Store} {c : Nat} : ∀ {cs : Shape}, Rep m (some c) cs → c ∈ cs.addrs
  | .nil, h => by
    have h1 : some c = none := h
    simp at h1
  | .node a _ _ _, h => by
    have h1 : c = a := Option.some.inj h.1
    simp [h1]

/-- The effect of `addChild` on unfoldings: the shape of `child` is linked after the
last child of `parent`. -/
theorem addChild_rep (F : Nat) (h : Heap) (r c : Nat) (ir : Int) (cur nx cs : Shape)
    (hr : Rep h.mem (some r) (.node r ir cur nx)) (hc : Rep h.mem (some c) cs)
    (hnd : ((Shape.node r ir cur nx).addrs ++ cs.addrs).Nodup)
    (hF : (Shape.node r ir cur nx).addrs.length ≤ F) :
    ∃ h', addChild F h (some r) (some c) = some h' ∧
      Rep h'.mem (some r) (.node r ir (cur.append cs) nx) ∧
      (∀ a, a ∉ r :: cur.spine → h'.mem a = h.mem a) := by
  have hcount := List.nodup_iff_count_le_one.1 hnd
  have hchain := Rep.chain hr
  obtain ⟨_, nr, hnr, hid, hcur, hnx⟩ := hr
  have hcmem := List.count_pos_iff.2 (Rep.head_mem hc)
  have hcS : c ∉ (Shape.node r ir cur nx).spine := by
    intro hmem
    have h1 := List.count_pos_iff.2 (Shape.spine_subset_addrs _ _ hmem)
    have := hcount c
    simp only [List.count_append] at this
    omega
  obtain ⟨nc, hnc⟩ : ∃ nc, h.mem c = some nc := by
    cases cs with
    | nil =>
      have h1 : some c = none := hc
      simp at h1
    | node a i f n =>
      obtain ⟨h1, nd, hnd', _⟩ := hc
      have h2 : c = a := Option.some.inj h1
      exact ⟨nd, h2 ▸ hnd'⟩
  have hlenS : (Shape.node r ir cur nx).spine.length ≤ F :=
    le_trans (Shape.spine_length_le _) hF
  have hlenL : cur.spine.length ≤ F := by
    have := Shape.spine_length_le cur
    simp at hF
    omega
  obtain ⟨m', hrun, hw⟩ := addChild_run F h r c _ cur.spine nr nc hchain hcS hnr
    (Rep.chain hcur) hnc hlenS hlenL
  have hr_cs : r ∉ cs.addrs := by
    apply not_mem_of_count_eq_zero
    have := hcount r
    simp only [Shape.addrs_node, List.count_append, List.count_cons, List.cons_append,
      beq_self_eq_true, if_true] at this
    omega
  have hr_nx : r ∉ nx.addrs := by
    apply not_mem_of_count_eq_zero
    have := hcount r
    simp only [Shape.addrs_node, List.count_append, List.count_cons, List.cons_append,
      beq_self_eq_true, if_true] at this
    omega
  rcases hw with ⟨hnil, rfl⟩ | ⟨t, nt, hlast, hnt, rfl⟩
  · have hcn : cur = .nil := Shape.spine_eq_nil hnil
    subst hcn
    refine ⟨_, hrun, ?_, ?_⟩
    · exact ⟨rfl, _, Store.set_same _ _ _, hid, Rep.frame_set hc _ hr_cs,
        Rep.frame_set hnx _ hr_nx⟩
    · intro a ha
      exact Store.set_ne _ _ (fun e => ha (by simp [e]))
  · have htcur : t ∈ cur.addrs :=
      Shape.spine_subset_addrs _ _ (List.mem_of_getLast?_eq_some hlast)
    have htc := List.count_pos_iff.2 htcur
    have hrt : r ≠ t := by
      rintro rfl
      have := hcount r
      simp only [Shape.addrs_node, List.count_append, List.count_cons, List.cons_append,
        beq_self_eq_true, if_true] at this
      omega
    have ht_nx : t ∉ nx.addrs := by
      apply not_mem_of_count_eq_zero
      have := hcount t
      simp only [Shape.addrs_node, List.count_append, List.count_cons,
        List.cons_append] at this
      omega
    have hnd' : (cur.addrs ++ cs.addrs).Nodup := by
      rw [List.nodup_iff_count_le_one]
      intro x
      have := hcount x
      simp only [Shape.addrs_node, List.count_append, List.count_cons,
        List.cons_append] at this ⊢
      omega
    refine ⟨_, hrun, ?_, ?_⟩
    · refine ⟨rfl, nr, ?_, hid, Rep.snoc hnt hcur hlast hnd' hc, Rep.frame_set hnx _ ht_nx⟩
      show (h.mem.set t _) r = some nr
      rw [Store.set_ne _ _ hrt]
      exact hnr
    · intro a ha
      refine Store.set_ne _ _ (fun e => ha ?_)
      rw [e]
      exact List.mem_cons_of_mem _ (List.mem_of_getLast?_eq_some hlast)

/-! ## Removal: promotion of the children -/

/-- The promotion loop links the pending children, one after the other and with
their subtrees, after the last child of `root`. -/
theorem promoteLoop_rep (F r : Nat) (ir : Int) (nx : Shape) :
    ∀ (pend cur : Shape) (h : Heap) (p : Ptr) (k : Nat),
      Rep h.mem (some r) (.node r ir cur nx) → Rep h.mem p pend →
      ((Shape.node r ir cur nx).addrs ++ pend.addrs).Nodup →
      (Shape.node r ir cur nx).addrs.length + pend.addrs.length ≤ F →
      pend.spine.length ≤ k →
      ∃ h', promoteLoop F r k h p = some h' ∧
        Rep h'.mem (some r) (.node r ir (cur.append pend) nx) ∧
        (∀ a, a ∉ r :: (cur.addrs ++ pend.addrs) → h'.mem a = h.mem a)
  | .nil, cur, h, p, k, hr, hp, _, _, _ => by
    have hp' : p = none := hp
    subst hp'
    refine ⟨h, by cases k <;> rfl, ?_, fun _ _ => rfl⟩
    rw [Shape.append_nil]
    exact hr
  | .node c ic fc nc', cur, h, p, k, hr, hp, hnd, hF, hk => by
    obtain ⟨rfl, ndc, hndc, hidc, hfc, hnc'⟩ := hp
    obtain ⟨k, rfl⟩ : ∃ j, k = j + 1 := ⟨k - 1, by simp [Shape.spine] at hk; omega⟩
    have hcount := List.nodup_iff_count_le_one.1 hnd
    have hc_r : c ∉ (Shape.node r ir cur nx).addrs := by
      apply not_mem_of_count_eq_zero
      have := hcount c
      simp only [Shape.addrs_node, List.count_append, List.count_cons, List.cons_append,
        beq_self_eq_true, if_true] at this ⊢
      omega
    have hc_fc : c ∉ fc.addrs := by
      apply not_mem_of_count_eq_zero
      have := hcount c
      simp only [Shape.addrs_node, List.count_append, List.count_cons, List.cons_append,
        beq_self_eq_true, if_true] at this ⊢
      omega
    have hc_nc : c ∉ nc'.addrs := by
      apply not_mem_of_count_eq_zero
      have := hcount c
      simp only [Shape.addrs_node, List.count_append, List.count_cons, List.cons_append,
        beq_self_eq_true, if_true] at this ⊢
      omega
    have hra := Rep.frame_set hr { ndc with nextToFirst := none } hc_r
    have hca : Rep (h.mem.set c { ndc with nextToFirst := none }) (some c)
        (.node c ic fc .nil) :=
      ⟨rfl, _, Store.set_same _ _ _, hidc, Rep.frame_set hfc _ hc_fc, rfl⟩
    have hnda : ((Shape.node r ir cur nx).addrs ++ (Shape.node c ic fc .nil).addrs).Nodup := by
      rw [List.nodup_iff_count_le_one]
      intro x
      have := hcount x
      simp only [Shape.addrs_node, Shape.addrs_nil, List.count_append, List.count_cons,
        List.count_nil, List.cons_append] at this ⊢
      omega
    obtain ⟨hb, hrun, hrepb, hframeb⟩ := addChild_rep F
      { mem := h.mem.set c { ndc with nextToFirst := none },
        err := h.err ++ [Diag.promoting ndc.id ndc.name] } r c ir cur nx _ hra hca hnda
      (by omega)
    have hpend : Rep hb.mem ndc.nextToFirst nc' := by
      refine Rep.congr hnc' ?_
      intro x hx
      have hxc := List.count_pos_iff.2 hx
      have hx1 : x ∉ r :: cur.spine := by
        intro hmem
        have hmem2 : x ∈ (Shape.node r ir cur nx).addrs := by
          rcases List.mem_cons.1 hmem with e | e
          · simp [e]
          · simp [Shape.spine_subset_addrs _ _ e]
        have h1 := List.count_pos_iff.2 hmem2
        have := hcount x
        simp only [Shape.addrs_node, List.count_append, List.count_cons,
          List.cons_append] at this h1
        omega
      rw [hframeb x hx1]
      exact Store.set_ne _ _ (fun e => hc_nc (e ▸ hx))
    have hndb : ((Shape.node r ir (cur.append (.node c ic fc .nil)) nx).addrs
        ++ nc'.addrs).Nodup := by
      rw [List.nodup_iff_count_le_one]
      intro x
      have := hcount x
      simp only [Shape.addrs_node, Shape.addrs_nil, Shape.addrs_append, List.count_append,
        List.count_cons, List.count_nil, List.cons_append] at this ⊢
      omega
    obtain ⟨h', hloop, hrep', hframe'⟩ := promoteLoop_rep F r ir nx nc'
      (cur.append (.node c ic fc .nil)) hb ndc.nextToFirst k hrepb hpend hndb
      (by simp [Shape.addrs_append] at hF ⊢; omega)
      (by simp [Shape.spine] at hk; omega)
    refine ⟨h', ?_, ?_, ?_⟩
    · simp [promoteLoop, hndc, hrun, hloop]
    · rw [Shape.append_assoc] at hrep'
      simpa [Shape.append] using hrep'
    · intro a ha
      have ha1 : a ∉ r :: ((cur.append (.node c ic fc .nil)).addrs ++ nc'.addrs) := by
        intro hmem
        apply ha
        simp only [Shape.addrs_append, Shape.addrs_node, Shape.addrs_nil, List.mem_cons,
          List.mem_append, List.append_nil] at hmem ⊢
        tauto
      have ha2 : a ∉ r :: cur.spine := by
        intro hmem
        apply ha
        rcases List.mem_cons.1 hmem with e | e
        · simp [e]
        · simp [Shape.spine_subset_addrs _ _ e]
      have ha3 : a ≠ c := by
        rintro rfl
        apply ha
        simp
      rw [hframe' a ha1, hframeb a ha2]
      exact Store.set_ne _ _ ha3

/-! ## Removal: the scan and the unlinking -/

theorem Shape.unlinkId_nodes {id : Int} : ∀ {b : Shape} {t : Nat} {ft rest : Shape},
    Shape.unlinkId id b = some (t, ft, rest) →
    List.Perm b.nodes ((t, id) :: (ft.nodes ++ rest.nodes))
  | .nil, _, _, _, h => by simp [Shape.unlinkId] at h
  | .node a i f n, t, ft, rest, h => by
    by_cases hi : i = id
    · simp only [Shape.unlinkId, hi, if_true, Option.some.injEq, Prod.mk.injEq] at h
      obtain ⟨rfl, rfl, rfl⟩ := h
      rw [hi]
      exact List.Perm.refl _
    · simp only [Shape.unlinkId, hi, if_false] at h
      cases hrec : Shape.unlinkId id n with
      | none => simp [hrec] at h
      | some res =>
        obtain ⟨t', ft', rest'⟩ := res
        simp only [hrec, Option.some.injEq, Prod.mk.injEq] at h
        obtain ⟨rfl, rfl, rfl⟩ := h
        have ih := Shape.unlinkId_nodes hrec
        simp only [Shape.nodes]
        rw [List.perm_iff_count]
        intro x
        have := List.perm_iff_count.1 ih x
        simp only [List.count_append, List.count_cons, List.cons_append] at this ⊢
        omega

theorem Shape.unlinkId_count {id : Int} {b : Shape} {t : Nat} {ft rest : Shape}
    (h : Shape.unlinkId id b = some (t, ft, rest)) (x : Nat) :
    b.addrs.count x = [t].count x + (ft.addrs.count x + rest.addrs.count x) := by
  have hp := (Shape.unlinkId_nodes h).map Prod.fst
  have := List.perm_iff_count.1 hp x
  simp only [List.map_cons, List.map_append, List.count_cons, List.count_append,
    List.count_nil] at this ⊢
  simp only [Shape.addrs]
  omega

theorem Shape.unlinkId_spine_length {id : Int} : ∀ {b : Shape} {t : Nat} {ft rest : Shape},
    Shape.unlinkId id b = some (t, ft, rest) → rest.spine.length + 1 = b.spine.length
  | .nil, _, _, _, h => by simp [Shape.unlinkId] at h
  | .node a i f n, t, ft, rest, h => by
    by_cases hi : i = id
    · simp only [Shape.unlinkId, hi, if_true, Option.some.injEq, Prod.mk.injEq] at h
      obtain ⟨rfl, rfl, rfl⟩ := h
      simp [Shape.spine]
    · simp only [Shape.unlinkId, hi, if_false] at h
      cases hrec : Shape.unlinkId id n with
      | none => simp [hrec] at h
      | some res =>
        obtain ⟨t', ft', rest'⟩ := res
        simp only [hrec, Option.some.injEq, Prod.mk.injEq] at h
        obtain ⟨rfl, rfl, rfl⟩ := h
        have ih := Shape.unlinkId_spine_length hrec
        simp [Shape.spine, ih]

theorem scanId_of_unlinkId_none {m : Store} {id : Int} :
    ∀ (b : Shape) (p parent : Ptr) (k : Nat),
    Rep m p b → Shape.unlinkId id b = none → b.spine.length ≤ k →
    scanId m id k parent p = some none
  | .nil, p, parent, k, hb, _, _ => by
    have hp : p = none := hb
    subst hp
    cases k <;> rfl
  | .node a i f n, p, parent, k, hb, hu, hk => by
    obtain ⟨rfl, nd, hnd, hi, _, hn⟩ := hb
    obtain ⟨k, rfl⟩ : ∃ j, k = j + 1 := ⟨k - 1, by simp [Shape.spine] at hk; omega⟩
    have hne : ¬ i = id := by
      intro e
      simp [Shape.unlinkId, e] at hu
    have hu2 : Shape.unlinkId id n = none := by
      cases hrec : Shape.unlinkId id n with
      | none => rfl
      | some res => simp [Shape.unlinkId, hne, hrec] at hu
    have hk2 : n.spine.length ≤ k := by simp [Shape.spine] at hk; omega
    have hne' : ¬ nd.id = id := hi ▸ hne
    simp [scanId, hnd, hne', scanId_of_unlinkId_none n nd.nextToFirst (some a) k hn hu2 hk2]

/-- The scan finds the first node of the chain that carries `id`; the write to the
link that leads to it (done by the caller for the head of the chain, and here
described for a later node) unlinks it. -/
theorem scanId_unlink {m : Store} {id : Int} :
    ∀ (b : Shape) (p parent : Ptr) (k : Nat) (t : Nat) (ft rest : Shape),
    Rep m p b → b.addrs.Nodup → b.spine.length ≤ k →
    Shape.unlinkId id b = some (t, ft, rest) →
    ∃ nt, m t = some nt ∧ Rep m nt.first ft ∧
      ((scanId m id k parent p = some (some (parent, t)) ∧ Rep m nt.nextToFirst rest) ∨
       (∃ q nq, scanId m id k parent p = some (some (some q, t)) ∧ m q = some nq ∧
          q ∈ rest.addrs ∧ Rep (m.set q { nq with nextToFirst := nt.nextToFirst }) p rest))
  | .nil, _, _, _, _, _, _, _, _, _, h => by simp [Shape.unlinkId] at h
  | .node a i f n, p, parent, k, t, ft, rest, hb, hnd, hk, hu => by
    obtain ⟨rfl, nd, hnda, hi, hf, hn⟩ := hb
    obtain ⟨k, rfl⟩ : ∃ j, k = j + 1 := ⟨k - 1, by simp [Shape.spine] at hk; omega⟩
    have hcount := List.nodup_iff_count_le_one.1 hnd
    by_cases hid : i = id
    · simp only [Shape.unlinkId, hid, if_true, Option.some.injEq, Prod.mk.injEq] at hu
      obtain ⟨rfl, rfl, rfl⟩ := hu
      refine ⟨nd, hnda, hf, Or.inl ⟨?_, hn⟩⟩
      simp [scanId, hnda, hi, hid]
    · simp only [Shape.unlinkId, hid, if_false] at hu
      cases hrec : Shape.unlinkId id n with
      | none => simp [hrec] at hu
      | some res =>
        obtain ⟨t', ft', rest'⟩ := res
        simp only [hrec, Option.some.injEq, Prod.mk.injEq] at hu
        obtain ⟨rfl, rfl, rfl⟩ := hu
        have hndn : n.addrs.Nodup := by
          rw [List.nodup_iff_count_le_one]
          intro x
          have := hcount x
          simp only [Shape.addrs_node, List.count_append, List.count_cons] at this
          omega
        have hk2 : n.spine.length ≤ k := by simp [Shape.spine] at hk; omega
        have hne' : ¬ nd.id = id := hi ▸ hid
        have hucount := Shape.unlinkId_count hrec
        obtain ⟨nt, hnt, hft, hcase⟩ := scanId_unlink n nd.nextToFirst (some a) k t' ft' rest'
          hn hndn hk2 hrec
        refine ⟨nt, hnt, hft, Or.inr ?_⟩
        have ha_f : a ∉ f.addrs := by
          apply not_mem_of_count_eq_zero
          have := hcount a
          simp only [Shape.addrs_node, List.count_append, List.count_cons, beq_self_eq_true,
            if_true] at this
          omega
        have ha_n : a ∉ n.addrs := by
          apply not_mem_of_count_eq_zero
          have := hcount a
          simp only [Shape.addrs_node, List.count_append, List.count_cons, beq_self_eq_true,
            if_true] at this
          omega
        rcases hcase with ⟨hscan, hrest⟩ | ⟨q, nq, hscan, hnq, hq, hrest⟩
        · refine ⟨a, nd, ?_, hnda, by simp, ?_⟩
          · simp [scanId, hnda, hne', hscan]
          · have ha_rest : a ∉ rest'.addrs := by
              intro hmem
              have h1 := List.count_pos_iff.2 hmem
              have h2 := hucount a
              have h3 : n.addrs.count a = 0 := List.count_eq_zero.2 ha_n
              omega
            exact ⟨rfl, _, Store.set_same _ _ _, hi, Rep.frame_set hf _ ha_f,
              Rep.frame_set hrest _ ha_rest⟩
        · have hq_n : q ∈ n.addrs := by
            apply List.count_pos_iff.1
            have h1 := List.count_pos_iff.2 hq
            have h2 := hucount q
            omega
          have hqa : a ≠ q := fun e => ha_n (e ▸ hq_n)
          have hq_f : q ∉ f.addrs := by
            apply not_mem_of_count_eq_zero
            have h1 := List.count_pos_iff.2 hq_n
            have := hcount q
            simp only [Shape.addrs_node, List.count_append, List.count_cons] at this
            omega
          refine ⟨q, nq, ?_, hnq, by simp [hq], ?_⟩
          · simp [scanId, hnda, hne', hscan]
          · refine ⟨rfl, nd, ?_, hi, Rep.frame_set hf _ hq_f, hrest⟩
            rw [Store.set_ne _ _ hqa]
            exact hnda

theorem Shape.remove_true_of_unlinkId_none {id : Int} : ∀ {b : Shape},
    Shape.unlinkId id b = none → b.remove id true = b.remove id false
  | .nil, _ => rfl
  | .node a i f n, h => by simp [Shape.remove, h]

theorem Shape.remove_true_of_unlinkId_some {id : Int} : ∀ {b : Shape} {t : Nat} {ft rest : Shape},
    Shape.unlinkId id b = some (t, ft, rest) → b.remove id true = rest.append ft
  | .nil, _, _, _, h => by simp [Shape.unlinkId] at h
  | .node a i f n, _, _, _, h => by simp [Shape.remove, h]

/-! ## Removal with the promote policy -/

/-- One call of `removeNode` on a node, given what the loop over its children does
when the scan of the child list finds nothing. -/
theorem removeNode_at (F d : Nat) (id : Int) (hid0 : id ≠ 0) (h : Heap) (r : Nat) (ir : Int)
    (f nx : Shape) (hr : Rep h.mem (some r) (.node r ir f nx))
    (hnd : (Shape.node r ir f nx).addrs.Nodup)
    (hF : (Shape.node r ir f nx).addrs.length ≤ F)
    (hQ : Shape.unlinkId id f = none → ∀ nr, h.mem r = some nr →
      ∃ h', forEachChild (fun h' t => removeNode F d h' (some t) id false) F h nr.first
          = some h' ∧
        Rep h'.mem nr.first (f.remove id false) ∧
        (∀ a, a ∉ f.addrs → h'.mem a = h.mem a) ∧
        (∀ a ∈ f.addrs, a ∉ (f.remove id false).addrs → h'.mem a = none)) :
    ∃ h', removeNode F (d + 1) h (some r) id false = some h' ∧
      Rep h'.mem (some r) (.node r ir (f.remove id true) nx) ∧
      (∀ a, a ∉ r :: f.addrs → h'.mem a = h.mem a) ∧
      (∀ a ∈ f.addrs, a ∉ (f.remove id true).addrs → h'.mem a = none) := by
  have hcount := List.nodup_iff_count_le_one.1 hnd
  obtain ⟨_, nr, hnr, hir, hf, hnx⟩ := hr
  have hr_f : r ∉ f.addrs := by
    apply not_mem_of_count_eq_zero
    have := hcount r
    simp only [Shape.addrs_node, List.count_append, List.count_cons, beq_self_eq_true,
      if_true] at this
    omega
  have hr_nx : r ∉ nx.addrs := by
    apply not_mem_of_count_eq_zero
    have := hcount r
    simp only [Shape.addrs_node, List.count_append, List.count_cons, beq_self_eq_true,
      if_true] at this
    omega
  have hndf : f.addrs.Nodup := by
    rw [List.nodup_iff_count_le_one]
    intro x
    have := hcount x
    simp only [Shape.addrs_node, List.count_append, List.count_cons] at this
    omega
  have hlenf : f.spine.length ≤ F := by
    have := Shape.spine_length_le f
    simp at hF
    omega
  cases hu : Shape.unlinkId id f with
  | none =>
    obtain ⟨h', hloop, hrep, hframe, hfreed⟩ := hQ hu nr hnr
    have hscan := scanId_of_unlinkId_none f nr.first none F hf hu hlenf
    rw [Shape.remove_true_of_unlinkId_none hu]
    refine ⟨h', ?_, ?_, ?_, hfreed⟩
    · simp [removeNode, hid0, hnr, hscan, hloop]
    · refine ⟨rfl, nr, ?_, hir, hrep, Rep.congr hnx ?_⟩
      · rw [hframe r hr_f]
        exact hnr
      · intro x hx
        apply hframe
        apply not_mem_of_count_eq_zero
        have h1 := List.count_pos_iff.2 hx
        have := hcount x
        simp only [Shape.addrs_node, List.count_append, List.count_cons] at this
        omega
    · intro a ha
      exact hframe a (fun e => ha (List.mem_cons_of_mem _ e))
  | some res =>
    obtain ⟨t, ft, rest⟩ := res
    have hucount := Shape.unlinkId_count hu
    rw [Shape.remove_true_of_unlinkId_some hu]
    obtain ⟨nt, hnt, hft, hcase⟩ := scanId_unlink f nr.first none F
      t ft rest hf hndf hlenf hu
    have ht_f : t ∈ f.addrs := by
      apply List.count_pos_iff.1
      have := hucount t
      simp only [List.count_cons, List.count_nil, beq_self_eq_true, if_true] at this
      omega
    have htr : t ≠ r := fun e => hr_f (e ▸ ht_f)
    have hsub : ∀ x, x ∈ rest.addrs ∨ x ∈ ft.addrs → x ∈ f.addrs := by
      intro x hx
      apply List.count_pos_iff.1
      have h2 := hucount x
      rcases hx with hx | hx
      · have h1 := List.count_pos_iff.2 hx
        omega
      · have h1 := List.count_pos_iff.2 hx
        omega
    -- the memory after the unlinking write
    obtain ⟨m₁, hm₁, hrep₁, hm₁t, hframe₁, hft₁⟩ : ∃ m₁,
        (removeNode F (d + 1) h (some r) id false =
          match promoteLoop F r F { mem := m₁, err := h.err ++ [Diag.removing id nt.name] }
              nt.first with
          | none => none
          | some h₂ => some { mem := h₂.mem.free t, err := h₂.err }) ∧
        Rep m₁ (some r) (.node r ir rest nx) ∧ m₁ t = some nt ∧
        (∀ a, a ∉ r :: f.addrs → m₁ a = h.mem a) ∧ Rep m₁ nt.first ft := by
      have ht_ft : t ∉ ft.addrs := by
        apply not_mem_of_count_eq_zero
        have h1 := hucount t
        have h2 := hcount t
        simp only [Shape.addrs_node, List.count_append, List.count_cons, List.count_nil,
          beq_self_eq_true, if_true] at h1 h2
        omega
      have hr_ft : r ∉ ft.addrs := fun e => hr_f (hsub r (Or.inr e))
      have hr_rest : r ∉ rest.addrs := fun e => hr_f (hsub r (Or.inl e))
      rcases hcase with ⟨hscan, hrest⟩ | ⟨q, nq, hscan, hnq, hq, hrest⟩
      · refine ⟨h.mem.set r { nr with first := nt.nextToFirst }, ?_, ?_, ?_, ?_, ?_⟩
        · have hm1t : (h.mem.set r { nr with first := nt.nextToFirst }) t = some nt := by
            rw [Store.set_ne _ _ htr]
            exact hnt
          simp [removeNode, hid0, hnr, hscan, hnt, hm1t]
        · exact ⟨rfl, _, Store.set_same _ _ _, hir, Rep.frame_set hrest _ hr_rest,
            Rep.frame_set hnx _ hr_nx⟩
        · rw [Store.set_ne _ _ htr]
          exact hnt
        · intro a ha
          exact Store.set_ne _ _ (fun e => ha (by simp [e]))
        · exact Rep.frame_set hft _ hr_ft
      · have hq_f : q ∈ f.addrs := hsub q (Or.inl hq)
        have hqc := List.count_pos_iff.2 hq
        have hqr : r ≠ q := fun e => hr_f (e ▸ hq_f)
        have htq : t ≠ q := by
          rintro rfl
          have h1 := hucount t
          have h2 := hcount t
          have h3 := List.count_pos_iff.2 ht_f
          simp only [Shape.addrs_node, List.count_append, List.count_cons, List.count_nil,
            beq_self_eq_true, if_true] at h1 h2
          omega
        have hq_ft : q ∉ ft.addrs := by
          apply not_mem_of_count_eq_zero
          have h1 := hucount q
          have h2 := hcount q
          simp only [Shape.addrs_node, List.count_append, List.count_cons] at h2
          omega
        have hq_nx : q ∉ nx.addrs := by
          apply not_mem_of_count_eq_zero
          have h1 := List.count_pos_iff.2 hq_f
          have h2 := hcount q
          simp only [Shape.addrs_node, List.count_append, List.count_cons] at h2
          omega
        refine ⟨h.mem.set q { nq with nextToFirst := nt.nextToFirst }, ?_, ?_, ?_, ?_, ?_⟩
        · have hm1t : (h.mem.set q { nq with nextToFirst := nt.nextToFirst }) t = some nt := by
            rw [Store.set_ne _ _ htq]
            exact hnt
          simp [removeNode, hid0, hnr, hscan, hnt, hnq, hm1t]
        · refine ⟨rfl, nr, ?_, hir, hrest, Rep.frame_set hnx _ hq_nx⟩
          rw [Store.set_ne _ _ hqr]
          exact hnr
        · rw [Store.set_ne _ _ htq]
          exact hnt
        · intro a ha
          exact Store.set_ne _ _ (fun e => ha (by simp [e, hq_f]))
        · exact Rep.frame_set hft _ hq_ft
    have hnd₁ : ((Shape.node r ir rest nx).addrs ++ ft.addrs).Nodup := by
      rw [List.nodup_iff_count_le_one]
      intro x
      have h1 := hucount x
      have h2 := hcount x
      simp only [Shape.addrs_node, List.count_append, List.count_cons, List.count_nil,
        List.cons_append] at h1 h2 ⊢
      omega
    have hlenu : f.addrs.length = 1 + (ft.addrs.length + rest.addrs.length) := by
      have := ((Shape.unlinkId_nodes hu).map Prod.fst).length_eq
      simpa [Shape.addrs, Nat.add_comm, Nat.add_left_comm] using this
    obtain ⟨h₂, hloop, hrep₂, hframe₂⟩ := promoteLoop_rep F r ir nx ft rest
      { mem := m₁, err := h.err ++ [Diag.removing id nt.name] } nt.first F hrep₁ hft₁ hnd₁
      (by simp at hF ⊢; omega)
      (by have := Shape.spine_length_le ft; simp at hF; omega)
    have ht_new : t ∉ (Shape.node r ir (rest.append ft) nx).addrs := by
      apply not_mem_of_count_eq_zero
      have h1 := hucount t
      have h2 := hcount t
      simp only [Shape.addrs_node, Shape.addrs_append, List.count_append, List.count_cons,
        List.count_nil, beq_self_eq_true, if_true] at h1 h2 ⊢
      omega
    refine ⟨{ mem := h₂.mem.free t, err := h₂.err }, ?_, ?_, ?_, ?_⟩
    · rw [hm₁, hloop]
    · refine Rep.congr hrep₂ ?_
      intro x hx
      exact Store.free_ne _ (fun e => ht_new (e ▸ hx))
    · intro a ha
      have hat : a ≠ t := fun e => ha (by simp [e, ht_f])
      have ha2 : a ∉ r :: (rest.addrs ++ ft.addrs) := by
        intro hmem
        apply ha
        simp only [List.mem_cons, List.mem_append] at hmem ⊢
        rcases hmem with e | e
        · exact Or.inl e
        · exact Or.inr (hsub a e)
      show (h₂.mem.free t) a = h.mem a
      rw [Store.free_ne _ hat, hframe₂ a ha2]
      exact hframe₁ a ha
    · intro a haf hanew
      have hat : a = t := by
        by_contra hne
        apply hanew
        apply List.count_pos_iff.1
        have h1 := hucount a
        have h3 := List.count_pos_iff.2 haf
        have h4 : [t].count a = 0 := by
          simp only [List.count_cons, List.count_nil]
          have : ¬ t = a := fun e => hne e.symm
          simp [this]
        simp only [Shape.addrs_append, List.count_append]
        omega
      subst hat
      exact Store.free_same _ _

theorem Shape.remove_count_le (id : Int) : ∀ (b : Shape) (scan : Bool) (x : Nat),
    (b.remove id scan).addrs.count x ≤ b.addrs.count x
  | .nil, _, _ => by simp [Shape.remove]
  | .node a i f n, scan, x => by
    have ihf := Shape.remove_count_le id f true x
    have ihn := Shape.remove_count_le id n false x
    have hgen : (Shape.node a i (f.remove id true) (n.remove id false)).addrs.count x
        ≤ (Shape.node a i f n).addrs.count x := by
      simp only [Shape.addrs_node, List.count_cons, List.count_append]
      omega
    cases scan with
    | false => simpa [Shape.remove] using hgen
    | true =>
      cases hu : Shape.unlinkId id (.node a i f n) with
      | none => simpa [Shape.remove, hu] using hgen
      | some res =>
        obtain ⟨t, ft, rest⟩ := res
        have h1 := Shape.unlinkId_count hu x
        simp only [Shape.remove, hu, Shape.addrs_append, List.count_append]
        omega

theorem Shape.remove_subset (id : Int) (b : Shape) (scan : Bool) {x : Nat}
    (hx : x ∈ (b.remove id scan).addrs) : x ∈ b.addrs := by
  apply List.count_pos_iff.1
  have h1 := List.count_pos_iff.2 hx
  have h2 := Shape.remove_count_le id b scan x
  omega

theorem Shape.remove_nodup (id : Int) (b : Shape) (scan : Bool) (h : b.addrs.Nodup) :
    (b.remove id scan).addrs.Nodup := by
  rw [List.nodup_iff_count_le_one] at h ⊢
  intro x
  exact le_trans (Shape.remove_count_le id b scan x) (h x)

/-- The loop of `removeNode` over a child list in which the scan found nothing:
the removal is carried out in the subtree of every child. -/
theorem removeNode_children (F : Nat) (id : Int) (hid0 : id ≠ 0) :
    ∀ (b : Shape) (d k : Nat) (h : Heap) (p : Ptr),
      Rep h.mem p b → b.addrs.Nodup → b.addrs.length ≤ F → b.addrs.length ≤ d →
      b.spine.length ≤ k →
      ∃ h', forEachChild (fun h' t => removeNode F d h' (some t) id false) k h p = some h' ∧
        Rep h'.mem p (b.remove id false) ∧
        (∀ a, a ∉ b.addrs → h'.mem a = h.mem a) ∧
        (∀ a ∈ b.addrs, a ∉ (b.remove id false).addrs → h'.mem a = none)
  | .nil, d, k, h, p, hb, _, _, _, _ => by
    have hp : p = none := hb
    subst hp
    exact ⟨h, by cases k <;> rfl, rfl, fun _ _ => rfl, fun a ha => by simp at ha⟩
  | .node a i f n, d, k, h, p, hb, hnd, hF, hd, hk => by
    have hp : p = some a := hb.1
    subst hp
    obtain ⟨k, rfl⟩ : ∃ j, k = j + 1 := ⟨k - 1, by simp [Shape.spine] at hk; omega⟩
    obtain ⟨d, rfl⟩ : ∃ j, d = j + 1 := ⟨d - 1, by simp at hd; omega⟩
    have hcount := List.nodup_iff_count_le_one.1 hnd
    have hndf : f.addrs.Nodup := by
      rw [List.nodup_iff_count_le_one]
      intro x
      have := hcount x
      simp only [Shape.addrs_node, List.count_append, List.count_cons] at this
      omega
    have hndn : n.addrs.Nodup := by
      rw [List.nodup_iff_count_le_one]
      intro x
      have := hcount x
      simp only [Shape.addrs_node, List.count_append, List.count_cons] at this
      omega
    have ha_n : a ∉ n.addrs := by
      apply not_mem_of_count_eq_zero
      have := hcount a
      simp only [Shape.addrs_node, List.count_append, List.count_cons, beq_self_eq_true,
        if_true] at this
      omega
    have hdisj : ∀ x, x ∈ f.addrs → x ∉ n.addrs := by
      intro x hx
      apply not_mem_of_count_eq_zero
      have h1 := List.count_pos_iff.2 hx
      have := hcount x
      simp only [Shape.addrs_node, List.count_append, List.count_cons] at this
      omega
    have hlen : f.addrs.length + n.addrs.length + 1 ≤ F ∧ f.addrs.length + n.addrs.length ≤ d := by
      simp at hF hd
      omega
    have hsf := Shape.spine_length_le f
    obtain ⟨h₁, hvisit, hrep₁, hframe₁, hfreed₁⟩ := removeNode_at F d id hid0 h a i f n hb hnd hF
      (by
        intro _ nr hnr
        obtain ⟨_, nd, hnda, _, hf, _⟩ := hb
        rw [hnda] at hnr
        have e : nd = nr := Option.some.inj hnr
        subst e
        exact removeNode_children F id hid0 f d F h nd.first hf hndf (by omega) (by omega)
          (by omega))
    obtain ⟨_, nd₁, hnd₁, hid₁, hf₁, hn₁⟩ := hrep₁
    obtain ⟨h₂, hloop, hrep₂, hframe₂, hfreed₂⟩ := removeNode_children F id hid0 n (d + 1) k
      h₁ nd₁.nextToFirst hn₁ hndn (by omega) (by omega) (by simp [Shape.spine] at hk; omega)
    refine ⟨h₂, ?_, ?_, ?_, ?_⟩
    · simp [forEachChild, hvisit, hnd₁, hloop]
    · have e : (Shape.node a i f n).remove id false
          = .node a i (f.remove id true) (n.remove id false) := by
        simp [Shape.remove]
      rw [e]
      refine ⟨rfl, nd₁, ?_, hid₁, Rep.congr hf₁ ?_, hrep₂⟩
      · rw [hframe₂ a ha_n]
        exact hnd₁
      · intro x hx
        exact hframe₂ x (hdisj x (Shape.remove_subset id f true hx))
    · intro x hx
      have hx1 : x ∉ n.addrs := fun e => hx (by simp [e])
      have hx2 : x ∉ a :: f.addrs := by
        intro e
        apply hx
        simp only [Shape.addrs_node, List.mem_cons, List.mem_append] at e ⊢
        tauto
      rw [hframe₂ x hx1]
      exact hframe₁ x hx2
    · intro x hx hxnew
      have e : (Shape.node a i f n).remove id false
          = .node a i (f.remove id true) (n.remove id false) := by
        simp [Shape.remove]
      rw [e] at hxnew
      simp only [Shape.addrs_node, List.mem_cons, List.mem_append, not_or] at hx hxnew
      rcases hx with hxa | hxf | hxn
      · exact absurd hxa hxnew.1
      · rw [hframe₂ x (hdisj x hxf)]
        exact hfreed₁ x hxf hxnew.2.1
      · exact hfreed₂ x hxn hxnew.2.2

/-- The effect of `removeNode(root, id, 0)` on a well-formed tree: it returns, and
the child list of `root` unfolds to the shape that `Shape.remove` describes; no
address outside the subtree changes and every address that left the tree is freed. -/
theorem removeNode_rep (F d : Nat) (id : Int) (hid0 : id ≠ 0) (h : Heap) (r : Nat) (ir : Int)
    (f nx : Shape) (hr : Rep h.mem (some r) (.node r ir f nx))
    (hnd : (Shape.node r ir f nx).addrs.Nodup)
    (hF : (Shape.node r ir f nx).addrs.length ≤ F)
    (hd : (Shape.node r ir f nx).addrs.length ≤ d) :
    ∃ h', removeNode F d h (some r) id false = some h' ∧
      Rep h'.mem (some r) (.node r ir (f.remove id true) nx) ∧
      (∀ a, a ∉ r :: f.addrs → h'.mem a = h.mem a) ∧
      (∀ a ∈ f.addrs, a ∉ (f.remove id true).addrs → h'.mem a = none) := by
  obtain ⟨d, rfl⟩ : ∃ j, d = j + 1 := ⟨d - 1, by simp at hd; omega⟩
  have hcount := List.nodup_iff_count_le_one.1 hnd
  have hndf : f.addrs.Nodup := by
    rw [List.nodup_iff_count_le_one]
    intro x
    have := hcount x
    simp only [Shape.addrs_node, List.count_append, List.count_cons] at this
    omega
  have hsf := Shape.spine_length_le f
  refine removeNode_at F d id hid0 h r ir f nx hr hnd hF ?_
  intro _ nr hnr
  obtain ⟨_, nd, hnda, _, hf, _⟩ := hr
  rw [hnda] at hnr
  have e : nd = nr := Option.some.inj hnr
  subst e
  simp at hF hd
  exact removeNode_children F id hid0 f d F h nd.first hf hndf (by omega) (by omega) (by omega)

/-! ## Child lists and traversals of shapes -/

theorem Shape.ofKids_kids : ∀ (b : Shape), Shape.ofKids b.kids = b
  | .nil => rfl
  | .node a i f n => by simp [Shape.kids, Shape.ofKids, Shape.ofKids_kids n]

theorem Shape.kids_ofKids : ∀ (l : List (Nat × Int × Shape)), (Shape.ofKids l).kids = l
  | [] => rfl
  | (a, i, f) :: l => by simp [Shape.kids, Shape.ofKids, Shape.kids_ofKids l]

theorem Shape.ofKids_append : ∀ (l : List (Nat × Int × Shape)) (b : Shape),
    (Shape.ofKids l).append b = Shape.ofKids (l ++ b.kids)
  | [], b => by simp [Shape.ofKids, Shape.append, Shape.ofKids_kids]
  | (a, i, f) :: l, b => by simp [Shape.ofKids, Shape.append, Shape.ofKids_append l b]

theorem Shape.spine_ofKids : ∀ (l : List (Nat × Int × Shape)),
    (Shape.ofKids l).spine = l.map (fun x => x.1)
  | [] => rfl
  | (a, i, f) :: l => by simp [Shape.ofKids, Shape.spine, Shape.spine_ofKids l]

theorem Shape.spine_eq_kids (b : Shape) : b.spine = b.kids.map (fun x => x.1) := by
  rw [← Shape.spine_ofKids, Shape.ofKids_kids]

theorem Shape.nodes_append : ∀ (b c : Shape), (b.append c).nodes = b.nodes ++ c.nodes
  | .nil, c => by simp [Shape.append, Shape.nodes]
  | .node a i f n, c => by simp [Shape.append, Shape.nodes, Shape.nodes_append n c]

theorem traverse_of_rep {m : Store} : ∀ (b : Shape) (p : Ptr) (d : Nat),
    Rep m p b → b.addrs.length < d → traverse m d p = some b.nodes
  | .nil, p, d, hb, _ => by
    have hp : p = none := hb
    subst hp
    cases d <;> rfl
  | .node a i f n, p, d, hb, hd => by
    obtain ⟨rfl, nd, hnd, hid, hf, hn⟩ := hb
    obtain ⟨d, rfl⟩ : ∃ j, d = j + 1 := ⟨d - 1, by omega⟩
    simp at hd
    have e1 := traverse_of_rep f nd.first d hf (by omega)
    have e2 := traverse_of_rep n nd.nextToFirst d hn (by omega)
    simp [traverse, hnd, e1, e2, hid, Shape.nodes]

/-- In a shape with unique ids the kid that carries `id` is the one that
`unlinkId` finds. -/
theorem Shape.unlinkId_of_kids {id : Int} {A : Nat} {fA : Shape}
    {post : List (Nat × Int × Shape)} : ∀ (pre : List (Nat × Int × Shape)) (f : Shape),
    f.ids.Nodup → f.kids = pre ++ (A, id, fA) :: post →
    Shape.unlinkId id f = some (A, fA, Shape.ofKids (pre ++ post))
  | [], .nil, _, h => by simp [Shape.kids] at h
  | [], .node a i f n, _, h => by
    simp only [Shape.kids, List.nil_append, List.cons.injEq, Prod.mk.injEq] at h
    obtain ⟨⟨rfl, rfl, rfl⟩, rfl⟩ := h
    simp [Shape.unlinkId, Shape.ofKids_kids]
  | x :: pre, .nil, _, h => by simp [Shape.kids] at h
  | x :: pre, .node a i f n, hnd, h => by
    simp only [Shape.kids, List.cons_append, List.cons.injEq] at h
    obtain ⟨rfl, hn⟩ := h
    have hcount := List.nodup_iff_count_le_one.1 hnd
    have hndn : n.ids.Nodup := by
      rw [List.nodup_iff_count_le_one]
      intro y
      have := hcount y
      simp only [Shape.ids_node, List.count_append, List.count_cons] at this
      omega
    have ih := Shape.unlinkId_of_kids pre n hndn hn
    have hmem : id ∈ n.ids := by
      have hp := (Shape.unlinkId_nodes ih).map Prod.snd
      have : id ∈ List.map Prod.snd n.nodes := hp.mem_iff.2 (by simp)
      exact this
    have hne : ¬ i = id := by
      rintro rfl
      have h1 := List.count_pos_iff.2 hmem
      have := hcount i
      simp only [Shape.ids_node, List.count_append, List.count_cons, beq_self_eq_true,
        if_true] at this
      omega
    simp [Shape.unlinkId, hne, ih, Shape.ofKids]

/-- C5: in a well-formed tree with unique ids in which node `A` (id not 0) stands in
the child list of `root` between the children `pre` and the children `post`, and
has the children `fA.kids`, `removeNode(root, A.id, 0)` returns; afterwards the
tree is well formed and `root` has the child list `pre`, `post`, then the children
of `A`, all in their previous order and each with the subtree it had; `A` is freed
and is not met from `root` any more. -/
theorem removeNode_promotes_to_root (F d : Nat) (h : Heap) (r : Nat) (ir : Int) (f nx : Shape)
    (A : Nat) (iA : Int) (fA : Shape) (pre post : List (Nat × Int × Shape))
    (hwf : WellFormed h.mem (some r) (.node r ir f nx))
    (huniq : UniqueIds (.node r ir f nx))
    (hkids : f.kids = pre ++ (A, iA, fA) :: post) (hiA : iA ≠ 0)
    (hF : (Shape.node r ir f nx).addrs.length ≤ F)
    (hd : (Shape.node r ir f nx).addrs.length ≤ d) :
    ∃ h' nr', removeNode F d h (some r) iA false = some h' ∧
      WellFormed h'.mem (some r) (.node r ir (Shape.ofKids (pre ++ post ++ fA.kids)) nx) ∧
      h'.mem r = some nr' ∧
      Chain h'.mem nr'.first ((pre ++ post).map (fun x => x.1) ++ fA.spine) ∧
      A ∉ (Shape.node r ir (Shape.ofKids (pre ++ post ++ fA.kids)) nx).addrs ∧
      h'.mem A = none := by
  obtain ⟨hrep, hnd⟩ := hwf
  have hcount := List.nodup_iff_count_le_one.1 hnd
  have hidf : f.ids.Nodup := by
    have hc := List.nodup_iff_count_le_one.1 huniq
    rw [List.nodup_iff_count_le_one]
    intro y
    have := hc y
    simp only [Shape.ids_node, List.count_append, List.count_cons] at this
    omega
  have hu := Shape.unlinkId_of_kids pre f hidf hkids
  obtain ⟨h', hrun, hrep', hframe, hfreed⟩ := removeNode_rep F d iA hiA h r ir f nx hrep hnd hF hd
  rw [Shape.remove_true_of_unlinkId_some hu, Shape.ofKids_append] at hrep' hfreed
  have hucount := Shape.unlinkId_count hu
  have hA_f : A ∈ f.addrs := by
    apply List.count_pos_iff.1
    have := hucount A
    simp only [List.count_cons, List.count_nil, beq_self_eq_true, if_true] at this
    omega
  have hA_new : A ∉ (Shape.ofKids (pre ++ post ++ fA.kids)).addrs := by
    apply not_mem_of_count_eq_zero
    have h1 := hucount A
    have h2 := hcount A
    rw [← Shape.ofKids_append, Shape.addrs_append]
    simp only [Shape.addrs_node, List.count_append, List.count_cons, List.count_nil,
      beq_self_eq_true, if_true] at h1 h2 ⊢
    omega
  have hA_all : A ∉ (Shape.node r ir (Shape.ofKids (pre ++ post ++ fA.kids)) nx).addrs := by
    apply not_mem_of_count_eq_zero
    have h0 := List.count_eq_zero.2 hA_new
    have h1 := List.count_pos_iff.2 hA_f
    have h2 := hcount A
    simp only [Shape.addrs_node, List.count_append, List.count_cons] at h2 ⊢
    omega
  have hnd' : (Shape.node r ir (Shape.ofKids (pre ++ post ++ fA.kids)) nx).addrs.Nodup := by
    rw [List.nodup_iff_count_le_one]
    intro x
    have h1 := hucount x
    have h2 := hcount x
    rw [← Shape.ofKids_append]
    simp only [Shape.addrs_node, Shape.addrs_append, List.count_append, List.count_cons,
      List.count_nil] at h1 h2 ⊢
    omega
  obtain ⟨_, nr', hnr', _, hf', _⟩ := id hrep'
  have hch := Rep.chain hf'
  rw [← Shape.ofKids_append, Shape.spine_append, Shape.spine_ofKids] at hch
  exact ⟨h', nr', hrun, ⟨hrep', hnd'⟩, hnr', hch, hA_all, hfreed A hA_f hA_new⟩

/-- C5 at a concrete input: root -> A -> {B, C} in `memRootABC`, with A at address 1,
becomes root -> {B, C}. -/
theorem removeNode_promotes_to_root_witness :
    ∃ h' nr', removeNode 4 4 { mem := memRootABC, err := [] } (some 0) 1 false = some h' ∧
      WellFormed h'.mem (some 0)
        (.node 0 0 (Shape.ofKids ([] ++ [] ++ (Shape.node 2 2 .nil (.node 3 3 .nil .nil)).kids))
          .nil) ∧
      h'.mem 0 = some nr' ∧
      Chain h'.mem nr'.first
        (List.map (fun x : Nat × Int × Shape => x.1) ([] ++ [])
          ++ (Shape.node 2 2 .nil (.node 3 3 .nil .nil)).spine) ∧
      1 ∉ (Shape.node 0 0
        (Shape.ofKids ([] ++ [] ++ (Shape.node 2 2 .nil (.node 3 3 .nil .nil)).kids)) .nil).addrs ∧
      h'.mem 1 = none :=
  removeNode_promotes_to_root 4 4 { mem := memRootABC, err := [] } 0 0
    (.node 1 1 (.node 2 2 .nil (.node 3 3 .nil .nil)) .nil) .nil 1 1
    (.node 2 2 .nil (.node 3 3 .nil .nil)) [] []
    ⟨by simp [Rep, memRootABC, storeOf], by decide⟩ (by unfold UniqueIds; decide) rfl
    (by decide) (by decide) (by decide)

/-! ## Removal: what is met afterwards -/

theorem Shape.unlinkId_mem_ids {id : Int} {b : Shape} {t : Nat} {ft rest : Shape}
    (h : Shape.unlinkId id b = some (t, ft, rest)) : id ∈ b.ids := by
  have hp := (Shape.unlinkId_nodes h).map Prod.snd
  exact hp.mem_iff.2 (by simp)

theorem Shape.unlinkId_ids_count {id : Int} {b : Shape} {t : Nat} {ft rest : Shape}
    (h : Shape.unlinkId id b = some (t, ft, rest)) (x : Int) :
    b.ids.count x = [id].count x + (ft.ids.count x + rest.ids.count x) := by
  have hp := (Shape.unlinkId_nodes h).map Prod.snd
  have := List.perm_iff_count.1 hp x
  simp only [List.map_cons, List.map_append, List.count_cons, List.count_append,
    List.count_nil] at this ⊢
  simp only [Shape.ids]
  omega

theorem Shape.unlinkId_none_tail {id : Int} {a : Nat} {i : Int} {f n : Shape}
    (h : Shape.unlinkId id (.node a i f n) = none) : i ≠ id ∧ Shape.unlinkId id n = none := by
  have hne : ¬ i = id := by
    intro e
    simp [Shape.unlinkId, e] at h
  refine ⟨hne, ?_⟩
  cases hrec : Shape.unlinkId id n with
  | none => rfl
  | some res => simp [Shape.unlinkId, hne, hrec] at h

/-- With unique ids, what `removeNode` leaves is what was there without the node
that carries `id`. -/
theorem Shape.remove_nodes (id : Int) : ∀ (b : Shape) (scan : Bool),
    b.ids.Nodup → (scan = false → Shape.unlinkId id b = none) →
    List.Perm (b.remove id scan).nodes (b.nodes.filter (fun x => x.2 ≠ id))
  | .nil, _, _, _ => by simp [Shape.remove, Shape.nodes]
  | .node a i f n, scan, hnd, hscan => by
    have hcount := List.nodup_iff_count_le_one.1 hnd
    have hndf : f.ids.Nodup := by
      rw [List.nodup_iff_count_le_one]
      intro y
      have := hcount y
      simp only [Shape.ids_node, List.count_append, List.count_cons] at this
      omega
    have hndn : n.ids.Nodup := by
      rw [List.nodup_iff_count_le_one]
      intro y
      have := hcount y
      simp only [Shape.ids_node, List.count_append, List.count_cons] at this
      omega
    cases hu : Shape.unlinkId id (.node a i f n) with
    | none =>
      obtain ⟨hne, hun⟩ := Shape.unlinkId_none_tail hu
      have ihf := Shape.remove_nodes id f true hndf (by simp)
      have ihn := Shape.remove_nodes id n false hndn (fun _ => hun)
      have e : (Shape.node a i f n).remove id scan
          = .node a i (f.remove id true) (n.remove id false) := by
        cases scan <;> simp [Shape.remove, hu]
      rw [e]
      simp only [Shape.nodes, List.filter_cons, List.filter_append, ne_eq, hne,
        not_false_eq_true, decide_True, if_true]
      exact List.Perm.cons _ (List.Perm.append ihf ihn)
    | some res =>
      obtain ⟨t, ft, rest⟩ := res
      have hs : scan = true := by
        cases scan with
        | true => rfl
        | false => simp [hscan rfl] at hu
      subst hs
      have hic := Shape.unlinkId_ids_count hu
      have hkeep : ∀ (c : Shape), c.ids.count id = 0 →
          c.nodes.filter (fun x => x.2 ≠ id) = c.nodes := by
        intro c hc
        rw [List.filter_eq_self]
        intro x hx
        have hx2 : x.2 ∈ c.ids := List.mem_map_of_mem Prod.snd hx
        have hne : x.2 ≠ id := fun e => (List.count_eq_zero.1 hc) (e ▸ hx2)
        simpa using hne
      have hft : ft.ids.count id = 0 := by
        have h1 := hic id
        have h2 := hcount id
        simp only [List.count_cons, List.count_nil, beq_self_eq_true, if_true] at h1
        omega
      have hrest : rest.ids.count id = 0 := by
        have h1 := hic id
        have h2 := hcount id
        simp only [List.count_cons, List.count_nil, beq_self_eq_true, if_true] at h1
        omega
      have hp := (Shape.unlinkId_nodes hu).filter (fun x => x.2 ≠ id)
      rw [Shape.remove_true_of_unlinkId_some hu, Shape.nodes_append]
      refine List.Perm.trans ?_ hp.symm
      simp only [List.filter_cons, List.filter_append, ne_eq, not_true_eq_false, decide_False,
        Bool.false_eq_true, if_false]
      have e1 := hkeep ft hft
      have e2 := hkeep rest hrest
      simp only [ne_eq] at e1 e2
      rw [e1, e2]
      exact List.perm_append_comm

theorem map_snd_filter_ne (l : List (Nat × Int)) (id : Int) :
    (l.filter (fun x => x.2 ≠ id)).map Prod.snd = (l.map Prod.snd).filter (fun x => x != id) := by
  rw [List.filter_map]
  congr 1
  apply List.filter_congr
  intro x _
  by_cases hx : x.2 = id <;> simp [Function.comp, hx]

/-- C7: in a well-formed tree with unique ids, for an id other than 0 that some
node below `root` carries, `removeNode(root, id, 0)` returns; the full traversal
from `root` afterwards meets no address twice and no id twice, the ids it meets
are the ids met before without the removed one, and it meets exactly one node
less. -/
theorem removeNode_traversal (F d e : Nat) (h : Heap) (r : Nat) (ir : Int) (f nx : Shape)
    (id : Int) (hwf : WellFormed h.mem (some r) (.node r ir f nx))
    (huniq : UniqueIds (.node r ir f nx)) (hid0 : id ≠ 0) (hmem : id ∈ f.ids)
    (hF : (Shape.node r ir f nx).addrs.length ≤ F)
    (hd : (Shape.node r ir f nx).addrs.length ≤ d)
    (he : (Shape.node r ir f nx).addrs.length < e) :
    ∃ h' l l', traverse h.mem e (some r) = some l ∧
      removeNode F d h (some r) id false = some h' ∧
      traverse h'.mem e (some r) = some l' ∧
      List.Perm (l'.map Prod.snd) ((l.map Prod.snd).erase id) ∧
      (l'.map Prod.snd).Nodup ∧ (l'.map Prod.fst).Nodup ∧ l'.length + 1 = l.length := by
  obtain ⟨hrep, hnd⟩ := hwf
  have hidc := List.nodup_iff_count_le_one.1 huniq
  have hidf : f.ids.Nodup := by
    rw [List.nodup_iff_count_le_one]
    intro y
    have := hidc y
    simp only [Shape.ids_node, List.count_append, List.count_cons] at this
    omega
  obtain ⟨h', hrun, hrep', _, _⟩ := removeNode_rep F d id hid0 h r ir f nx hrep hnd hF hd
  have hperm := Shape.remove_nodes id f true hidf (by simp)
  have hir : ir ≠ id := by
    rintro rfl
    have h1 := List.count_pos_iff.2 hmem
    have := hidc ir
    simp only [Shape.ids_node, List.count_append, List.count_cons, beq_self_eq_true,
      if_true] at this
    omega
  have hnxid : ∀ x ∈ nx.nodes, x.2 ≠ id := by
    intro x hx e
    have hx2 : x.2 ∈ nx.ids := List.mem_map_of_mem Prod.snd hx
    have h1 := List.count_pos_iff.2 hmem
    have h2 := List.count_pos_iff.2 (e ▸ hx2)
    have := hidc id
    simp only [Shape.ids_node, List.count_append, List.count_cons] at this
    omega
  have hall : List.Perm (Shape.node r ir (f.remove id true) nx).nodes
      ((Shape.node r ir f nx).nodes.filter (fun x => x.2 ≠ id)) := by
    have hnxf : nx.nodes.filter (fun x => x.2 ≠ id) = nx.nodes := by
      rw [List.filter_eq_self]
      intro x hx
      simpa using hnxid x hx
    simp only [Shape.nodes, List.filter_cons, List.filter_append, ne_eq, hir,
      not_false_eq_true, decide_True, if_true]
    simp only [ne_eq] at hnxf
    rw [hnxf]
    exact List.Perm.cons _ (List.Perm.append_right _ hperm)
  have hlen_new : (Shape.node r ir (f.remove id true) nx).addrs.length + 1
      = (Shape.node r ir f nx).addrs.length := by
    have hmem_all : id ∈ (Shape.node r ir f nx).ids := by simp [hmem]
    have h1 := hall.length_eq
    have h2 : ((Shape.node r ir f nx).ids.erase id).length + 1
        = (Shape.node r ir f nx).ids.length := by
      rw [List.length_erase_of_mem hmem_all]
      have := List.length_pos_of_mem hmem_all
      omega
    have h3 : ((Shape.node r ir f nx).nodes.filter (fun x => x.2 ≠ id)).length
        = ((Shape.node r ir f nx).ids.erase id).length := by
      rw [List.Nodup.erase_eq_filter huniq, Shape.ids, ← map_snd_filter_ne, List.length_map]
    simp only [Shape.addrs, Shape.ids, List.length_map] at h2 h3 ⊢
    omega
  have hids : List.Perm ((Shape.node r ir (f.remove id true) nx).nodes.map Prod.snd)
      (((Shape.node r ir f nx).nodes.map Prod.snd).erase id) := by
    have h1 := hall.map Prod.snd
    refine h1.trans ?_
    have h2 : (List.map Prod.snd (Shape.node r ir f nx).nodes).Nodup := huniq
    rw [List.Nodup.erase_eq_filter h2, ← map_snd_filter_ne]
  have hnd' : (Shape.node r ir (f.remove id true) nx).addrs.Nodup := by
    have hc := List.nodup_iff_count_le_one.1 hnd
    rw [List.nodup_iff_count_le_one]
    intro x
    have h1 := Shape.remove_count_le id f true x
    have h2 := hc x
    simp only [Shape.addrs_node, List.count_append, List.count_cons] at h2 ⊢
    omega
  refine ⟨h', _, _, traverse_of_rep _ _ e hrep he, hrun,
    traverse_of_rep _ _ e hrep' (by omega), hids, ?_, hnd', ?_⟩
  · have h2 : (List.map Prod.snd (Shape.node r ir f nx).nodes).Nodup := huniq
    exact (List.Perm.nodup_iff hids).2 (h2.erase id)
  · simp only [Shape.addrs, List.length_map] at hlen_new
    exact hlen_new

/-- C7 at a concrete input: node 2 is removed from the path 0, 1, 2, 3. -/
theorem removeNode_traversal_witness :
    ∃ h' l l', traverse memPath 5 (some 0) = some l ∧
      removeNode 4 4 { mem := memPath, err := [] } (some 0) 2 false = some h' ∧
      traverse h'.mem 5 (some 0) = some l' ∧
      List.Perm (l'.map Prod.snd) ((l.map Prod.snd).erase 2) ∧
      (l'.map Prod.snd).Nodup ∧ (l'.map Prod.fst).Nodup ∧ l'.length + 1 = l.length :=
  removeNode_traversal 4 4 5 { mem := memPath, err := [] } 0 0
    (.node 1 1 (.node 2 2 (.node 3 3 .nil .nil) .nil) .nil) .nil 2
    ⟨by simp [Rep, memPath, storeOf], by decide⟩ (by unfold UniqueIds; decide) (by decide)
    (by decide) (by decide) (by decide) (by decide)

/-! ## Shapes inside shapes -/

theorem Shape.subtrees_trans : ∀ {b S S' : Shape},
    S ∈ b.subtrees → S' ∈ S.subtrees → S' ∈ b.subtrees
  | .nil, _, _, h, _ => by simp [Shape.subtrees] at h
  | .node a i f n, S, S', h, h' => by
    simp only [Shape.subtrees, List.mem_cons, List.mem_append] at h ⊢
    rcases h with rfl | h | h
    · simpa [Shape.subtrees] using h'
    · exact Or.inr (Or.inl (Shape.subtrees_trans h h'))
    · exact Or.inr (Or.inr (Shape.subtrees_trans h h'))

theorem Shape.subtrees_nodes : ∀ {b S : Shape}, S ∈ b.subtrees → ∀ x ∈ S.nodes, x ∈ b.nodes
  | .nil, _, h, _, _ => by simp [Shape.subtrees] at h
  | .node a i f n, S, h, x, hx => by
    simp only [Shape.subtrees, List.mem_cons, List.mem_append] at h
    rcases h with rfl | h | h
    · exact hx
    · simp [Shape.nodes, Shape.subtrees_nodes h x hx]
    · simp [Shape.nodes, Shape.subtrees_nodes h x hx]

theorem Shape.subtrees_addrs {b S : Shape} (h : S ∈ b.subtrees) {x : Nat} (hx : x ∈ S.addrs) :
    x ∈ b.addrs := by
  simp only [Shape.addrs, List.mem_map] at hx ⊢
  obtain ⟨y, hy, rfl⟩ := hx
  exact ⟨y, Shape.subtrees_nodes h y hy, rfl⟩

theorem Shape.subtrees_ids {b S : Shape} (h : S ∈ b.subtrees) {x : Int} (hx : x ∈ S.ids) :
    x ∈ b.ids := by
  simp only [Shape.ids, List.mem_map] at hx ⊢
  obtain ⟨y, hy, rfl⟩ := hx
  exact ⟨y, Shape.subtrees_nodes h y hy, rfl⟩

theorem Rep.subtree {m : Store} : ∀ {b S : Shape} {p : Ptr},
    Rep m p b → S ∈ b.subtrees → ∃ q, Rep m q S
  | .nil, _, _, _, h => by simp [Shape.subtrees] at h
  | .node a i f n, S, p, hb, h => by
    simp only [Shape.subtrees, List.mem_cons, List.mem_append] at h
    rcases h with rfl | h | h
    · exact ⟨p, hb⟩
    · obtain ⟨_, nd, _, _, hf, _⟩ := hb
      exact Rep.subtree hf h
    · obtain ⟨_, nd, _, _, _, hn⟩ := hb
      exact Rep.subtree hn h

theorem Shape.kids_subtree : ∀ (pre : List (Nat × Int × Shape)) (b : Shape) {A : Nat} {iA : Int}
    {fA : Shape} {post : List (Nat × Int × Shape)},
    b.kids = pre ++ (A, iA, fA) :: post → Shape.node A iA fA (Shape.ofKids post) ∈ b.subtrees
  | [], .nil, _, _, _, _, h => by simp [Shape.kids] at h
  | [], .node a i f n, _, _, _, _, h => by
    simp only [Shape.kids, List.nil_append, List.cons.injEq, Prod.mk.injEq] at h
    obtain ⟨⟨rfl, rfl, rfl⟩, rfl⟩ := h
    simp [Shape.subtrees, Shape.ofKids_kids]
  | x :: pre, .nil, _, _, _, _, h => by simp [Shape.kids] at h
  | x :: pre, .node a i f n, _, _, _, _, h => by
    simp only [Shape.kids, List.cons_append, List.cons.injEq] at h
    have ih := Shape.kids_subtree pre n h.2
    simp [Shape.subtrees, ih]

theorem Shape.unlinkId_none_of_not_mem {id : Int} {b : Shape} (h : id ∉ b.ids) :
    Shape.unlinkId id b = none := by
  cases hu : Shape.unlinkId id b with
  | none => rfl
  | some res =>
    obtain ⟨t, ft, rest⟩ := res
    exact absurd (Shape.unlinkId_mem_ids hu) h

/-- With unique ids, an id carried strictly below a node of the shape is not
carried on the top chain of the shape. -/
theorem Shape.unlinkId_none_of_below {id : Int} : ∀ (b : Shape) {P : Nat} {iP : Int}
    {fP nP : Shape}, b.ids.Nodup → Shape.node P iP fP nP ∈ b.subtrees → id ∈ fP.ids →
    Shape.unlinkId id b = none
  | .nil, _, _, _, _, _, h, _ => by simp [Shape.subtrees] at h
  | .node a i f n, P, iP, fP, nP, hnd, hS, hid => by
    have hcount := List.nodup_iff_count_le_one.1 hnd
    have hndn : n.ids.Nodup := by
      rw [List.nodup_iff_count_le_one]
      intro y
      have := hcount y
      simp only [Shape.ids_node, List.count_append, List.count_cons] at this
      omega
    simp only [Shape.subtrees, List.mem_cons, List.mem_append] at hS
    have hfcase : id ∈ f.ids → Shape.unlinkId id (.node a i f n) = none := by
      intro hf
      have h1 := List.count_pos_iff.2 hf
      have h2 := hcount id
      have hne : ¬ i = id := by
        rintro rfl
        simp only [Shape.ids_node, List.count_append, List.count_cons, beq_self_eq_true,
          if_true] at h2
        omega
      have hn : id ∉ n.ids := by
        apply List.count_eq_zero.1
        simp only [Shape.ids_node, List.count_append, List.count_cons] at h2
        omega
      simp [Shape.unlinkId, hne, Shape.unlinkId_none_of_not_mem hn]
    rcases hS with hS | hS | hS
    · simp only [Shape.node.injEq] at hS
      obtain ⟨rfl, rfl, rfl, rfl⟩ := hS
      exact hfcase hid
    · apply hfcase
      apply Shape.subtrees_ids hS
      simp [hid]
    · have hidn : id ∈ n.ids := by
        apply Shape.subtrees_ids hS
        simp [hid]
      have h1 := List.count_pos_iff.2 hidn
      have h2 := hcount id
      have hne : ¬ i = id := by
        rintro rfl
        simp only [Shape.ids_node, List.count_append, List.count_cons, beq_self_eq_true,
          if_true] at h2
        omega
      simp [Shape.unlinkId, hne, Shape.unlinkId_none_of_below n hndn hS hid]

/-- With unique ids, the removal replaces the child list of the node in whose child
list the id stands, and keeps that node in the shape. -/
theorem Shape.remove_subtree {id : Int} {A : Nat} {fA rest : Shape} :
    ∀ (b : Shape) (scan : Bool) {P : Nat} {iP : Int} {fP nP : Shape},
    b.ids.Nodup → Shape.node P iP fP nP ∈ b.subtrees →
    Shape.unlinkId id fP = some (A, fA, rest) →
    ∃ nP', Shape.node P iP (rest.append fA) nP' ∈ (b.remove id scan).subtrees
  | .nil, _, _, _, _, _, _, h, _ => by simp [Shape.subtrees] at h
  | .node a i f n, scan, P, iP, fP, nP, hnd, hS, hu => by
    have hcount := List.nodup_iff_count_le_one.1 hnd
    have hndf : f.ids.Nodup := by
      rw [List.nodup_iff_count_le_one]
      intro y
      have := hcount y
      simp only [Shape.ids_node, List.count_append, List.count_cons] at this
      omega
    have hndn : n.ids.Nodup := by
      rw [List.nodup_iff_count_le_one]
      intro y
      have := hcount y
      simp only [Shape.ids_node, List.count_append, List.count_cons] at this
      omega
    have hnone := Shape.unlinkId_none_of_below (.node a i f n) hnd hS (Shape.unlinkId_mem_ids hu)
    have e : (Shape.node a i f n).remove id scan
        = .node a i (f.remove id true) (n.remove id false) := by
      cases scan <;> simp [Shape.remove, hnone]
    rw [e]
    simp only [Shape.subtrees, List.mem_cons, List.mem_append] at hS ⊢
    rcases hS with hS | hS | hS
    · simp only [Shape.node.injEq] at hS
      obtain ⟨rfl, rfl, rfl, rfl⟩ := hS
      exact ⟨_, Or.inl (by rw [Shape.remove_true_of_unlinkId_some hu])⟩
    · obtain ⟨nP', h⟩ := Shape.remove_subtree f true hndf hS hu
      exact ⟨nP', Or.inr (Or.inl h)⟩
    · obtain ⟨nP', h⟩ := Shape.remove_subtree n false hndn hS hu
      exact ⟨nP', Or.inr (Or.inr h)⟩

theorem Shape.remove_false_spine (id : Int) : ∀ (b : Shape), (b.remove id false).spine = b.spine
  | .nil => rfl
  | .node a i f n => by simp [Shape.remove, Shape.spine, Shape.remove_false_spine id n]

/-- Without sharing, a child of a node of the shape is not on the top chain of the
shape. -/
theorem Shape.child_not_on_spine : ∀ (b : Shape) {P : Nat} {iP : Int} {fP nP : Shape} {c : Nat},
    b.addrs.Nodup → Shape.node P iP fP nP ∈ b.subtrees → c ∈ fP.spine → c ∉ b.spine
  | .nil, _, _, _, _, _, _, h, _ => by simp [Shape.subtrees] at h
  | .node a i f n, P, iP, fP, nP, c, hnd, hS, hc => by
    have hcount := List.nodup_iff_count_le_one.1 hnd
    have hndn : n.addrs.Nodup := by
      rw [List.nodup_iff_count_le_one]
      intro y
      have := hcount y
      simp only [Shape.addrs_node, List.count_append, List.count_cons] at this
      omega
    have hfcase : c ∈ f.addrs → c ∉ (Shape.node a i f n).spine := by
      intro hf hsp
      have h1 := List.count_pos_iff.2 hf
      have h2 := hcount c
      simp only [Shape.spine, List.mem_cons] at hsp
      rcases hsp with rfl | hsp
      · simp only [Shape.addrs_node, List.count_append, List.count_cons, beq_self_eq_true,
          if_true] at h2
        omega
      · have h3 := List.count_pos_iff.2 (Shape.spine_subset_addrs _ _ hsp)
        simp only [Shape.addrs_node, List.count_append, List.count_cons] at h2
        omega
    have hcfP : c ∈ (Shape.node P iP fP nP).addrs := by
      simp [Shape.spine_subset_addrs _ _ hc]
    simp only [Shape.subtrees, List.mem_cons, List.mem_append] at hS
    rcases hS with hS | hS | hS
    · simp only [Shape.node.injEq] at hS
      obtain ⟨rfl, rfl, rfl, rfl⟩ := hS
      exact hfcase (Shape.spine_subset_addrs _ _ hc)
    · exact hfcase (Shape.subtrees_addrs hS hcfP)
    · have hcn : c ∈ n.addrs := Shape.subtrees_addrs hS hcfP
      have ih := Shape.child_not_on_spine n hndn hS hc
      intro hsp
      simp only [Shape.spine, List.mem_cons] at hsp
      rcases hsp with rfl | hsp
      · have h1 := List.count_pos_iff.2 hcn
        have h2 := hcount c
        simp only [Shape.addrs_node, List.count_append, List.count_cons, beq_self_eq_true,
          if_true] at h2
        omega
      · exact ih hsp

theorem Shape.subtrees_ids_nodup : ∀ {b S : Shape}, S ∈ b.subtrees → b.ids.Nodup → S.ids.Nodup
  | .nil, _, h, _ => by simp [Shape.subtrees] at h
  | .node a i f n, S, h, hnd => by
    have hcount := List.nodup_iff_count_le_one.1 hnd
    simp only [Shape.subtrees, List.mem_cons, List.mem_append] at h
    rcases h with rfl | h | h
    · exact hnd
    · refine Shape.subtrees_ids_nodup h ?_
      rw [List.nodup_iff_count_le_one]
      intro y
      have := hcount y
      simp only [Shape.ids_node, List.count_append, List.count_cons] at this
      omega
    · refine Shape.subtrees_ids_nodup h ?_
      rw [List.nodup_iff_count_le_one]
      intro y
      have := hcount y
      simp only [Shape.ids_node, List.count_append, List.count_cons] at this
      omega

/-- Where `removeNode` links the children of the node it removes, in general: in a
well-formed tree with unique ids, let `P` be `root` or a
node below it, and let `A` (id not 0) stand in the child list of `P` between the
children `pre` and `post`.  Then `removeNode(root, A.id, 0)` returns and the
former children of `A` are children of `P`, the immediate parent of the removed
node: the child list of `P` is `pre`, `post`, then the children of `A`.  When `P`
is not `root`, the child list of `root` is the one before the call and holds no
former child of `A`. -/
theorem removeNode_promotes_to_parent (F d : Nat) (h : Heap) (r : Nat) (ir : Int)
    (f nx : Shape) (P : Nat) (iP : Int) (fP nP : Shape) (A : Nat) (iA : Int) (fA : Shape)
    (pre post : List (Nat × Int × Shape))
    (hwf : WellFormed h.mem (some r) (.node r ir f nx))
    (huniq : UniqueIds (.node r ir f nx))
    (hS : Shape.node P iP fP nP = .node r ir f nx ∨ Shape.node P iP fP nP ∈ f.subtrees)
    (hkids : fP.kids = pre ++ (A, iA, fA) :: post) (hiA : iA ≠ 0)
    (hF : (Shape.node r ir f nx).addrs.length ≤ F)
    (hd : (Shape.node r ir f nx).addrs.length ≤ d) :
    ∃ h' nP' nr', removeNode F d h (some r) iA false = some h' ∧
      h'.mem P = some nP' ∧
      Chain h'.mem nP'.first ((pre ++ post).map (fun x => x.1) ++ fA.spine) ∧
      h'.mem r = some nr' ∧
      (P ≠ r → Chain h'.mem nr'.first f.spine ∧ ∀ c ∈ fA.spine, c ∉ f.spine) := by
  obtain ⟨hrep, hnd⟩ := hwf
  have hcount := List.nodup_iff_count_le_one.1 hnd
  have hidc := List.nodup_iff_count_le_one.1 huniq
  have hidf : f.ids.Nodup := by
    rw [List.nodup_iff_count_le_one]
    intro y
    have := hidc y
    simp only [Shape.ids_node, List.count_append, List.count_cons] at this
    omega
  have hndf : f.addrs.Nodup := by
    rw [List.nodup_iff_count_le_one]
    intro y
    have := hcount y
    simp only [Shape.addrs_node, List.count_append, List.count_cons] at this
    omega
  have hSall : Shape.node P iP fP nP ∈ (Shape.node r ir f nx).subtrees := by
    rcases hS with hS | hS
    · rw [hS]
      simp [Shape.subtrees]
    · simp [Shape.subtrees, hS]
  have hidS := Shape.subtrees_ids_nodup hSall huniq
  have hidfP : fP.ids.Nodup := by
    have hc := List.nodup_iff_count_le_one.1 hidS
    rw [List.nodup_iff_count_le_one]
    intro y
    have := hc y
    simp only [Shape.ids_node, List.count_append, List.count_cons] at this
    omega
  have hu := Shape.unlinkId_of_kids pre fP hidfP hkids
  obtain ⟨h', hrun, hrep', _, _⟩ := removeNode_rep F d iA hiA h r ir f nx hrep hnd hF hd
  obtain ⟨_, nr', hnr', _, hf', _⟩ := id hrep'
  rcases hS with hS | hS
  · simp only [Shape.node.injEq] at hS
    obtain ⟨rfl, rfl, rfl, rfl⟩ := hS
    have hch := Rep.chain hf'
    rw [Shape.remove_true_of_unlinkId_some hu, Shape.spine_append, Shape.spine_ofKids] at hch
    exact ⟨h', nr', nr', hrun, hnr', hch, hnr', fun hne => absurd rfl hne⟩
  · obtain ⟨nP', hsub⟩ := Shape.remove_subtree f true hidf hS hu
    obtain ⟨q, hq⟩ := Rep.subtree hf' hsub
    obtain ⟨_, ndP, hndP, _, hfP', _⟩ := hq
    have hch := Rep.chain hfP'
    rw [Shape.spine_append, Shape.spine_ofKids] at hch
    have hnone := Shape.unlinkId_none_of_below f hidf hS (Shape.unlinkId_mem_ids hu)
    have hroot := Rep.chain hf'
    rw [Shape.remove_true_of_unlinkId_none hnone, Shape.remove_false_spine] at hroot
    refine ⟨h', ndP, nr', hrun, hndP, hch, hnr', fun _ => ⟨hroot, ?_⟩⟩
    intro c hc
    have hA : Shape.node A iA fA (Shape.ofKids post) ∈ f.subtrees := by
      refine Shape.subtrees_trans hS ?_
      simp [Shape.subtrees, Shape.kids_subtree pre fP hkids]
    exact Shape.child_not_on_spine f hndf hA hc

/-- The promotion to the immediate parent at a concrete input: node 2 is removed from the path 0, 1, 2, 3 and
its child 3 becomes a child of node 1. -/
theorem removeNode_promotes_to_parent_witness :
    ∃ h' nP' nr', removeNode 4 4 { mem := memPath, err := [] } (some 0) 2 false = some h' ∧
      h'.mem 1 = some nP' ∧
      Chain h'.mem nP'.first
        (List.map (fun x : Nat × Int × Shape => x.1) ([] ++ [])
          ++ (Shape.node 3 3 .nil .nil).spine) ∧
      h'.mem 0 = some nr' ∧
      (1 ≠ 0 → Chain h'.mem nr'.first
          (Shape.node 1 1 (.node 2 2 (.node 3 3 .nil .nil) .nil) .nil).spine ∧
        ∀ c ∈ (Shape.node 3 3 .nil .nil).spine,
          c ∉ (Shape.node 1 1 (.node 2 2 (.node 3 3 .nil .nil) .nil) .nil).spine) :=
  removeNode_promotes_to_parent 4 4 { mem := memPath, err := [] } 0 0
    (.node 1 1 (.node 2 2 (.node 3 3 .nil .nil) .nil) .nil) .nil
    1 1 (.node 2 2 (.node 3 3 .nil .nil) .nil) .nil 2 2 (.node 3 3 .nil .nil) [] []
    ⟨by simp [Rep, memPath, storeOf], by decide⟩ (by unfold UniqueIds; decide)
    (Or.inr (by decide)) rfl (by decide) (by decide) (by decide)

/-- C6, the code at the failing input: the path 0, 1, 2, 3 of first children is a
well-formed tree with unique ids in which node 3 is the only child of node 2.
`removeNode(0, 2, 0)` returns; it writes "Removing node 2", "Promoting child 3 (C)
to root" and then "Added node 3 (C) as child of 1 (A)": the child list of the
top-level root 0 is `[1]` as before and the child list of node 1, the immediate
parent of the removed node, is `[3]`.  The former child is a child of the immediate
parent and not of the root passed to the call, against the diagnostic of the code
itself. -/
theorem removeNode_promotes_below_root :
    WellFormed memPath (some 0)
      (.node 0 0 (.node 1 1 (.node 2 2 (.node 3 3 .nil .nil) .nil) .nil) .nil) ∧
    UniqueIds (.node 0 0 (.node 1 1 (.node 2 2 (.node 3 3 .nil .nil) .nil) .nil) .nil) ∧
    ∃ h' n2 n0 n1, memPath 2 = some n2 ∧ Chain memPath n2.first [3] ∧
      removeNode 4 4 { mem := memPath, err := [] } (some 0) 2 false = some h' ∧
      h'.err = [Diag.removing 2 [66], Diag.promoting 3 [67], Diag.added 3 [67] 1 [65]] ∧
      h'.mem 0 = some n0 ∧ h'.mem 1 = some n1 ∧
      Chain h'.mem n0.first [1] ∧ Chain h'.mem n1.first [3] := by
  refine ⟨⟨by simp [Rep, memPath, storeOf], by decide⟩, by unfold UniqueIds; decide,
    _, _, _, _, rfl, ?_, rfl, rfl, rfl, rfl, ?_, ?_⟩
  · simp [Chain, memPath, storeOf]
  · simp [Chain, memPath, storeOf, Store.set, Store.free]
  · simp [Chain, memPath, storeOf, Store.set, Store.free]

/-! ## Relocation -/

/-- C10, the code at the failing input: in `memNested` (well formed, unique ids)
node 2 is the only child of node 1, and node 3 differs from node 2 and is not
inside its subtree.  `moveNode(root, 1, 2)` and then `moveNode(root, 3, 2)` both
return, and afterwards node 2 is the first child of node 3 and still the first
child of node 1, and its own sibling link leads back to itself. -/
theorem moveNode_twice_leaves_child_under_both :
    WellFormed memNested (some 0) shapeNested ∧ UniqueIds shapeNested ∧
    ∃ h₁ h₂ n1 n2 n3, moveNode 4 { mem := memNested, err := [] } (some 0) 1 2 = some h₁ ∧
      moveNode 4 h₁ (some 0) 3 2 = some h₂ ∧
      h₂.mem 1 = some n1 ∧ n1.first = some 2 ∧
      h₂.mem 3 = some n3 ∧ n3.first = some 2 ∧
      h₂.mem 2 = some n2 ∧ n2.nextToFirst = some 2 := by
  refine ⟨⟨by simp [Rep, shapeNested, memNested, storeOf], by decide⟩,
    by unfold UniqueIds; decide, ?_⟩
  exact ⟨_, _, _, _, _, rfl, rfl, rfl, rfl, rfl, rfl, rfl, rfl⟩

/-- The detach scan of `moveNode` finds the node at address `t` on the child chain;
the write to the link that leads to it unlinks it. -/
theorem detachScan_unlink {m : Store} {id : Int} :
    ∀ (b : Shape) (p cur : Ptr) (k : Nat) (t : Nat) (ft rest : Shape),
    Rep m p b → b.addrs.Nodup → b.spine.length ≤ k →
    Shape.unlinkId id b = some (t, ft, rest) →
    ∃ nt, m t = some nt ∧ Rep m nt.first ft ∧
      ((detachScan m t k cur p = some (some cur) ∧ Rep m nt.nextToFirst rest) ∨
       (∃ q nq, detachScan m t k cur p = some (some (some q)) ∧ m q = some nq ∧
          q ∈ rest.addrs ∧ Rep (m.set q { nq with nextToFirst := nt.nextToFirst }) p rest))
  | .nil, _, _, _, _, _, _, _, _, _, h => by simp [Shape.unlinkId] at h
  | .node a i f n, p, cur, k, t, ft, rest, hb, hnd, hk, hu => by
    obtain ⟨rfl, nd, hnda, hi, hf, hn⟩ := hb
    obtain ⟨k, rfl⟩ : ∃ j, k = j + 1 := ⟨k - 1, by simp [Shape.spine] at hk; omega⟩
    have hcount := List.nodup_iff_count_le_one.1 hnd
    by_cases hid : i = id
    · simp only [Shape.unlinkId, hid, if_true, Option.some.injEq, Prod.mk.injEq] at hu
      obtain ⟨rfl, rfl, rfl⟩ := hu
      refine ⟨nd, hnda, hf, Or.inl ⟨?_, hn⟩⟩
      simp [detachScan]
    · simp only [Shape.unlinkId, hid, if_false] at hu
      cases hrec : Shape.unlinkId id n with
      | none => simp [hrec] at hu
      | some res =>
        obtain ⟨t', ft', rest'⟩ := res
        simp only [hrec, Option.some.injEq, Prod.mk.injEq] at hu
        obtain ⟨rfl, rfl, rfl⟩ := hu
        have hndn : n.addrs.Nodup := by
          rw [List.nodup_iff_count_le_one]
          intro x
          have := hcount x
          simp only [Shape.addrs_node, List.count_append, List.count_cons] at this
          omega
        have hk2 : n.spine.length ≤ k := by simp [Shape.spine] at hk; omega
        have hucount := Shape.unlinkId_count hrec
        obtain ⟨nt, hnt, hft, hcase⟩ := detachScan_unlink n nd.nextToFirst (some a) k t' ft' rest'
          hn hndn hk2 hrec
        refine ⟨nt, hnt, hft, Or.inr ?_⟩
        have ha_f : a ∉ f.addrs := by
          apply not_mem_of_count_eq_zero
          have := hcount a
          simp only [Shape.addrs_node, List.count_append, List.count_cons, beq_self_eq_true,
            if_true] at this
          omega
        have ha_n : a ∉ n.addrs := by
          apply not_mem_of_count_eq_zero
          have := hcount a
          simp only [Shape.addrs_node, List.count_append, List.count_cons, beq_self_eq_true,
            if_true] at this
          omega
        have ht_n : t' ∈ n.addrs := by
          apply List.count_pos_iff.1
          have := hucount t'
          simp only [List.count_cons, List.count_nil, beq_self_eq_true, if_true] at this
          omega
        have hat : ¬ a = t' := fun e => ha_n (e ▸ ht_n)
        rcases hcase with ⟨hscan, hrest⟩ | ⟨q, nq, hscan, hnq, hq, hrest⟩
        · refine ⟨a, nd, ?_, hnda, by simp, ?_⟩
          · simp [detachScan, hnda, hat, hscan]
          · have ha_rest : a ∉ rest'.addrs := by
              intro hmem
              have h1 := List.count_pos_iff.2 hmem
              have h2 := hucount a
              have h3 : n.addrs.count a = 0 := List.count_eq_zero.2 ha_n
              omega
            exact ⟨rfl, _, Store.set_same _ _ _, hi, Rep.frame_set hf _ ha_f,
              Rep.frame_set hrest _ ha_rest⟩
        · have hq_n : q ∈ n.addrs := by
            apply List.count_pos_iff.1
            have h1 := List.count_pos_iff.2 hq
            have h2 := hucount q
            omega
          have hqa : a ≠ q := fun e => ha_n (e ▸ hq_n)
          have hq_f : q ∉ f.addrs := by
            apply not_mem_of_count_eq_zero
            have h1 := List.count_pos_iff.2 hq_n
            have := hcount q
            simp only [Shape.addrs_node, List.count_append, List.count_cons] at this
            omega
          refine ⟨q, nq, ?_, hnq, by simp [hq], ?_⟩
          · simp [detachScan, hnda, hat, hscan]
          · refine ⟨rfl, nd, ?_, hi, Rep.frame_set hf _ hq_f, hrest⟩
            rw [Store.set_ne _ _ hqa]
            exact hnda

theorem Shape.subtree_of_mem : ∀ (b : Shape) {P : Nat} {i : Int},
    (P, i) ∈ b.nodes → ∃ fP nP, Shape.node P i fP nP ∈ b.subtrees
  | .nil, _, _, h => by simp [Shape.nodes] at h
  | .node a j f n, P, i, h => by
    simp only [Shape.nodes, List.mem_cons, List.mem_append, Prod.mk.injEq] at h
    rcases h with ⟨rfl, rfl⟩ | h | h
    · exact ⟨f, n, by simp [Shape.subtrees]⟩
    · obtain ⟨fP, nP, hS⟩ := Shape.subtree_of_mem f h
      exact ⟨fP, nP, by simp [Shape.subtrees, hS]⟩
    · obtain ⟨fP, nP, hS⟩ := Shape.subtree_of_mem n h
      exact ⟨fP, nP, by simp [Shape.subtrees, hS]⟩

theorem Shape.subtrees_count_le : ∀ {b S : Shape}, S ∈ b.subtrees →
    ∀ x, S.addrs.count x ≤ b.addrs.count x
  | .nil, _, h, _ => by simp [Shape.subtrees] at h
  | .node a i f n, S, h, x => by
    simp only [Shape.subtrees, List.mem_cons, List.mem_append] at h
    rcases h with rfl | h | h
    · exact le_refl _
    · have := Shape.subtrees_count_le h x
      simp only [Shape.addrs_node, List.count_append, List.count_cons]
      omega
    · have := Shape.subtrees_count_le h x
      simp only [Shape.addrs_node, List.count_append, List.count_cons]
      omega

theorem Shape.attach_of_not_mem (P : Nat) (cs : Shape) : ∀ (b : Shape),
    P ∉ b.addrs → Shape.attach P cs b = b
  | .nil, _ => rfl
  | .node a i f n, h => by
    simp only [Shape.addrs_node, List.mem_cons, List.mem_append, not_or] at h
    have hne : ¬ a = P := fun e => h.1 e.symm
    simp [Shape.attach, hne, Shape.attach_of_not_mem P cs f h.2.1,
      Shape.attach_of_not_mem P cs n h.2.2]

/-- A change of the memory below the node at address `P` that links `cs` after its
last child is a change of the whole unfolding to `Shape.attach`. -/
theorem Rep.attach {m m' : Store} {P : Nat} {iP : Int} {fP nP cs : Shape}
    (hP : Rep m' (some P) (.node P iP (fP.append cs) nP))
    (hframe : ∀ a, a ∉ P :: fP.spine → m' a = m a) :
    ∀ (b : Shape) (p : Ptr), Rep m p b → b.addrs.Nodup →
      Shape.node P iP fP nP ∈ b.subtrees → Rep m' p (Shape.attach P cs b)
  | .nil, _, _, _, h => by simp [Shape.subtrees] at h
  | .node a i f n, p, hb, hnd, hS => by
    have hcount := List.nodup_iff_count_le_one.1 hnd
    obtain ⟨hp, nd, hnda, hi, hf, hn⟩ := hb
    have hndf : f.addrs.Nodup := by
      rw [List.nodup_iff_count_le_one]
      intro x
      have := hcount x
      simp only [Shape.addrs_node, List.count_append, List.count_cons] at this
      omega
    have hndn : n.addrs.Nodup := by
      rw [List.nodup_iff_count_le_one]
      intro x
      have := hcount x
      simp only [Shape.addrs_node, List.count_append, List.count_cons] at this
      omega
    have hSP : ∀ x, x ∈ P :: fP.spine → x ∈ (Shape.node P iP fP nP).addrs := by
      intro x hx
      rcases List.mem_cons.1 hx with e | e
      · simp [e]
      · simp [Shape.spine_subset_addrs _ _ e]
    simp only [Shape.subtrees, List.mem_cons, List.mem_append] at hS
    rcases hS with hS | hS | hS
    · simp only [Shape.node.injEq] at hS
      obtain ⟨rfl, rfl, rfl, rfl⟩ := hS
      subst hp
      simpa [Shape.attach] using hP
    · have hin : ∀ x, x ∈ P :: fP.spine → x ∈ f.addrs :=
        fun x hx => Shape.subtrees_addrs hS (hSP x hx)
      have hPf : P ∈ f.addrs := hin P (by simp)
      have haP : ¬ a = P := by
        rintro rfl
        have h1 := List.count_pos_iff.2 hPf
        have := hcount a
        simp only [Shape.addrs_node, List.count_append, List.count_cons, beq_self_eq_true,
          if_true] at this
        omega
      have hout : ∀ x, x = a ∨ x ∈ n.addrs → x ∉ P :: fP.spine := by
        intro x hx hmem
        have h1 := List.count_pos_iff.2 (hin x hmem)
        have := hcount x
        rcases hx with rfl | hx
        · simp only [Shape.addrs_node, List.count_append, List.count_cons, beq_self_eq_true,
            if_true] at this
          omega
        · have h2 := List.count_pos_iff.2 hx
          simp only [Shape.addrs_node, List.count_append, List.count_cons] at this
          omega
      have hPn : P ∉ n.addrs := fun e => hout P (Or.inr e) (by simp)
      simp only [Shape.attach, haP, if_false, Shape.attach_of_not_mem P cs n hPn]
      refine ⟨hp, nd, ?_, hi, Rep.attach hP hframe f _ hf hndf hS, Rep.congr hn ?_⟩
      · rw [hframe a (hout a (Or.inl rfl))]
        exact hnda
      · intro x hx
        exact hframe x (hout x (Or.inr hx))
    · have hin : ∀ x, x ∈ P :: fP.spine → x ∈ n.addrs :=
        fun x hx => Shape.subtrees_addrs hS (hSP x hx)
      have hPn : P ∈ n.addrs := hin P (by simp)
      have haP : ¬ a = P := by
        rintro rfl
        have h1 := List.count_pos_iff.2 hPn
        have := hcount a
        simp only [Shape.addrs_node, List.count_append, List.count_cons, beq_self_eq_true,
          if_true] at this
        omega
      have hout : ∀ x, x = a ∨ x ∈ f.addrs → x ∉ P :: fP.spine := by
        intro x hx hmem
        have h1 := List.count_pos_iff.2 (hin x hmem)
        have := hcount x
        rcases hx with rfl | hx
        · simp only [Shape.addrs_node, List.count_append, List.count_cons, beq_self_eq_true,
            if_true] at this
          omega
        · have h2 := List.count_pos_iff.2 hx
          simp only [Shape.addrs_node, List.count_append, List.count_cons] at this
          omega
      have hPf : P ∉ f.addrs := fun e => hout P (Or.inr e) (by simp)
      simp only [Shape.attach, haP, if_false, Shape.attach_of_not_mem P cs f hPf]
      refine ⟨hp, nd, ?_, hi, Rep.congr hf ?_, Rep.attach hP hframe n _ hn hndn hS⟩
      · rw [hframe a (hout a (Or.inl rfl))]
        exact hnda
      · intro x hx
        exact hframe x (hout x (Or.inr hx))

theorem Shape.attach_nodes (P : Nat) (cs : Shape) : ∀ (b : Shape),
    b.addrs.Nodup → P ∈ b.addrs →
    List.Perm (Shape.attach P cs b).nodes (b.nodes ++ cs.nodes)
  | .nil, _, h => by simp at h
  | .node a i f n, hnd, hP => by
    have hcount := List.nodup_iff_count_le_one.1 hnd
    have hndf : f.addrs.Nodup := by
      rw [List.nodup_iff_count_le_one]
      intro x
      have := hcount x
      simp only [Shape.addrs_node, List.count_append, List.count_cons] at this
      omega
    have hndn : n.addrs.Nodup := by
      rw [List.nodup_iff_count_le_one]
      intro x
      have := hcount x
      simp only [Shape.addrs_node, List.count_append, List.count_cons] at this
      omega
    by_cases haP : a = P
    · simp only [Shape.attach, haP, if_true, Shape.nodes, Shape.nodes_append]
      rw [List.perm_iff_count]
      intro x
      simp only [List.count_append, List.count_cons, List.cons_append]
      omega
    · simp only [Shape.addrs_node, List.mem_cons, List.mem_append] at hP
      have hcP := hcount P
      simp only [Shape.addrs_node, List.count_append, List.count_cons] at hcP
      rcases hP with hP | hP | hP
      · exact absurd hP.symm haP
      · have hPn : P ∉ n.addrs := by
          apply not_mem_of_count_eq_zero
          have h1 := List.count_pos_iff.2 hP
          omega
        have ih := Shape.attach_nodes P cs f hndf hP
        simp only [Shape.attach, haP, if_false, Shape.nodes,
          Shape.attach_of_not_mem P cs n hPn]
        rw [List.perm_iff_count]
        intro x
        have := List.perm_iff_count.1 ih x
        simp only [List.count_append, List.count_cons, List.cons_append] at this ⊢
        omega
      · have hPf : P ∉ f.addrs := by
          apply not_mem_of_count_eq_zero
          have h1 := List.count_pos_iff.2 hP
          omega
        have ih := Shape.attach_nodes P cs n hndn hP
        simp only [Shape.attach, haP, if_false, Shape.nodes,
          Shape.attach_of_not_mem P cs f hPf]
        rw [List.perm_iff_count]
        intro x
        have := List.perm_iff_count.1 ih x
        simp only [List.count_append, List.count_cons, List.cons_append] at this ⊢
        omega

theorem Shape.attach_subtree (P : Nat) (cs : Shape) {iP : Int} {fP nP : Shape} :
    ∀ (b : Shape), b.addrs.Nodup → Shape.node P iP fP nP ∈ b.subtrees →
    Shape.node P iP (fP.append cs) nP ∈ (Shape.attach P cs b).subtrees
  | .nil, _, h => by simp [Shape.subtrees] at h
  | .node a i f n, hnd, hS => by
    have hcount := List.nodup_iff_count_le_one.1 hnd
    have hndf : f.addrs.Nodup := by
      rw [List.nodup_iff_count_le_one]
      intro x
      have := hcount x
      simp only [Shape.addrs_node, List.count_append, List.count_cons] at this
      omega
    have hndn : n.addrs.Nodup := by
      rw [List.nodup_iff_count_le_one]
      intro x
      have := hcount x
      simp only [Shape.addrs_node, List.count_append, List.count_cons] at this
      omega
    have hne : P ∈ f.addrs ∨ P ∈ n.addrs → ¬ a = P := by
      rintro hP rfl
      have := hcount a
      simp only [Shape.addrs_node, List.count_append, List.count_cons, beq_self_eq_true,
        if_true] at this
      rcases hP with hP | hP
      · have h1 := List.count_pos_iff.2 hP
        omega
      · have h1 := List.count_pos_iff.2 hP
        omega
    simp only [Shape.subtrees, List.mem_cons, List.mem_append] at hS
    rcases hS with hS | hS | hS
    · simp only [Shape.node.injEq] at hS
      obtain ⟨rfl, rfl, rfl, rfl⟩ := hS
      simp [Shape.attach, Shape.subtrees]
    · have hPf : P ∈ f.addrs := Shape.subtrees_addrs hS (by simp)
      have ih := Shape.attach_subtree P cs f hndf hS
      simp [Shape.attach, hne (Or.inl hPf), Shape.subtrees, ih]
    · have hPn : P ∈ n.addrs := Shape.subtrees_addrs hS (by simp)
      have ih := Shape.attach_subtree P cs n hndn hS
      simp [Shape.attach, hne (Or.inr hPn), Shape.subtrees, ih]

theorem Rep.append_right {m : Store} {cs : Shape} : ∀ {b : Shape} {p : Ptr},
    Rep m p (b.append cs) → ∃ q, Rep m q cs
  | .nil, p, h => ⟨p, h⟩
  | .node _ _ _ n, _, h => by
    obtain ⟨_, nd, _, _, _, hn⟩ := h
    exact Rep.append_right (b := n) hn

/-- Without sharing, a node stands in the child list of at most one node. -/
theorem Shape.parent_unique : ∀ (b : Shape) {P₁ P₂ : Nat} {i₁ i₂ : Int}
    {f₁ n₁ f₂ n₂ : Shape} {c : Nat}, b.addrs.Nodup →
    Shape.node P₁ i₁ f₁ n₁ ∈ b.subtrees → Shape.node P₂ i₂ f₂ n₂ ∈ b.subtrees →
    c ∈ f₁.spine → c ∈ f₂.spine → P₁ = P₂
  | .nil, _, _, _, _, _, _, _, _, _, _, h, _, _, _ => by simp [Shape.subtrees] at h
  | .node a i f n, P₁, P₂, i₁, i₂, f₁, n₁, f₂, n₂, c, hnd, hS₁, hS₂, hc₁, hc₂ => by
    have hcount := List.nodup_iff_count_le_one.1 hnd
    have hndf : f.addrs.Nodup := by
      rw [List.nodup_iff_count_le_one]
      intro x
      have := hcount x
      simp only [Shape.addrs_node, List.count_append, List.count_cons] at this
      omega
    have hndn : n.addrs.Nodup := by
      rw [List.nodup_iff_count_le_one]
      intro x
      have := hcount x
      simp only [Shape.addrs_node, List.count_append, List.count_cons] at this
      omega
    have hdisj : c ∈ f.addrs → c ∈ n.addrs → False := by
      intro h1 h2
      have h3 := List.count_pos_iff.2 h1
      have h4 := List.count_pos_iff.2 h2
      have := hcount c
      simp only [Shape.addrs_node, List.count_append, List.count_cons] at this
      omega
    have hin₁ : c ∈ (Shape.node P₁ i₁ f₁ n₁).addrs := by
      simp [Shape.spine_subset_addrs _ _ hc₁]
    have hin₂ : c ∈ (Shape.node P₂ i₂ f₂ n₂).addrs := by
      simp [Shape.spine_subset_addrs _ _ hc₂]
    simp only [Shape.subtrees, List.mem_cons, List.mem_append] at hS₁ hS₂
    rcases hS₁ with hS₁ | hS₁ | hS₁ <;> rcases hS₂ with hS₂ | hS₂ | hS₂
    · simp only [Shape.node.injEq] at hS₁ hS₂
      rw [hS₁.1, hS₂.1]
    · simp only [Shape.node.injEq] at hS₁
      obtain ⟨rfl, rfl, rfl, rfl⟩ := hS₁
      exact absurd hc₁ (Shape.child_not_on_spine f₁ hndf hS₂ hc₂)
    · simp only [Shape.node.injEq] at hS₁
      obtain ⟨rfl, rfl, rfl, rfl⟩ := hS₁
      exact (hdisj (Shape.spine_subset_addrs _ _ hc₁) (Shape.subtrees_addrs hS₂ hin₂)).elim
    · simp only [Shape.node.injEq] at hS₂
      obtain ⟨rfl, rfl, rfl, rfl⟩ := hS₂
      exact absurd hc₂ (Shape.child_not_on_spine f₂ hndf hS₁ hc₁)
    · exact Shape.parent_unique f hndf hS₁ hS₂ hc₁ hc₂
    · exact (hdisj (Shape.subtrees_addrs hS₁ hin₁) (Shape.subtrees_addrs hS₂ hin₂)).elim
    · simp only [Shape.node.injEq] at hS₂
      obtain ⟨rfl, rfl, rfl, rfl⟩ := hS₂
      exact (hdisj (Shape.spine_subset_addrs _ _ hc₂) (Shape.subtrees_addrs hS₁ hin₁)).elim
    · exact (hdisj (Shape.subtrees_addrs hS₂ hin₂) (Shape.subtrees_addrs hS₁ hin₁)).elim
    · exact Shape.parent_unique n hndn hS₁ hS₂ hc₁ hc₂

theorem find?_of_unique_snd : ∀ (l : List (Nat × Int)) {a : Nat} {i : Int},
    (l.map Prod.snd).Nodup → (a, i) ∈ l → l.find? (fun x => x.2 = i) = some (a, i)
  | [], _, _, _, h => by simp at h
  | (b, j) :: l, a, i, hnd, h => by
    simp only [List.map_cons, List.nodup_cons] at hnd
    simp only [List.mem_cons, Prod.mk.injEq] at h
    rcases h with ⟨rfl, rfl⟩ | h
    · simp
    · have hji : ¬ j = i := by
        rintro rfl
        exact hnd.1 (List.mem_map_of_mem Prod.snd h)
      simp [List.find?_cons, hji, find?_of_unique_snd l hnd.2 h]

theorem findNode_of_unique {m : Store} {root : Ptr} {b : Shape} {P : Nat} {id : Int} {d : Nat}
    (hrep : Rep m root b) (huniq : UniqueIds b) (hP : (P, id) ∈ b.nodes)
    (hd : b.addrs.length < d) : findNode m d root id = some (some P) := by
  rw [findNode_eq_find id b root d hrep hd, find?_of_unique_snd b.nodes huniq hP]
  rfl

/-- The effect of `moveNode` on a well-formed tree with unique ids when the child
stands in the child list of `root`: the call returns, and the tree unfolds to the
previous shape with the child unlinked from the child list of `root` and linked,
with its subtree, after the last child of the parent. -/
theorem moveNode_rep (F : Nat) (h : Heap) (r : Nat) (ir : Int) (f nx : Shape)
    (P : Nat) (parentId : Int) (X : Nat) (childId : Int) (fX : Shape)
    (pre post : List (Nat × Int × Shape))
    (hwf : WellFormed h.mem (some r) (.node r ir f nx))
    (huniq : UniqueIds (.node r ir f nx)) (hne : parentId ≠ childId)
    (hP : (P, parentId) ∈ (Shape.node r ir f nx).nodes)
    (hX : f.kids = pre ++ (X, childId, fX) :: post) (hPX : P ∉ fX.addrs)
    (hF : (Shape.node r ir f nx).addrs.length < F) :
    ∃ h' fP nP, moveNode F h (some r) parentId childId = some h' ∧
      Shape.node P parentId fP nP ∈ (Shape.node r ir (Shape.ofKids (pre ++ post)) nx).subtrees ∧
      Rep h'.mem (some r) (Shape.attach P (.node X childId fX .nil)
        (.node r ir (Shape.ofKids (pre ++ post)) nx)) ∧
      ((Shape.node r ir (Shape.ofKids (pre ++ post)) nx).addrs
        ++ (Shape.node X childId fX .nil).addrs).Nodup ∧
      List.Perm ((Shape.node r ir (Shape.ofKids (pre ++ post)) nx).nodes
        ++ (Shape.node X childId fX .nil).nodes) (Shape.node r ir f nx).nodes ∧
      (∀ a, a ∉ (Shape.node r ir f nx).addrs → h'.mem a = h.mem a) := by
  obtain ⟨hrep, hnd⟩ := hwf
  have hcount := List.nodup_iff_count_le_one.1 hnd
  have hidc := List.nodup_iff_count_le_one.1 huniq
  have hidf : f.ids.Nodup := by
    rw [List.nodup_iff_count_le_one]
    intro y
    have := hidc y
    simp only [Shape.ids_node, List.count_append, List.count_cons] at this
    omega
  have hndf : f.addrs.Nodup := by
    rw [List.nodup_iff_count_le_one]
    intro y
    have := hcount y
    simp only [Shape.addrs_node, List.count_append, List.count_cons] at this
    omega
  have hu := Shape.unlinkId_of_kids pre f hidf hX
  have hunodes := Shape.unlinkId_nodes hu
  have hucount := Shape.unlinkId_count hu
  -- the two lookups
  have hXmem : (X, childId) ∈ (Shape.node r ir f nx).nodes := by
    have : (X, childId) ∈ f.nodes := hunodes.mem_iff.2 (by simp)
    simp [Shape.nodes, this]
  have hfindP := findNode_of_unique hrep huniq hP hF
  have hfindX := findNode_of_unique hrep huniq hXmem hF
  obtain ⟨fP₀, nP₀, hS₀⟩ := Shape.subtree_of_mem _ hP
  obtain ⟨q₀, hq₀⟩ := Rep.subtree hrep hS₀
  obtain ⟨_, nP, hnP, _, _, _⟩ := hq₀
  obtain ⟨_, nr, hnr, hir, hf, hnx⟩ := id hrep
  have hlenf : f.spine.length ≤ F := by
    have := Shape.spine_length_le f
    simp at hF
    omega
  obtain ⟨nX, hnX, hfX, hcase⟩ := detachScan_unlink f nr.first none F
    X fX (Shape.ofKids (pre ++ post)) hf hndf hlenf hu
  have hr_f : r ∉ f.addrs := by
    apply not_mem_of_count_eq_zero
    have := hcount r
    simp only [Shape.addrs_node, List.count_append, List.count_cons, beq_self_eq_true,
      if_true] at this
    omega
  have hr_nx : r ∉ nx.addrs := by
    apply not_mem_of_count_eq_zero
    have := hcount r
    simp only [Shape.addrs_node, List.count_append, List.count_cons, beq_self_eq_true,
      if_true] at this
    omega
  have hX_f : X ∈ f.addrs := by
    apply List.count_pos_iff.1
    have := hucount X
    simp only [List.count_cons, List.count_nil, beq_self_eq_true, if_true] at this
    omega
  have hXr : X ≠ r := fun e => hr_f (e ▸ hX_f)
  have hsub : ∀ x, x ∈ (Shape.ofKids (pre ++ post)).addrs ∨ x ∈ fX.addrs → x ∈ f.addrs := by
    intro x hx
    apply List.count_pos_iff.1
    have h2 := hucount x
    rcases hx with hx | hx
    · have h1 := List.count_pos_iff.2 hx
      omega
    · have h1 := List.count_pos_iff.2 hx
      omega
  have hX_out : X ∉ (Shape.node r ir (Shape.ofKids (pre ++ post)) nx).addrs ∧ X ∉ fX.addrs := by
    have h1 := hucount X
    have h2 := hcount X
    simp only [Shape.addrs_node, List.count_append, List.count_cons, List.count_nil,
      beq_self_eq_true, if_true] at h1 h2
    constructor
    · apply not_mem_of_count_eq_zero
      have h3 : ([r].count X) = 0 := by
        simp only [List.count_cons, List.count_nil]
        have : ¬ r = X := fun e => hXr e.symm
        simp [this]
      simp only [Shape.addrs_node, List.count_append, List.count_cons, List.count_nil] at h3 ⊢
      omega
    · apply not_mem_of_count_eq_zero
      omega
  have hnd₁ : ((Shape.node r ir (Shape.ofKids (pre ++ post)) nx).addrs
      ++ (Shape.node X childId fX .nil).addrs).Nodup := by
    rw [List.nodup_iff_count_le_one]
    intro x
    have h1 := hucount x
    have h2 := hcount x
    simp only [Shape.addrs_node, Shape.addrs_nil, List.count_append, List.count_cons,
      List.count_nil, List.cons_append] at h1 h2 ⊢
    omega
  have hperm : List.Perm ((Shape.node r ir (Shape.ofKids (pre ++ post)) nx).nodes
      ++ (Shape.node X childId fX .nil).nodes) (Shape.node r ir f nx).nodes := by
    rw [List.perm_iff_count]
    intro x
    have := List.perm_iff_count.1 hunodes x
    simp only [Shape.nodes, List.count_append, List.count_cons, List.count_nil,
      List.cons_append, List.append_nil] at this ⊢
    omega
  -- the memory after the detach
  obtain ⟨m₂, hm₂, hrep₂, hX₂, hframe₂⟩ : ∃ m₂,
      (moveNode F h (some r) parentId childId =
        addChild F { mem := m₂, err := h.err ++ [Diag.moving childId nX.name parentId nP.name] }
          (some P) (some X)) ∧
      Rep m₂ (some r) (.node r ir (Shape.ofKids (pre ++ post)) nx) ∧
      Rep m₂ (some X) (.node X childId fX .nil) ∧
      (∀ a, a ≠ r → a ∉ f.addrs → m₂ a = h.mem a) := by
    have hidX : nX.id = childId := by
      obtain ⟨qX, hqX⟩ := Rep.subtree hf (Shape.kids_subtree pre f hX)
      obtain ⟨_, nd, hnd', hid', _, _⟩ := hqX
      rw [hnX] at hnd'
      have e : nX = nd := Option.some.inj hnd'
      rw [e]
      exact hid'
    have hr_rest : r ∉ (Shape.ofKids (pre ++ post)).addrs := fun e => hr_f (hsub r (Or.inl e))
    have hr_fX : r ∉ fX.addrs := fun e => hr_f (hsub r (Or.inr e))
    rcases hcase with ⟨hscan, hrest⟩ | ⟨q, nq, hscan, hnq, hq, hrest⟩
    · have hm1X : (h.mem.set r { nr with first := nX.nextToFirst }) X = some nX := by
        rw [Store.set_ne _ _ hXr]
        exact hnX
      refine ⟨(h.mem.set r { nr with first := nX.nextToFirst }).set X
        { nX with nextToFirst := none }, ?_, ?_, ?_, ?_⟩
      · simp [moveNode, hne, hfindP, hfindX, hnP, hnX, hnr, hscan, hm1X]
      · have h1 : Rep (h.mem.set r { nr with first := nX.nextToFirst }) (some r)
            (.node r ir (Shape.ofKids (pre ++ post)) nx) :=
          ⟨rfl, _, Store.set_same _ _ _, hir, Rep.frame_set hrest _ hr_rest,
            Rep.frame_set hnx _ hr_nx⟩
        exact Rep.frame_set h1 _ hX_out.1
      · exact ⟨rfl, _, Store.set_same _ _ _, hidX,
          Rep.frame_set (Rep.frame_set hfX _ hr_fX) _ hX_out.2, rfl⟩
      · intro a har haf
        have haX : a ≠ X := by
          rintro rfl
          exact haf hX_f
        rw [Store.set_ne _ _ haX, Store.set_ne _ _ har]
    · have hq_f : q ∈ f.addrs := hsub q (Or.inl hq)
      have hqr : r ≠ q := fun e => hr_f (e ▸ hq_f)
      have hXq : X ≠ q := by
        rintro rfl
        exact hX_out.1 (by simp [hq])
      have hq_fX : q ∉ fX.addrs := by
        apply not_mem_of_count_eq_zero
        have h1 := hucount q
        have h2 := hcount q
        have h3 := List.count_pos_iff.2 hq
        simp only [Shape.addrs_node, List.count_append, List.count_cons] at h2
        omega
      have hq_nx : q ∉ nx.addrs := by
        apply not_mem_of_count_eq_zero
        have h1 := List.count_pos_iff.2 hq_f
        have h2 := hcount q
        simp only [Shape.addrs_node, List.count_append, List.count_cons] at h2
        omega
      have hm1X : (h.mem.set q { nq with nextToFirst := nX.nextToFirst }) X = some nX := by
        rw [Store.set_ne _ _ hXq]
        exact hnX
      refine ⟨(h.mem.set q { nq with nextToFirst := nX.nextToFirst }).set X
        { nX with nextToFirst := none }, ?_, ?_, ?_, ?_⟩
      · simp [moveNode, hne, hfindP, hfindX, hnP, hnX, hnr, hscan, hnq, hm1X]
      · have h1 : Rep (h.mem.set q { nq with nextToFirst := nX.nextToFirst }) (some r)
            (.node r ir (Shape.ofKids (pre ++ post)) nx) := by
          refine ⟨rfl, nr, ?_, hir, hrest, Rep.frame_set hnx _ hq_nx⟩
          rw [Store.set_ne _ _ hqr]
          exact hnr
        exact Rep.frame_set h1 _ hX_out.1
      · exact ⟨rfl, _, Store.set_same _ _ _, hidX,
          Rep.frame_set (Rep.frame_set hfX _ hq_fX) _ hX_out.2, rfl⟩
      · intro a _ haf
        have haX : a ≠ X := by
          rintro rfl
          exact haf hX_f
        have haq : a ≠ q := by
          rintro rfl
          exact haf hq_f
        rw [Store.set_ne _ _ haX, Store.set_ne _ _ haq]
  -- the parent in the tree without the child
  have hP₁ : (P, parentId) ∈ (Shape.node r ir (Shape.ofKids (pre ++ post)) nx).nodes := by
    have h1 := hperm.mem_iff.2 hP
    simp only [List.mem_append] at h1
    rcases h1 with h1 | h1
    · exact h1
    · simp only [Shape.nodes, List.append_nil, List.mem_cons, Prod.mk.injEq] at h1
      rcases h1 with ⟨_, e⟩ | h1
      · exact absurd e hne
      · exact absurd (List.mem_map_of_mem Prod.fst h1) hPX
  obtain ⟨fP, nP₁, hS₁⟩ := Shape.subtree_of_mem _ hP₁
  obtain ⟨q₁, hq₁⟩ := Rep.subtree hrep₂ hS₁
  have hq₁' : Rep m₂ (some P) (.node P parentId fP nP₁) := by
    have e : q₁ = some P := hq₁.1
    rw [← e]
    exact hq₁
  have hcount₁ := List.nodup_iff_count_le_one.1 hnd₁
  have hndP : ((Shape.node P parentId fP nP₁).addrs
      ++ (Shape.node X childId fX .nil).addrs).Nodup := by
    rw [List.nodup_iff_count_le_one]
    intro x
    have h1 := Shape.subtrees_count_le hS₁ x
    have h2 := hcount₁ x
    simp only [List.count_append] at h2 ⊢
    omega
  have hlenP : (Shape.node P parentId fP nP₁).addrs.length ≤ F := by
    have h1 : (Shape.node P parentId fP nP₁).addrs.length
        ≤ (Shape.node r ir (Shape.ofKids (pre ++ post)) nx).addrs.length := by
      apply List.Subperm.length_le
      rw [List.subperm_ext_iff]
      intro x hx
      have h2 := Shape.subtrees_count_le hS₁ x
      exact h2
    have h2 := hperm.length_eq
    simp only [Shape.addrs, List.length_map, List.length_append] at h1 h2 hF ⊢
    omega
  obtain ⟨h', hrun, hrepP, hframe⟩ := addChild_rep F
    { mem := m₂, err := h.err ++ [Diag.moving childId nX.name parentId nP.name] } P X parentId
    fP nP₁ _ hq₁' hX₂ hndP hlenP
  have hnd₁' : (Shape.node r ir (Shape.ofKids (pre ++ post)) nx).addrs.Nodup := by
    rw [List.nodup_iff_count_le_one]
    intro x
    have := hcount₁ x
    simp only [List.count_append] at this
    omega
  refine ⟨h', fP, nP₁, by rw [hm₂, hrun], hS₁, ?_, hnd₁, hperm, ?_⟩
  · exact Rep.attach hrepP hframe _ _ hrep₂ hnd₁' hS₁
  · intro a ha
    simp only [Shape.addrs_node, List.mem_cons, List.mem_append, not_or] at ha
    have haP : a ∉ P :: fP.spine := by
      intro hmem
      have h1 : a ∈ (Shape.node P parentId fP nP₁).addrs := by
        rcases List.mem_cons.1 hmem with e | e
        · simp [e]
        · simp [Shape.spine_subset_addrs _ _ e]
      have h2 := Shape.subtrees_addrs hS₁ h1
      simp only [Shape.addrs_node, List.mem_cons, List.mem_append] at h2
      rcases h2 with h2 | h2 | h2
      · exact ha.1 h2
      · exact ha.2.1 (hsub a (Or.inl h2))
      · exact ha.2.2 h2
    rw [hframe a haP]
    exact hframe₂ a ha.1 ha.2.1

/-- C9: in a well-formed tree with unique ids, let `parentId` and `childId` differ,
let `P` be the node that carries `parentId`, let `X`, carrying `childId`, stand in
the child list of `root`, and let `P` lie outside the subtree of `X`.  Then both
lookups find these nodes and `moveNode(root, parentId, childId)` returns;
afterwards `X` is the last entry of the child list of `P`, it is in the child list
of no other node met from `root`, its `first` link unfolds to the same subtree, and
the full traversal from `root` meets the same nodes as before, each once. -/
theorem moveNode_relocates_root_child (F e : Nat) (h : Heap) (r : Nat) (ir : Int)
    (f nx : Shape) (P : Nat) (parentId : Int) (X : Nat) (childId : Int) (fX : Shape)
    (pre post : List (Nat × Int × Shape))
    (hwf : WellFormed h.mem (some r) (.node r ir f nx))
    (huniq : UniqueIds (.node r ir f nx)) (hne : parentId ≠ childId)
    (hP : (P, parentId) ∈ (Shape.node r ir f nx).nodes)
    (hX : f.kids = pre ++ (X, childId, fX) :: post) (hPX : P ∉ fX.addrs)
    (hF : (Shape.node r ir f nx).addrs.length < F)
    (he : (Shape.node r ir f nx).addrs.length < e) :
    ∃ h' L nP' nX' l l',
      findNode h.mem F (some r) parentId = some (some P) ∧
      findNode h.mem F (some r) childId = some (some X) ∧
      moveNode F h (some r) parentId childId = some h' ∧
      h'.mem P = some nP' ∧ Chain h'.mem nP'.first (L ++ [X]) ∧
      (∀ Q nQ LQ, Q ∈ l'.map Prod.fst → Q ≠ P → h'.mem Q = some nQ →
        Chain h'.mem nQ.first LQ → X ∉ LQ) ∧
      h'.mem X = some nX' ∧ Rep h'.mem nX'.first fX ∧
      traverse h.mem e (some r) = some l ∧ traverse h'.mem e (some r) = some l' ∧
      List.Perm l' l ∧ (l'.map Prod.fst).Nodup := by
  obtain ⟨h', fP, nP, hrun, hS₁, hrep', hnd₁, hperm, _⟩ := moveNode_rep F h r ir f nx P parentId X
    childId fX pre post hwf huniq hne hP hX hPX hF
  obtain ⟨hrep, hnd⟩ := hwf
  have hidf : f.ids.Nodup := by
    have hidc := List.nodup_iff_count_le_one.1 huniq
    rw [List.nodup_iff_count_le_one]
    intro y
    have := hidc y
    simp only [Shape.ids_node, List.count_append, List.count_cons] at this
    omega
  have hXmem : (X, childId) ∈ (Shape.node r ir f nx).nodes := by
    have hu := Shape.unlinkId_of_kids pre f hidf hX
    have : (X, childId) ∈ f.nodes := (Shape.unlinkId_nodes hu).mem_iff.2 (by simp)
    simp [Shape.nodes, this]
  have hcount₁ := List.nodup_iff_count_le_one.1 hnd₁
  have hnd₁' : (Shape.node r ir (Shape.ofKids (pre ++ post)) nx).addrs.Nodup := by
    rw [List.nodup_iff_count_le_one]
    intro x
    have := hcount₁ x
    simp only [List.count_append] at this
    omega
  have hPin : P ∈ (Shape.node r ir (Shape.ofKids (pre ++ post)) nx).addrs :=
    Shape.subtrees_addrs hS₁ (by simp)
  have hperm₂ := (Shape.attach_nodes P (.node X childId fX .nil) _ hnd₁' hPin).trans hperm
  have hnd₂ : (Shape.attach P (.node X childId fX .nil)
      (.node r ir (Shape.ofKids (pre ++ post)) nx)).addrs.Nodup :=
    ((hperm₂.map Prod.fst).nodup_iff).2 hnd
  have hS₂ := Shape.attach_subtree P (.node X childId fX .nil) _ hnd₁' hS₁
  obtain ⟨qP, hqP⟩ := Rep.subtree hrep' hS₂
  obtain ⟨_, nP', hnP', _, hfP', _⟩ := hqP
  have hchP := Rep.chain hfP'
  rw [Shape.spine_append] at hchP
  obtain ⟨qX, hqX⟩ := Rep.append_right hfP'
  obtain ⟨_, nX', hnX', _, hfX', _⟩ := hqX
  have hlen₂ : (Shape.attach P (.node X childId fX .nil)
      (.node r ir (Shape.ofKids (pre ++ post)) nx)).addrs.length
      = (Shape.node r ir f nx).addrs.length := by
    have := hperm₂.length_eq
    simpa [Shape.addrs] using this
  refine ⟨h', fP.spine, nP', nX', _, _, findNode_of_unique hrep huniq hP hF,
    findNode_of_unique hrep huniq hXmem hF, hrun, hnP', by simpa [Shape.spine] using hchP, ?_,
    hnX', hfX', traverse_of_rep _ _ e hrep he, traverse_of_rep _ _ e hrep' (by omega), hperm₂,
    hnd₂⟩
  intro Q nQ LQ hQ hQP hnQ hLQ hXLQ
  obtain ⟨y, hy, rfl⟩ := List.mem_map.1 hQ
  obtain ⟨fQ, nQ', hSQ⟩ := Shape.subtree_of_mem _ (show (y.1, y.2) ∈ _ from hy)
  obtain ⟨qQ, hqQ⟩ := Rep.subtree hrep' hSQ
  obtain ⟨_, ndQ, hndQ, _, hfQ, _⟩ := hqQ
  rw [hnQ] at hndQ
  have e1 : nQ = ndQ := Option.some.inj hndQ
  subst e1
  have e2 := Chain.unique hLQ (Rep.chain hfQ)
  subst e2
  have hXP : X ∈ (fP.append (.node X childId fX .nil)).spine := by
    simp [Shape.spine_append, Shape.spine]
  exact hQP (Shape.parent_unique _ hnd₂ hS₂ hSQ hXP hXLQ).symm

/-- C9 at a concrete input: in `memSiblings` the root child 2 is moved under the root
child 1. -/
theorem moveNode_relocates_root_child_witness :
    ∃ h' L nP' nX' l l',
      findNode memSiblings 4 (some 0) 1 = some (some 1) ∧
      findNode memSiblings 4 (some 0) 2 = some (some 2) ∧
      moveNode 4 { mem := memSiblings, err := [] } (some 0) 1 2 = some h' ∧
      h'.mem 1 = some nP' ∧ Chain h'.mem nP'.first (L ++ [2]) ∧
      (∀ Q nQ LQ, Q ∈ l'.map Prod.fst → Q ≠ 1 → h'.mem Q = some nQ →
        Chain h'.mem nQ.first LQ → 2 ∉ LQ) ∧
      h'.mem 2 = some nX' ∧ Rep h'.mem nX'.first .nil ∧
      traverse memSiblings 4 (some 0) = some l ∧ traverse h'.mem 4 (some 0) = some l' ∧
      List.Perm l' l ∧ (l'.map Prod.fst).Nodup :=
  moveNode_relocates_root_child 4 4 { mem := memSiblings, err := [] } 0 0
    (.node 1 1 .nil (.node 2 2 .nil .nil)) .nil 1 1 2 2 .nil [(1, 1, .nil)] []
    ⟨by simp [Rep, memSiblings, storeOf], by decide⟩ (by unfold UniqueIds; decide) (by decide)
    (by decide) rfl (by decide) (by decide) (by decide)

/-! ## The command loop -/

theorem Shape.kids_mem_nodes {b : Shape} {pre post : List (Nat × Int × Shape)} {A : Nat}
    {iA : Int} {fA : Shape} (h : b.kids = pre ++ (A, iA, fA) :: post) : (A, iA) ∈ b.nodes :=
  Shape.subtrees_nodes (Shape.kids_subtree pre b h) (A, iA) (by simp [Shape.nodes])

/-! ## Ids outside the declared range, and the registry after a sort -/

/-- C19, the code at failing inputs: the command loop tests only `id < N`.  An id
at or above `N` is rejected by every command and the state is as before, but a
negative id passes the test: `PRINT -1`, `SORT_ID -1`, `SORT_NAME -1` and
`ADD -1 0` then read `nodes[-1]`, outside the array, in every state; and with one
declared node `MOVE -1 0` calls `moveNode`, which searches the tree and writes its
own diagnostic. -/
theorem execCmd_negative_id_not_rejected :
    (∀ (F N k : Nat) (s : Interp) (other : Int),
      execCmd F N s (.add (N + k) other) = some s ∧ execCmd F N s (.add other (N + k)) = some s ∧
      execCmd F N s (.move (N + k) other) = some s ∧
      execCmd F N s (.move other (N + k)) = some s ∧
      execCmd F N s (.remove (N + k)) = some s ∧ execCmd F N s (.sortId (N + k)) = some s ∧
      execCmd F N s (.sortName (N + k)) = some s ∧ execCmd F N s (.print (N + k)) = some s) ∧
    (∀ (F N : Nat) (s : Interp), execCmd F N s (.print (-1)) = none ∧
      execCmd F N s (.sortId (-1)) = none ∧ execCmd F N s (.sortName (-1)) = none ∧
      execCmd F (N + 1) s (.add (-1) 0) = none) ∧
    ∃ s, execCmd 4 1 (startup [[114]]) (.move (-1) 0) = some s ∧
      s.heap.err = [Diag.moveNoParent (-1)] := by
  refine ⟨?_, ?_, _, rfl, rfl⟩
  · intro F N k s other
    have h : ¬ ((N : Int) + k < N) := by omega
    simp [execCmd, h]
  intro F N s
  have h1 : (-1 : Int) < (N : Int) := by omega
  have h2 : (-1 : Int) < ((N + 1 : Nat) : Int) := by omega
  have h3 : (0 : Int) < ((N + 1 : Nat) : Int) := by omega
  refine ⟨?_, ?_, ?_, ?_⟩
  · simp [execCmd, h1, nodesAt]
  · simp [execCmd, h1, nodesAt]
  · simp [execCmd, h1, nodesAt]
  · simp only [execCmd, h2, h3, and_self, if_true, nodesAt]
    rfl

/-- C20, the code at the failing input: three declared nodes and the commands
`ADD 0 2`, `ADD 0 1`, `SORT_ID 0`.  The sort exchanges the payloads of the two
child slots, so afterwards `nodes[1]`, the address 1, holds a node whose id is 2
and `nodes[2]` holds a node whose id is 1, and neither was removed.  A following
`REMOVE 1` then frees the address 2, and the node at `nodes[1]` stays. -/
theorem run_sort_breaks_registry :
    ∃ s n1 n2, run 4 3 (startup [[114], [65], [66]]) [.add 0 2, .add 0 1, .sortId 0] = some s ∧
      s.heap.mem 1 = some n1 ∧ n1.id = 2 ∧ s.heap.mem 2 = some n2 ∧ n2.id = 1 ∧
      ∃ s' n1', execCmd 4 3 s (.remove 1) = some s' ∧ s'.heap.mem 2 = none ∧
        s'.heap.mem 1 = some n1' ∧ n1'.id = 2 :=
  ⟨_, _, _, rfl, rfl, rfl, rfl, rfl, _, _, rfl, rfl, rfl, rfl⟩

/-! ## Printing -/

theorem printLoop_eq {m : Store} : ∀ {l : List Nat} {p : Ptr} {k : Nat},
    Chain m p l → l.length ≤ k →
    printLoop m k p = some (List.intercalate [44] (l.map (nameAt m)))
  | [], p, k, hl, _ => by
    have hp : p = none := hl
    subst hp
    cases k <;> rfl
  | [a], p, k, hl, hk => by
    obtain ⟨rfl, n, hn, hrest⟩ := hl
    have hnone : n.nextToFirst = none := hrest
    obtain ⟨k, rfl⟩ : ∃ j, k = j + 1 := ⟨k - 1, by simp at hk; omega⟩
    have e : printLoop m k none = some [] := by cases k <;> rfl
    simp [printLoop, hn, hnone, e, nameAt, List.intercalate]
  | a :: b :: l, p, k, hl, hk => by
    obtain ⟨rfl, n, hn, hrest⟩ := hl
    have hnb : n.nextToFirst = some b := hrest.1
    obtain ⟨k, rfl⟩ : ∃ j, k = j + 1 := ⟨k - 1, by simp at hk; omega⟩
    have ih := printLoop_eq hrest (show (b :: l).length ≤ k by simp at hk ⊢; omega)
    have hna : nameAt m a = n.name := by simp [nameAt, hn]
    rw [hnb] at ih
    simp only [printLoop, hn, ih, hnb, Option.isSome_some, if_true, List.map_cons, hna]
    simp [List.intercalate, List.intersperse]

/-- C16: for an absent node and for a node without children `printTree` writes
nothing; for a node whose child chain is the finite non-empty list `l` it writes
the names of these children, in order, joined by single commas (byte 44) and
followed by one newline (byte 10), and nothing else. -/
theorem printTree_output (F : Nat) (m : Store) (p : Nat) (np : Node) (l : List Nat)
    (hp : m p = some np) (hl : Chain m np.first l) (hF : l.length ≤ F) :
    printTree F m none = some [] ∧
    (l = [] → printTree F m (some p) = some []) ∧
    (l ≠ [] → printTree F m (some p)
      = some (List.intercalate [44] (l.map (nameAt m)) ++ [10])) := by
  refine ⟨rfl, ?_, ?_⟩
  · rintro rfl
    have h1 : np.first = none := hl
    simp [printTree, hp, h1]
  · intro hne
    cases l with
    | nil => exact absurd rfl hne
    | cons a l =>
      have h1 : np.first = some a := hl.1
      rw [h1] at hl
      simp [printTree, hp, h1, printLoop_eq hl hF]

/-- C16 at a concrete input: the children of root 0 in `memSmallTree` are named
`A` (65) and `B` (66); node 3, named `C`, is below node 1 and is not printed. -/
theorem printTree_output_witness :
    printTree 2 memSmallTree none = some [] ∧
    (([1, 2] : List Nat) = [] → printTree 2 memSmallTree (some 0) = some []) ∧
    (([1, 2] : List Nat) ≠ [] → printTree 2 memSmallTree (some 0)
      = some (List.intercalate [44] (([1, 2] : List Nat).map (nameAt memSmallTree)) ++ [10])) :=
  printTree_output 2 memSmallTree 0
    { id := 0, name := [114], first := some 1, nextToFirst := none } [1, 2] rfl
    (by simp [Chain, memSmallTree, storeOf]) (by decide)

/-! ## Relocation: rejections -/

/-- The first half of `moveNode` when the child stands in the child list of `root`:
both lookups succeed, the child is unlinked and its sibling link cleared, and what
remains is the call of `addChild` in the memory after the detach. -/
theorem moveNode_detached (F : Nat) (h : Heap) (r : Nat) (ir : Int) (f nx : Shape)
    (P : Nat) (parentId : Int) (X : Nat) (childId : Int) (fX : Shape)
    (pre post : List (Nat × Int × Shape))
    (hwf : WellFormed h.mem (some r) (.node r ir f nx))
    (huniq : UniqueIds (.node r ir f nx)) (hne : parentId ≠ childId)
    (hP : (P, parentId) ∈ (Shape.node r ir f nx).nodes)
    (hX : f.kids = pre ++ (X, childId, fX) :: post)
    (hF : (Shape.node r ir f nx).addrs.length < F) :
    ∃ m₂ nP nX, h.mem P = some nP ∧ h.mem X = some nX ∧
      (moveNode F h (some r) parentId childId =
        addChild F { mem := m₂, err := h.err ++ [Diag.moving childId nX.name parentId nP.name] }
          (some P) (some X)) ∧
      Rep m₂ (some r) (.node r ir (Shape.ofKids (pre ++ post)) nx) ∧
      Rep m₂ (some X) (.node X childId fX .nil) ∧
      ((Shape.node r ir (Shape.ofKids (pre ++ post)) nx).addrs
        ++ (Shape.node X childId fX .nil).addrs).Nodup ∧
      List.Perm ((Shape.node r ir (Shape.ofKids (pre ++ post)) nx).nodes
        ++ (Shape.node X childId fX .nil).nodes) (Shape.node r ir f nx).nodes := by
  obtain ⟨hrep, hnd⟩ := hwf
  have hcount := List.nodup_iff_count_le_one.1 hnd
  have hidc := List.nodup_iff_count_le_one.1 huniq
  have hidf : f.ids.Nodup := by
    rw [List.nodup_iff_count_le_one]
    intro y
    have := hidc y
    simp only [Shape.ids_node, List.count_append, List.count_cons] at this
    omega
  have hndf : f.addrs.Nodup := by
    rw [List.nodup_iff_count_le_one]
    intro y
    have := hcount y
    simp only [Shape.addrs_node, List.count_append, List.count_cons] at this
    omega
  have hu := Shape.unlinkId_of_kids pre f hidf hX
  have hunodes := Shape.unlinkId_nodes hu
  have hucount := Shape.unlinkId_count hu
  -- the two lookups
  have hXmem : (X, childId) ∈ (Shape.node r ir f nx).nodes := by
    have : (X, childId) ∈ f.nodes := hunodes.mem_iff.2 (by simp)
    simp [Shape.nodes, this]
  have hfindP := findNode_of_unique hrep huniq hP hF
  have hfindX := findNode_of_unique hrep huniq hXmem hF
  obtain ⟨fP₀, nP₀, hS₀⟩ := Shape.subtree_of_mem _ hP
  obtain ⟨q₀, hq₀⟩ := Rep.subtree hrep hS₀
  obtain ⟨_, nP, hnP, _, _, _⟩ := hq₀
  obtain ⟨_, nr, hnr, hir, hf, hnx⟩ := id hrep
  have hlenf : f.spine.length ≤ F := by
    have := Shape.spine_length_le f
    simp at hF
    omega
  obtain ⟨nX, hnX, hfX, hcase⟩ := detachScan_unlink f nr.first none F
    X fX (Shape.ofKids (pre ++ post)) hf hndf hlenf hu
  have hr_f : r ∉ f.addrs := by
    apply not_mem_of_count_eq_zero
    have := hcount r
    simp only [Shape.addrs_node, List.count_append, List.count_cons, beq_self_eq_true,
      if_true] at this
    omega
  have hr_nx : r ∉ nx.addrs := by
    apply not_mem_of_count_eq_zero
    have := hcount r
    simp only [Shape.addrs_node, List.count_append, List.count_cons, beq_self_eq_true,
      if_true] at this
    omega
  have hX_f : X ∈ f.addrs := by
    apply List.count_pos_iff.1
    have := hucount X
    simp only [List.count_cons, List.count_nil, beq_self_eq_true, if_true] at this
    omega
  have hXr : X ≠ r := fun e => hr_f (e ▸ hX_f)
  have hsub : ∀ x, x ∈ (Shape.ofKids (pre ++ post)).addrs ∨ x ∈ fX.addrs → x ∈ f.addrs := by
    intro x hx
    apply List.count_pos_iff.1
    have h2 := hucount x
    rcases hx with hx | hx
    · have h1 := List.count_pos_iff.2 hx
      omega
    · have h1 := List.count_pos_iff.2 hx
      omega
  have hX_out : X ∉ (Shape.node r ir (Shape.ofKids (pre ++ post)) nx).addrs ∧ X ∉ fX.addrs := by
    have h1 := hucount X
    have h2 := hcount X
    simp only [Shape.addrs_node, List.count_append, List.count_cons, List.count_nil,
      beq_self_eq_true, if_true] at h1 h2
    constructor
    · apply not_mem_of_count_eq_zero
      have h3 : ([r].count X) = 0 := by
        simp only [List.count_cons, List.count_nil]
        have : ¬ r = X := fun e => hXr e.symm
        simp [this]
      simp only [Shape.addrs_node, List.count_append, List.count_cons, List.count_nil] at h3 ⊢
      omega
    · apply not_mem_of_count_eq_zero
      omega
  have hnd₁ : ((Shape.node r ir (Shape.ofKids (pre ++ post)) nx).addrs
      ++ (Shape.node X childId fX .nil).addrs).Nodup := by
    rw [List.nodup_iff_count_le_one]
    intro x
    have h1 := hucount x
    have h2 := hcount x
    simp only [Shape.addrs_node, Shape.addrs_nil, List.count_append, List.count_cons,
      List.count_nil, List.cons_append] at h1 h2 ⊢
    omega
  have hperm : List.Perm ((Shape.node r ir (Shape.ofKids (pre ++ post)) nx).nodes
      ++ (Shape.node X childId fX .nil).nodes) (Shape.node r ir f nx).nodes := by
    rw [List.perm_iff_count]
    intro x
    have := List.perm_iff_count.1 hunodes x
    simp only [Shape.nodes, List.count_append, List.count_cons, List.count_nil,
      List.cons_append, List.append_nil] at this ⊢
    omega
  -- the memory after the detach
  suffices hmain : ∃ m₂,
      (moveNode F h (some r) parentId childId =
        addChild F { mem := m₂, err := h.err ++ [Diag.moving childId nX.name parentId nP.name] }
          (some P) (some X)) ∧
      Rep m₂ (some r) (.node r ir (Shape.ofKids (pre ++ post)) nx) ∧
      Rep m₂ (some X) (.node X childId fX .nil) by
    obtain ⟨m₂, hm₂, hrep₂, hX₂⟩ := hmain
    exact ⟨m₂, nP, nX, hnP, hnX, hm₂, hrep₂, hX₂, hnd₁, hperm⟩
  · have hidX : nX.id = childId := by
      obtain ⟨qX, hqX⟩ := Rep.subtree hf (Shape.kids_subtree pre f hX)
      obtain ⟨_, nd, hnd', hid', _, _⟩ := hqX
      rw [hnX] at hnd'
      have e : nX = nd := Option.some.inj hnd'
      rw [e]
      exact hid'
    have hr_rest : r ∉ (Shape.ofKids (pre ++ post)).addrs := fun e => hr_f (hsub r (Or.inl e))
    have hr_fX : r ∉ fX.addrs := fun e => hr_f (hsub r (Or.inr e))
    rcases hcase with ⟨hscan, hrest⟩ | ⟨q, nq, hscan, hnq, hq, hrest⟩
    · have hm1X : (h.mem.set r { nr with first := nX.nextToFirst }) X = some nX := by
        rw [Store.set_ne _ _ hXr]
        exact hnX
      refine ⟨(h.mem.set r { nr with first := nX.nextToFirst }).set X
        { nX with nextToFirst := none }, ?_, ?_, ?_⟩
      · simp [moveNode, hne, hfindP, hfindX, hnP, hnX, hnr, hscan, hm1X]
      · have h1 : Rep (h.mem.set r { nr with first := nX.nextToFirst }) (some r)
            (.node r ir (Shape.ofKids (pre ++ post)) nx) :=
          ⟨rfl, _, Store.set_same _ _ _, hir, Rep.frame_set hrest _ hr_rest,
            Rep.frame_set hnx _ hr_nx⟩
        exact Rep.frame_set h1 _ hX_out.1
      · exact ⟨rfl, _, Store.set_same _ _ _, hidX,
          Rep.frame_set (Rep.frame_set hfX _ hr_fX) _ hX_out.2, rfl⟩
    · have hq_f : q ∈ f.addrs := hsub q (Or.inl hq)
      have hqr : r ≠ q := fun e => hr_f (e ▸ hq_f)
      have hXq : X ≠ q := by
        rintro rfl
        exact hX_out.1 (by simp [hq])
      have hq_fX : q ∉ fX.addrs := by
        apply not_mem_of_count_eq_zero
        have h1 := hucount q
        have h2 := hcount q
        have h3 := List.count_pos_iff.2 hq
        simp only [Shape.addrs_node, List.count_append, List.count_cons] at h2
        omega
      have hq_nx : q ∉ nx.addrs := by
        apply not_mem_of_count_eq_zero
        have h1 := List.count_pos_iff.2 hq_f
        have h2 := hcount q
        simp only [Shape.addrs_node, List.count_append, List.count_cons] at h2
        omega
      have hm1X : (h.mem.set q { nq with nextToFirst := nX.nextToFirst }) X = some nX := by
        rw [Store.set_ne _ _ hXq]
        exact hnX
      refine ⟨(h.mem.set q { nq with nextToFirst := nX.nextToFirst }).set X
        { nX with nextToFirst := none }, ?_, ?_, ?_⟩
      · simp [moveNode, hne, hfindP, hfindX, hnP, hnX, hnr, hscan, hnq, hm1X]
      · have h1 : Rep (h.mem.set q { nq with nextToFirst := nX.nextToFirst }) (some r)
            (.node r ir (Shape.ofKids (pre ++ post)) nx) := by
          refine ⟨rfl, nr, ?_, hir, hrest, Rep.frame_set hnx _ hq_nx⟩
          rw [Store.set_ne _ _ hqr]
          exact hnr
        exact Rep.frame_set h1 _ hX_out.1
      · exact ⟨rfl, _, Store.set_same _ _ _, hidX,
          Rep.frame_set (Rep.frame_set hfX _ hq_fX) _ hX_out.2, rfl⟩

theorem detachScan_absent {m : Store} {X : Nat} : ∀ (b : Shape) (p cur : Ptr) (k : Nat),
    Rep m p b → X ∉ b.spine → b.spine.length ≤ k → detachScan m X k cur p = some none
  | .nil, p, cur, k, hb, _, _ => by
    have hp : p = none := hb
    subst hp
    cases k <;> rfl
  | .node a i f n, p, cur, k, hb, hX, hk => by
    obtain ⟨rfl, nd, hnd, _, _, hn⟩ := hb
    obtain ⟨k, rfl⟩ : ∃ j, k = j + 1 := ⟨k - 1, by simp [Shape.spine] at hk; omega⟩
    simp only [Shape.spine, List.mem_cons, not_or] at hX
    have hne : ¬ a = X := fun e => hX.1 e.symm
    have hk2 : n.spine.length ≤ k := by simp [Shape.spine] at hk; omega
    simp [detachScan, hne, hnd, detachScan_absent n nd.nextToFirst (some a) k hn hX.2 hk2]

theorem Shape.id_of_addr_unique {b : Shape} (hnd : b.addrs.Nodup) {a : Nat} {i j : Int}
    (hi : (a, i) ∈ b.nodes) (hj : (a, j) ∈ b.nodes) : i = j := by
  have := List.inj_on_of_nodup_map hnd hi hj rfl
  exact (Prod.mk.inj this).2

/-- What `addChild` does for a parent whose own unfolding is finite: it returns
and writes one diagnostic; when that is the rejection, the memory is the one
before; when the child is not on the sibling chain of the parent, it is not the
rejection. -/
theorem addChild_outcome (F : Nat) (h : Heap) (P X : Nat) (iP : Int) (fP nP : Shape)
    (nX : Node) (hP : Rep h.mem (some P) (.node P iP fP nP)) (hX : h.mem X = some nX)
    (hF : (Shape.node P iP fP nP).addrs.length ≤ F) :
    ∃ h' d, addChild F h (some P) (some X) = some h' ∧ h'.err = h.err ++ [d] ∧
      (d.isRejection = true → h'.mem = h.mem) ∧
      (X ∉ (Shape.node P iP fP nP).spine → d.isRejection = false) := by
  have hchain := Rep.chain hP
  obtain ⟨_, ndP, hndP, _, hfP, _⟩ := id hP
  have hlenS : (Shape.node P iP fP nP).spine.length ≤ F :=
    le_trans (Shape.spine_length_le _) hF
  have hlenL : fP.spine.length ≤ F := by
    have := Shape.spine_length_le fP
    simp at hF
    omega
  by_cases hmem : X ∈ (Shape.node P iP fP nP).spine
  · refine ⟨{ mem := h.mem, err := h.err ++ [Diag.addFailed nX.id nX.name ndP.id ndP.name] },
      _, ?_, rfl, fun _ => rfl, fun hn => absurd hmem hn⟩
    simp [addChild, cycleCheck_of_mem hchain hmem hlenS, hndP, hX]
  · obtain ⟨m', hrun, _⟩ := addChild_run F h P X _ fP.spine ndP nX hchain hmem hndP
      (Rep.chain hfP) hX hlenS hlenL
    refine ⟨_, _, hrun, rfl, ?_, fun _ => rfl⟩
    intro hrej
    simp [Diag.isRejection] at hrej

/-- C11: on a well-formed tree with unique ids `moveNode(root, parentId, childId)`
returns, and whenever the diagnostics it writes contain a rejection (one of the
"MOVE failed" lines of its own checks, or the "ADD FAILED" line of the cycle guard
of the `addChild` it calls after the detach scan) the memory after the call is the
memory before it.  The call does write a rejection when `root` is `NULL`, when the
two ids are equal, and when one of them is carried by no node of the tree. -/
theorem moveNode_rejection_is_noop (F : Nat) (h : Heap) (root : Ptr) (b : Shape)
    (parentId childId : Int) (hwf : WellFormed h.mem root b) (huniq : UniqueIds b)
    (hF : b.addrs.length < F) :
    ∃ h' ds, moveNode F h root parentId childId = some h' ∧ h'.err = h.err ++ ds ∧
      ((∃ d ∈ ds, d.isRejection = true) → h'.mem = h.mem) ∧
      (root = none ∨ parentId = childId ∨ parentId ∉ b.ids ∨ childId ∉ b.ids →
        ∃ d ∈ ds, d.isRejection = true) := by
  obtain ⟨hrep, hnd⟩ := hwf
  cases b with
  | nil =>
    have hroot : root = none := hrep
    subst hroot
    exact ⟨_, [Diag.moveInvalid parentId childId], rfl, rfl, fun _ => rfl,
      fun _ => ⟨_, List.mem_singleton.2 rfl, rfl⟩⟩
  | node r ir f nx =>
    have hroot : root = some r := hrep.1
    subst hroot
    by_cases hne : parentId = childId
    · refine ⟨{ h with err := h.err ++ [Diag.moveInvalid parentId childId] },
        [Diag.moveInvalid parentId childId], ?_, rfl, fun _ => rfl,
        fun _ => ⟨_, List.mem_singleton.2 rfl, rfl⟩⟩
      simp [moveNode, hne]
    · have hfP := findNode_eq_find parentId _ _ F hrep hF
      have hfX := findNode_eq_find childId _ _ F hrep hF
      cases hP : (Shape.node r ir f nx).nodes.find? (fun x => x.2 = parentId) with
      | none =>
        rw [hP] at hfP
        refine ⟨{ h with err := h.err ++ [Diag.moveNoParent parentId] },
          [Diag.moveNoParent parentId], ?_, rfl, fun _ => rfl,
          fun _ => ⟨_, List.mem_singleton.2 rfl, rfl⟩⟩
        simp only [moveNode, hne, if_false, hfP, hfX, Option.map_none']
      | some xP =>
        rw [hP] at hfP
        cases hX : (Shape.node r ir f nx).nodes.find? (fun x => x.2 = childId) with
        | none =>
          rw [hX] at hfX
          refine ⟨{ h with err := h.err ++ [Diag.moveNoChild childId] },
            [Diag.moveNoChild childId], ?_, rfl, fun _ => rfl,
            fun _ => ⟨_, List.mem_singleton.2 rfl, rfl⟩⟩
          simp only [moveNode, hne, if_false, hfP, hfX, Option.map_none', Option.map_some']
        | some xX =>
          rw [hX] at hfX
          obtain ⟨P, iP⟩ := xP
          obtain ⟨X, iX⟩ := xX
          have hPid : iP = parentId := by simpa using List.find?_some hP
          have hXid : iX = childId := by simpa using List.find?_some hX
          subst hPid
          subst hXid
          have hPmem := List.mem_of_find?_eq_some hP
          have hXmem := List.mem_of_find?_eq_some hX
          simp only [Option.map_some'] at hfP hfX
          -- the diagnostics of this case hold no rejection of the own checks
          have hown : ¬ (some r = none ∨ iP = iX ∨ iP ∉ (Shape.node r ir f nx).ids
              ∨ iX ∉ (Shape.node r ir f nx).ids) := by
            rintro (h1 | h1 | h1 | h1)
            · simp at h1
            · exact hne h1
            · exact h1 (List.mem_map_of_mem Prod.snd hPmem)
            · exact h1 (List.mem_map_of_mem Prod.snd hXmem)
          obtain ⟨fP₀, nP₀, hS₀⟩ := Shape.subtree_of_mem _ hPmem
          obtain ⟨q₀, hq₀⟩ := Rep.subtree hrep hS₀
          have hq₀' : Rep h.mem (some P) (.node P iP fP₀ nP₀) := by
            have e : q₀ = some P := hq₀.1
            rw [← e]
            exact hq₀
          obtain ⟨_, ndP, hndP, _, _, _⟩ := id hq₀'
          obtain ⟨fX₀, nX₀, hSX⟩ := Shape.subtree_of_mem _ hXmem
          obtain ⟨qX, hqX⟩ := Rep.subtree hrep hSX
          obtain ⟨_, ndX, hndX, _, _, _⟩ := hqX
          obtain ⟨_, nr, hnr, _, hf, _⟩ := id hrep
          have hlenf : f.spine.length ≤ F := by
            have := Shape.spine_length_le f
            simp at hF
            omega
          have hsublen : ∀ (S B : Shape), (∀ x, S.addrs.count x ≤ B.addrs.count x) →
              S.addrs.length ≤ B.addrs.length := by
            intro S B hc
            apply List.Subperm.length_le
            rw [List.subperm_ext_iff]
            intro y _
            exact hc y
          by_cases hXs : X ∈ f.spine
          · -- the child is detached; `addChild` then accepts
            rw [Shape.spine_eq_kids] at hXs
            obtain ⟨k, hk, hkX⟩ := List.mem_map.1 hXs
            obtain ⟨pre, post, hkids⟩ := List.append_of_mem hk
            obtain ⟨X', iX', fX⟩ := k
            simp only at hkX
            subst hkX
            have hiX' : iX' = iX := by
              refine Shape.id_of_addr_unique hnd ?_ hXmem
              simp [Shape.nodes, Shape.kids_mem_nodes hkids]
            subst hiX'
            obtain ⟨m₂, nP, nX, hnP, hnX, hm₂, hrep₂, hX₂, hnd₁, hperm⟩ := moveNode_detached F h r
              ir f nx P iP X' iX' fX pre post ⟨hrep, hnd⟩ huniq hne hPmem hkids hF
            have hcount₁ := List.nodup_iff_count_le_one.1 hnd₁
            have hPX : P ≠ X' := by
              rintro rfl
              exact hne (Shape.id_of_addr_unique hnd hPmem hXmem)
            obtain ⟨_, nX₂, hnX₂, _, hfX₂, _⟩ := id hX₂
            -- the unfolding of the parent after the detach
            obtain ⟨fP, nP', hrepP, hXout, hcnt⟩ : ∃ fP nP',
                Rep m₂ (some P) (.node P iP fP nP') ∧ X' ∉ (Shape.node P iP fP nP').addrs ∧
                ∀ x, (Shape.node P iP fP nP').addrs.count x
                  ≤ ((Shape.node r ir (Shape.ofKids (pre ++ post)) nx).addrs
                    ++ (Shape.node X' iX' fX .nil).addrs).count x := by
              have h1 := hperm.mem_iff.2 hPmem
              simp only [List.mem_append] at h1
              rcases h1 with h1 | h1
              · obtain ⟨fP, nP', hS⟩ := Shape.subtree_of_mem _ h1
                obtain ⟨q, hq⟩ := Rep.subtree hrep₂ hS
                refine ⟨fP, nP', ?_, ?_, ?_⟩
                · have e : q = some P := hq.1
                  rw [← e]
                  exact hq
                · intro hmem
                  have h2 := List.count_pos_iff.2 (Shape.subtrees_addrs hS hmem)
                  have h3 := hcount₁ X'
                  simp only [List.count_append, Shape.addrs_node, List.count_cons,
                    beq_self_eq_true, if_true] at h2 h3
                  omega
                · intro x
                  have h2 := Shape.subtrees_count_le hS x
                  simp only [List.count_append]
                  omega
              · simp only [Shape.nodes, List.append_nil, List.mem_cons, Prod.mk.injEq] at h1
                rcases h1 with ⟨e, _⟩ | h1
                · exact absurd e hPX
                · obtain ⟨fP, nP', hS⟩ := Shape.subtree_of_mem _ h1
                  obtain ⟨q, hq⟩ := Rep.subtree hfX₂ hS
                  refine ⟨fP, nP', ?_, ?_, ?_⟩
                  · have e : q = some P := hq.1
                    rw [← e]
                    exact hq
                  · intro hmem
                    have h2 := List.count_pos_iff.2 (Shape.subtrees_addrs hS hmem)
                    have h3 := hcount₁ X'
                    simp only [List.count_append, Shape.addrs_node, List.count_cons,
                      beq_self_eq_true, if_true] at h2 h3
                    omega
                  · intro x
                    have h2 := Shape.subtrees_count_le hS x
                    simp only [List.count_append, Shape.addrs_node, List.count_cons] at h2 ⊢
                    omega
            have hlenP : (Shape.node P iP fP nP').addrs.length ≤ F := by
              have h1 : (Shape.node P iP fP nP').addrs.length
                  ≤ ((Shape.node r ir (Shape.ofKids (pre ++ post)) nx).addrs
                    ++ (Shape.node X' iX' fX .nil).addrs).length := by
                apply List.Subperm.length_le
                rw [List.subperm_ext_iff]
                intro y _
                exact hcnt y
              have h2 := (hperm.map Prod.fst).length_eq
              simp only [List.map_append] at h2
              simp only [Shape.addrs] at h1 hF ⊢
              omega
            obtain ⟨h', d, hrun, herr, _, hacc⟩ := addChild_outcome F
              { mem := m₂, err := h.err ++ [Diag.moving iX' nX.name iP nP.name] } P X' iP fP nP'
              nX₂ hrepP hnX₂ hlenP
            have hd : d.isRejection = false :=
              hacc (fun hmem => hXout (Shape.spine_subset_addrs _ _ hmem))
            refine ⟨h', [Diag.moving iX' nX.name iP nP.name, d], by rw [hm₂, hrun], ?_, ?_, ?_⟩
            · rw [herr]
              simp
            · rintro ⟨d', hd', hrej⟩
              simp only [List.mem_cons, List.mem_singleton, List.not_mem_nil, or_false] at hd'
              rcases hd' with rfl | rfl
              · simp [Diag.isRejection] at hrej
              · rw [hd] at hrej
                exact absurd hrej (by simp)
            · intro hcase
              exact absurd hcase hown
          · -- nothing is detached
            have hscan := detachScan_absent (m := h.mem) f nr.first none F hf hXs hlenf
            have hlenP : (Shape.node P iP fP₀ nP₀).addrs.length ≤ F := by
              have := hsublen _ _ (Shape.subtrees_count_le hS₀)
              omega
            obtain ⟨h', d, hrun, herr, hrej, _⟩ := addChild_outcome F
              { mem := h.mem, err := h.err ++ [Diag.moving iX ndX.name iP ndP.name] } P X iP
              fP₀ nP₀ ndX hq₀' hndX hlenP
            refine ⟨h', [Diag.moving iX ndX.name iP ndP.name, d], ?_, ?_, ?_, ?_⟩
            · simp [moveNode, hne, hfP, hfX, hndP, hndX, hnr, hscan, hrun]
            · rw [herr]
              simp
            · rintro ⟨d', hd', hrej'⟩
              simp only [List.mem_cons, List.mem_singleton, List.not_mem_nil, or_false] at hd'
              rcases hd' with rfl | rfl
              · simp [Diag.isRejection] at hrej'
              · exact hrej hrej'
            · intro hcase
              exact absurd hcase hown

/-- C11 at a concrete input: in `memRootABC` the nodes 2 and 3 are the children of
node 1, so `moveNode(root, 2, 3)` passes the checks of `moveNode`, finds nothing to
detach among the children of the root, and is rejected by the cycle guard of
`addChild`, node 3 being the sibling of node 2; the memory is as before. -/
theorem moveNode_rejection_is_noop_witness :
    (∃ h', moveNode 5 { mem := memRootABC, err := [] } (some 0) 2 3 = some h' ∧
      h'.mem = memRootABC ∧ h'.err.any Diag.isRejection = true) ∧
    ∃ h' ds, moveNode 5 { mem := memRootABC, err := [] } (some 0) 2 3 = some h' ∧
      h'.err = [] ++ ds ∧
      ((∃ d ∈ ds, d.isRejection = true) → h'.mem = memRootABC) ∧
      (some 0 = none ∨ (2 : Int) = 3 ∨
        (2 : Int) ∉ (Shape.node 0 0 (.node 1 1 (.node 2 2 .nil (.node 3 3 .nil .nil)) .nil)
          .nil).ids ∨
        (3 : Int) ∉ (Shape.node 0 0 (.node 1 1 (.node 2 2 .nil (.node 3 3 .nil .nil)) .nil)
          .nil).ids →
        ∃ d ∈ ds, d.isRejection = true) :=
  ⟨⟨_, rfl, rfl, rfl⟩, moveNode_rejection_is_noop 5 { mem := memRootABC, err := [] } (some 0)
    (.node 0 0 (.node 1 1 (.node 2 2 .nil (.node 3 3 .nil .nil)) .nil) .nil) 2 3
    ⟨by simp [Rep, memRootABC, storeOf], by decide⟩ (by unfold UniqueIds; decide) (by decide)⟩

/-! ## Sorting: the payload lists -/

theorem innerPass_length (gt : Int × List Nat → Int × List Nat → Bool) :
    ∀ (ys : List (Int × List Nat)) (x : Int × List Nat), (innerPass gt x ys).2.length = ys.length
  | [], _ => rfl
  | y :: ys, x => by
    by_cases h : gt x y = true
    · simp [innerPass, h, innerPass_length gt ys y]
    · simp [innerPass, h, innerPass_length gt ys x]

theorem innerPass_perm (gt : Int × List Nat → Int × List Nat → Bool) :
    ∀ (ys : List (Int × List Nat)) (x : Int × List Nat),
      List.Perm ((innerPass gt x ys).1 :: (innerPass gt x ys).2) (x :: ys)
  | [], _ => List.Perm.refl _
  | y :: ys, x => by
    by_cases h : gt x y = true
    · simp only [innerPass, h, if_true]
      exact (List.Perm.swap _ _ _).trans ((innerPass_perm gt ys y).cons x)
    · simp only [innerPass, h, if_false]
      exact ((List.Perm.swap _ _ _).trans ((innerPass_perm gt ys x).cons y)).trans
        (List.Perm.swap _ _ _)

theorem innerPass_noop (gt : Int × List Nat → Int × List Nat → Bool) :
    ∀ (ys : List (Int × List Nat)) (x : Int × List Nat),
      (∀ y ∈ ys, gt x y = false) → innerPass gt x ys = (x, ys)
  | [], _, _ => rfl
  | y :: ys, x, h => by
    have h1 : gt x y = false := h y (by simp)
    have ih := innerPass_noop gt ys x (fun z hz => h z (by simp [hz]))
    simp [innerPass, h1, ih]

/-- The final payload of slot `i` is not above the payload it started with, and
not above any payload left in the later slots. -/
theorem innerPass_min (gt : Int × List Nat → Int × List Nat → Bool)
    (hasym : ∀ a b, gt a b = true → gt b a = false)
    (hneg : ∀ a b c, gt a c = true → gt a b = true ∨ gt b c = true) :
    ∀ (ys : List (Int × List Nat)) (x : Int × List Nat),
      gt (innerPass gt x ys).1 x = false ∧ ∀ y ∈ (innerPass gt x ys).2, gt (innerPass gt x ys).1 y = false
  | [], x => by
    refine ⟨?_, by simp [innerPass]⟩
    cases hx : gt x x with
    | false => simpa [innerPass] using hx
    | true => simpa [hx] using hasym x x hx
  | y :: ys, x => by
    have hle : ∀ a b c, gt a b = false → gt b c = false → gt a c = false := by
      intro a b c h1 h2
      cases h : gt a c with
      | false => rfl
      | true =>
        rcases hneg a b c h with h3 | h3
        · rw [h1] at h3
          exact absurd h3 (by simp)
        · rw [h2] at h3
          exact absurd h3 (by simp)
    by_cases h : gt x y = true
    · obtain ⟨ih1, ih2⟩ := innerPass_min gt hasym hneg ys y
      simp only [innerPass, h, if_true]
      have hyx : gt y x = false := hasym x y h
      have h1 := hle _ _ _ ih1 hyx
      refine ⟨h1, ?_⟩
      intro z hz
      rcases List.mem_cons.1 hz with rfl | hz
      · exact h1
      · exact ih2 z hz
    · obtain ⟨ih1, ih2⟩ := innerPass_min gt hasym hneg ys x
      have hxy : gt x y = false := by simpa using h
      simp only [innerPass, h, if_false]
      refine ⟨ih1, ?_⟩
      intro z hz
      rcases List.mem_cons.1 hz with rfl | hz
      · exact hle _ _ _ ih1 hxy
      · exact ih2 z hz

theorem exchangeSortN_perm (gt : Int × List Nat → Int × List Nat → Bool) :
    ∀ (n : Nat) (l : List (Int × List Nat)), List.Perm (exchangeSortN gt n l) l
  | 0, _ => List.Perm.refl _
  | _ + 1, [] => List.Perm.refl _
  | n + 1, x :: xs => by
    simp only [exchangeSortN]
    exact ((exchangeSortN_perm gt n _).cons _).trans (innerPass_perm gt xs x)

theorem exchangeSortN_sorted (gt : Int × List Nat → Int × List Nat → Bool)
    (hasym : ∀ a b, gt a b = true → gt b a = false)
    (hneg : ∀ a b c, gt a c = true → gt a b = true ∨ gt b c = true) :
    ∀ (n : Nat) (l : List (Int × List Nat)), l.length ≤ n →
      (exchangeSortN gt n l).Pairwise (fun a b => gt a b = false)
  | 0, l, h => by
    have : l = [] := List.length_eq_zero.1 (by omega)
    subst this
    exact List.Pairwise.nil
  | _ + 1, [], _ => List.Pairwise.nil
  | n + 1, x :: xs, h => by
    simp only [exchangeSortN]
    have hlen := innerPass_length gt xs x
    refine List.Pairwise.cons ?_ (exchangeSortN_sorted gt hasym hneg n _ (by
      simp at h
      omega))
    intro z hz
    have hz2 := (exchangeSortN_perm gt n _).mem_iff.1 hz
    exact (innerPass_min gt hasym hneg xs x).2 z hz2

theorem exchangeSortN_noop (gt : Int × List Nat → Int × List Nat → Bool) :
    ∀ (n : Nat) (l : List (Int × List Nat)), l.Pairwise (fun a b => gt a b = false) →
      exchangeSortN gt n l = l
  | 0, _, _ => rfl
  | _ + 1, [], _ => rfl
  | n + 1, x :: xs, h => by
    obtain ⟨h1, h2⟩ := List.pairwise_cons.1 h
    simp [exchangeSortN, innerPass_noop gt xs x h1, exchangeSortN_noop gt n xs h2]

theorem idGt_asymm (a b : Int × List Nat) (h : idGt a b = true) : idGt b a = false := by
  simp only [idGt, decide_eq_true_eq, decide_eq_false_iff_not] at h ⊢
  omega

theorem idGt_negTrans (a b c : Int × List Nat) (h : idGt a c = true) :
    idGt a b = true ∨ idGt b c = true := by
  simp only [idGt, decide_eq_true_eq] at h ⊢
  omega

theorem strcmpGt_asymm : ∀ (a b : List Nat), strcmpGt a b = true → strcmpGt b a = false
  | [], _, h => by simp [strcmpGt] at h
  | _ :: _, [], _ => by simp [strcmpGt]
  | x :: a, y :: b, h => by
    by_cases hxy : x = y
    · subst hxy
      simp only [strcmpGt, if_true] at h ⊢
      exact strcmpGt_asymm a b h
    · have hyx : ¬ y = x := fun e => hxy e.symm
      simp only [strcmpGt, hxy, hyx, if_false, decide_eq_true_eq, decide_eq_false_iff_not] at h ⊢
      omega

theorem strcmpGt_negTrans : ∀ (a b c : List Nat), strcmpGt a c = true →
    strcmpGt a b = true ∨ strcmpGt b c = true
  | [], _, _, h => by simp [strcmpGt] at h
  | x :: a, [], _, _ => by simp [strcmpGt]
  | x :: a, y :: b, [], _ => by simp [strcmpGt]
  | x :: a, y :: b, z :: c, h => by
    by_cases hxz : x = z
    · subst hxz
      simp only [strcmpGt, if_true] at h
      by_cases hxy : x = y
      · subst hxy
        simp only [strcmpGt, if_true]
        exact strcmpGt_negTrans a b c h
      · have hyx : ¬ y = x := fun e => hxy e.symm
        simp only [strcmpGt, hxy, hyx, if_false, decide_eq_true_eq]
        omega
    · simp only [strcmpGt, hxz, if_false, decide_eq_true_eq] at h
      by_cases hxy : x = y
      · subst hxy
        simp only [strcmpGt, if_true, hxz, if_false, decide_eq_true_eq]
        exact Or.inr h
      · by_cases hyz : y = z
        · subst hyz
          simp only [strcmpGt, hxy, if_false, decide_eq_true_eq]
          exact Or.inl h
        · simp only [strcmpGt, hxy, hyz, if_false, decide_eq_true_eq]
          omega

theorem nameGt_asymm (a b : Int × List Nat) (h : nameGt a b = true) : nameGt b a = false :=
  strcmpGt_asymm _ _ h

theorem nameGt_negTrans (a b c : Int × List Nat) (h : nameGt a c = true) :
    nameGt a b = true ∨ nameGt b c = true :=
  strcmpGt_negTrans _ _ _ h

/-! ## Sorting: links and frame, for every memory -/

theorem SameLinks.refl_links (m : Store) : SameLinks m m := fun _ => rfl

theorem SameLinks.trans_links {m₁ m₂ m₃ : Store} (h₁ : SameLinks m₁ m₂) (h₂ : SameLinks m₂ m₃) :
    SameLinks m₁ m₃ := fun a => (h₂ a).trans (h₁ a)

theorem SameLinks.symm_links {m₁ m₂ : Store} (h : SameLinks m₁ m₂) : SameLinks m₂ m₁ :=
  fun a => (h a).symm

theorem SameLinks.node {m m' : Store} (h : SameLinks m m') {a : Nat} {n : Node}
    (hn : m a = some n) :
    ∃ n', m' a = some n' ∧ n'.first = n.first ∧ n'.nextToFirst = n.nextToFirst := by
  have := h a
  rw [hn] at this
  cases hm' : m' a with
  | none => simp [hm'] at this
  | some n' =>
    simp only [hm', Option.map_some', Option.some.injEq, Prod.mk.injEq] at this
    exact ⟨n', rfl, this.1, this.2⟩

theorem OnChain.same_links {m m' : Store} (hs : SameLinks m m') {p : Ptr} {x : Nat}
    (h : OnChain m' p x) : OnChain m p x := by
  induction h with
  | head a => exact OnChain.head a
  | tail a n x hn _ ih =>
    obtain ⟨n₀, hn₀, _, hnext⟩ := hs.symm_links.node hn
    exact OnChain.tail a n₀ x hn₀ (hnext ▸ ih)

theorem Chain.of_sameLinks {m m' : Store} (hs : SameLinks m m') : ∀ {l : List Nat} {p : Ptr},
    Chain m p l → Chain m' p l
  | [], _, h => h
  | a :: l, p, h => by
    obtain ⟨hp, n, hn, hrest⟩ := h
    obtain ⟨n', hn', _, hnext⟩ := hs.node hn
    exact ⟨hp, n', hn', hnext ▸ Chain.of_sameLinks hs hrest⟩

theorem OnChain.mem_of_chain {m : Store} {p : Ptr} {x : Nat} (h : OnChain m p x) :
    ∀ {l : List Nat}, Chain m p l → x ∈ l := by
  induction h with
  | head a =>
    intro l hl
    cases l with
    | nil =>
      have h1 : some a = none := hl
      simp at h1
    | cons b l =>
      have h1 : a = b := Option.some.inj hl.1
      simp [h1]
  | tail a n x hn _ ih =>
    intro l hl
    cases l with
    | nil =>
      have h1 : some a = none := hl
      simp at h1
    | cons b l =>
      obtain ⟨h1, n', hn', hrest⟩ := hl
      have h2 : a = b := Option.some.inj h1
      subst h2
      rw [hn] at hn'
      have h3 : n = n' := Option.some.inj hn'
      subst h3
      exact List.mem_cons_of_mem _ (ih hrest)

theorem OnChain.of_mem_chain {m : Store} : ∀ {l : List Nat} {p : Ptr} {x : Nat},
    Chain m p l → x ∈ l → OnChain m p x
  | [], _, _, _, hx => by simp at hx
  | a :: l, p, x, hl, hx => by
    obtain ⟨rfl, n, hn, hrest⟩ := hl
    rcases List.mem_cons.1 hx with rfl | hx
    · exact OnChain.head _
    · exact OnChain.tail a n x hn (OnChain.of_mem_chain hrest hx)

/-- The exchange of the payloads of two slots keeps all links. -/
theorem swap_sameLinks {m : Store} {i j : Nat} {ni nj : Node} (hi : m i = some ni)
    (hj : m j = some nj) :
    SameLinks m ((m.set i { ni with id := nj.id, name := nj.name }).set j
      { nj with id := ni.id, name := ni.name }) := by
  intro a
  by_cases haj : a = j
  · subst haj
    simp [Store.set, hj]
  · by_cases hai : a = i
    · subst hai
      simp [Store.set, haj, hi]
    · simp [Store.set, haj, hai]

/-- Whatever the memory, a run of the inner loop that returns changed no link, and
no node other than the one in slot `i` and those on the chain it walked. -/
theorem sortInner_links (sw : Node → Node → Bool) (i : Nat) :
    ∀ (k : Nat) (m : Store) (p : Ptr) (m' : Store), sortInner sw i k m p = some m' →
      SameLinks m m' ∧ ∀ a, a ≠ i → ¬ OnChain m p a → m' a = m a
  | k, m, none, m', h => by
    have e : m = m' := by
      cases k <;> simpa [sortInner] using h
    subst e
    exact ⟨SameLinks.refl_links _, fun _ _ _ => rfl⟩
  | 0, m, some j, m', h => by simp [sortInner] at h
  | k + 1, m, some j, m', h => by
    cases hmi : m i with
    | none => simp [sortInner, hmi] at h
    | some ni =>
      cases hmj : m j with
      | none => simp [sortInner, hmi, hmj] at h
      | some nj =>
        by_cases hsw : sw ni nj = true
        · simp only [sortInner, hmi, hmj, hsw, if_true, Store.set_same] at h
          obtain ⟨hs, hframe⟩ := sortInner_links sw i k _ _ m' h
          have hs₁ := swap_sameLinks hmi hmj
          refine ⟨hs₁.trans_links hs, ?_⟩
          intro a hai hon
          have haj : a ≠ j := fun e => hon (by rw [e]; exact OnChain.head j)
          have hon' : ¬ OnChain ((m.set i { ni with id := nj.id, name := nj.name }).set j
              { nj with id := ni.id, name := ni.name }) nj.nextToFirst a :=
            fun hc => hon (OnChain.tail j nj a hmj (OnChain.same_links hs₁ hc))
          rw [hframe a hai hon', Store.set_ne _ _ haj, Store.set_ne _ _ hai]
        · simp only [sortInner, hmi, hmj, hsw, if_false, Bool.false_eq_true] at h
          obtain ⟨hs, hframe⟩ := sortInner_links sw i k _ _ m' h
          refine ⟨hs, ?_⟩
          intro a hai hon
          exact hframe a hai (fun hc => hon (OnChain.tail j nj a hmj hc))

/-- Whatever the memory, a run of the outer loop that returns changed no link, and
no node off the chain it walked. -/
theorem sortOuter_links (sw : Node → Node → Bool) (F : Nat) :
    ∀ (k : Nat) (m : Store) (p : Ptr) (m' : Store), sortOuter sw F k m p = some m' →
      SameLinks m m' ∧ ∀ a, ¬ OnChain m p a → m' a = m a
  | k, m, none, m', h => by
    have e : m = m' := by
      cases k <;> simpa [sortOuter] using h
    subst e
    exact ⟨SameLinks.refl_links _, fun _ _ => rfl⟩
  | 0, m, some i, m', h => by simp [sortOuter] at h
  | k + 1, m, some i, m', h => by
    cases hmi : m i with
    | none => simp [sortOuter, hmi] at h
    | some ni =>
      cases hin : sortInner sw i F m ni.nextToFirst with
      | none => simp [sortOuter, hmi, hin] at h
      | some m₁ =>
        obtain ⟨hs₁, hframe₁⟩ := sortInner_links sw i F m _ m₁ hin
        obtain ⟨ni', hni', _, hnext⟩ := hs₁.node hmi
        simp only [sortOuter, hmi, hin, hni', hnext] at h
        obtain ⟨hs, hframe⟩ := sortOuter_links sw F k m₁ _ m' h
        refine ⟨hs₁.trans_links hs, ?_⟩
        intro a hon
        have hai : a ≠ i := fun e => hon (by rw [e]; exact OnChain.head i)
        have hon₁ : ¬ OnChain m ni.nextToFirst a := fun hc => hon (OnChain.tail i ni a hmi hc)
        rw [hframe a (fun hc => hon₁ (OnChain.same_links hs₁ hc))]
        exact hframe₁ a hai hon₁

theorem sortChildrenBy_links (sw : Node → Node → Bool) (F : Nat) (h h' : Heap) (parent : Ptr)
    (hrun : sortChildrenBy sw F h parent = some h') :
    h'.err = h.err ∧ SameLinks h.mem h'.mem ∧
    ∀ p np, parent = some p → h.mem p = some np →
      ∀ a, ¬ OnChain h.mem np.first a → h'.mem a = h.mem a := by
  cases parent with
  | none =>
    simp only [sortChildrenBy, Option.some.injEq] at hrun
    subst hrun
    exact ⟨rfl, SameLinks.refl_links _, fun _ _ hp => by simp at hp⟩
  | some p =>
    cases hmp : h.mem p with
    | none => simp [sortChildrenBy, hmp] at hrun
    | some np =>
      cases hf : np.first with
      | none =>
        simp only [sortChildrenBy, hmp, hf, Option.some.injEq] at hrun
        subst hrun
        exact ⟨rfl, SameLinks.refl_links _, fun _ _ _ _ _ _ => rfl⟩
      | some f =>
        cases hout : sortOuter sw F F h.mem (some f) with
        | none => simp [sortChildrenBy, hmp, hf, hout] at hrun
        | some m' =>
          simp only [sortChildrenBy, hmp, hf, hout, Option.some.injEq] at hrun
          subst hrun
          obtain ⟨hs, hframe⟩ := sortOuter_links sw F F h.mem _ m' hout
          refine ⟨rfl, hs, ?_⟩
          intro p' np' hp' hnp' a hon
          have e : p' = p := (Option.some.inj hp').symm
          subst e
          rw [hmp] at hnp'
          have e2 : np = np' := Option.some.inj hnp'
          subst e2
          rw [hf] at hon
          exact hframe a hon

/-! ## Sorting: what the loops compute on a finite chain -/

theorem payloadAt_of_some {m : Store} {a : Nat} {n : Node} (h : m a = some n) :
    payloadAt m a = (n.id, n.name) := by
  simp [payloadAt, idAt, nameAt, h]

/-- On a finite chain the inner loop returns, and the payloads it leaves are those
of `innerPass`. -/
theorem sortInner_refine (sw : Node → Node → Bool)
    (gt : Int × List Nat → Int × List Nat → Bool)
    (hsw : ∀ ni nj, sw ni nj = gt (ni.id, ni.name) (nj.id, nj.name)) (i : Nat) :
    ∀ (js : List Nat) (k : Nat) (m : Store) (p : Ptr) (ni : Node),
      m i = some ni → Chain m p js → i ∉ js → js.length ≤ k →
      ∃ m', sortInner sw i k m p = some m' ∧
        payloadAt m' i = (innerPass gt (payloadAt m i) (js.map (payloadAt m))).1 ∧
        js.map (payloadAt m') = (innerPass gt (payloadAt m i) (js.map (payloadAt m))).2
  | [], k, m, p, ni, _, hl, _, _ => by
    have hp : p = none := hl
    subst hp
    exact ⟨m, by cases k <;> rfl, rfl, rfl⟩
  | j :: js, k, m, p, ni, hmi, hl, hi, hk => by
    have hnd := Chain.nodup hl
    obtain ⟨rfl, nj, hmj, hrest⟩ := hl
    obtain ⟨k, rfl⟩ : ∃ n, k = n + 1 := ⟨k - 1, by simp at hk; omega⟩
    have hk2 : js.length ≤ k := by simp at hk; omega
    have hji : j ≠ i := fun e => hi (by simp [e])
    have hijs : i ∉ js := fun e => hi (List.mem_cons_of_mem _ e)
    have hjjs : j ∉ js := (List.nodup_cons.1 hnd).1
    have hpi := payloadAt_of_some hmi
    have hpj := payloadAt_of_some hmj
    by_cases hs : sw ni nj = true
    · have hgt : gt (ni.id, ni.name) (nj.id, nj.name) = true := by rw [← hsw]; exact hs
      have hagree : ∀ a ∈ js, ((m.set i { ni with id := nj.id, name := nj.name }).set j
          { nj with id := ni.id, name := ni.name }) a = m a := by
        intro a ha
        have haj : a ≠ j := fun e => hjjs (e ▸ ha)
        have hai : a ≠ i := fun e => hijs (e ▸ ha)
        rw [Store.set_ne _ _ haj, Store.set_ne _ _ hai]
      have hm₁i : ((m.set i { ni with id := nj.id, name := nj.name }).set j
          { nj with id := ni.id, name := ni.name }) i
          = some { ni with id := nj.id, name := nj.name } := by
        rw [Store.set_ne _ _ hji.symm, Store.set_same]
      have hchain := Chain.agree hrest hagree
      obtain ⟨m', hrun, hp₁, hp₂⟩ := sortInner_refine sw gt hsw i js k _ nj.nextToFirst _ hm₁i
        hchain hijs hk2
      have hframe := (sortInner_links sw i k _ _ m' hrun).2 j hji
        (fun hc => hjjs (OnChain.mem_of_chain hc hchain))
      have hmap : js.map (payloadAt ((m.set i { ni with id := nj.id, name := nj.name }).set j
          { nj with id := ni.id, name := ni.name })) = js.map (payloadAt m) := by
        apply List.map_congr_left
        intro a ha
        simp [payloadAt, idAt, nameAt, hagree a ha]
      rw [payloadAt_of_some hm₁i, hmap] at hp₁ hp₂
      have hpj' : payloadAt m' j = (ni.id, ni.name) := by
        simp [payloadAt, idAt, nameAt, hframe]
      refine ⟨m', ?_, ?_, ?_⟩
      · simp only [sortInner, hmi, hmj, hs, if_true, Store.set_same]
        exact hrun
      · simp only [List.map_cons, hpi, hpj, innerPass, hgt, if_true]
        exact hp₁
      · simp only [List.map_cons, hpi, hpj, innerPass, hgt, if_true, hpj', hp₂]
    · have hgt : ¬ gt (ni.id, ni.name) (nj.id, nj.name) = true := by rw [← hsw]; exact hs
      obtain ⟨m', hrun, hp₁, hp₂⟩ := sortInner_refine sw gt hsw i js k m nj.nextToFirst ni hmi
        hrest hijs hk2
      have hframe := (sortInner_links sw i k _ _ m' hrun).2 j hji
        (fun hc => hjjs (OnChain.mem_of_chain hc hrest))
      rw [hpi] at hp₁ hp₂
      have hpj' : payloadAt m' j = (nj.id, nj.name) := by
        simp [payloadAt, idAt, nameAt, hframe, hmj]
      refine ⟨m', ?_, ?_, ?_⟩
      · simp only [sortInner, hmi, hmj, hs, if_false, Bool.false_eq_true]
        exact hrun
      · simp only [List.map_cons, hpi, hpj, innerPass, hgt, if_false, Bool.false_eq_true]
        exact hp₁
      · simp only [List.map_cons, hpi, hpj, innerPass, hgt, if_false, Bool.false_eq_true, hpj',
          hp₂]

/-- On a finite chain the outer loop returns, and the payloads it leaves along the
chain are those of `exchangeSortN`. -/
theorem sortOuter_refine (sw : Node → Node → Bool)
    (gt : Int × List Nat → Int × List Nat → Bool)
    (hsw : ∀ ni nj, sw ni nj = gt (ni.id, ni.name) (nj.id, nj.name)) (F : Nat) :
    ∀ (l : List Nat) (k : Nat) (m : Store) (p : Ptr),
      Chain m p l → l.length ≤ k → l.length ≤ F →
      ∃ m', sortOuter sw F k m p = some m' ∧
        l.map (payloadAt m') = exchangeSortN gt l.length (l.map (payloadAt m))
  | [], k, m, p, hl, _, _ => by
    have hp : p = none := hl
    subst hp
    exact ⟨m, by cases k <;> rfl, rfl⟩
  | i :: js, k, m, p, hl, hk, hF => by
    have hnd := Chain.nodup hl
    obtain ⟨rfl, ni, hmi, hrest⟩ := hl
    obtain ⟨k, rfl⟩ : ∃ n, k = n + 1 := ⟨k - 1, by simp at hk; omega⟩
    have hijs : i ∉ js := (List.nodup_cons.1 hnd).1
    obtain ⟨m₁, hin, hp₁, hp₂⟩ := sortInner_refine sw gt hsw i js F m ni.nextToFirst ni hmi hrest
      hijs (by simp at hF; omega)
    obtain ⟨hs₁, _⟩ := sortInner_links sw i F m _ m₁ hin
    obtain ⟨ni', hni', _, hnext⟩ := hs₁.node hmi
    have hchain₁ := Chain.of_sameLinks hs₁ hrest
    obtain ⟨m', hout, hpl⟩ := sortOuter_refine sw gt hsw F js k m₁ ni.nextToFirst hchain₁
      (by simp at hk; omega) (by simp at hF; omega)
    have hframe := (sortOuter_links sw F k m₁ _ m' hout).2 i
      (fun hc => hijs (OnChain.mem_of_chain hc hchain₁))
    have hpi' : payloadAt m' i = payloadAt m₁ i := by
      simp [payloadAt, idAt, nameAt, hframe]
    refine ⟨m', ?_, ?_⟩
    · simp only [sortOuter, hmi, hin, hni', hnext]
      exact hout
    · simp only [List.map_cons, List.length_cons, exchangeSortN]
      rw [hpi', hp₁, hpl, hp₂]

/-- On a finite child chain the sort returns; the links are the ones before, the
child chain is the same list of slots, and the payloads along it are those of
`exchangeSortN`. -/
theorem sortChildrenBy_refine (sw : Node → Node → Bool)
    (gt : Int × List Nat → Int × List Nat → Bool)
    (hsw : ∀ ni nj, sw ni nj = gt (ni.id, ni.name) (nj.id, nj.name)) (F : Nat) (h : Heap)
    (p : Nat) (np : Node) (l : List Nat) (hp : h.mem p = some np)
    (hl : Chain h.mem np.first l) (hF : l.length ≤ F) :
    ∃ h' np', sortChildrenBy sw F h (some p) = some h' ∧ h'.mem p = some np' ∧
      Chain h'.mem np'.first l ∧
      l.map (payloadAt h'.mem) = exchangeSortN gt l.length (l.map (payloadAt h.mem)) := by
  cases l with
  | nil =>
    have hf : np.first = none := hl
    exact ⟨h, np, by simp [sortChildrenBy, hp, hf], hp, hl, rfl⟩
  | cons a l =>
    have hf : np.first = some a := hl.1
    rw [hf] at hl
    obtain ⟨m', hout, hpl⟩ := sortOuter_refine sw gt hsw F (a :: l) F h.mem (some a) hl hF hF
    obtain ⟨hs, _⟩ := sortOuter_links sw F F h.mem _ m' hout
    obtain ⟨np', hnp', hfirst, _⟩ := hs.node hp
    refine ⟨{ mem := m', err := h.err }, np', by simp [sortChildrenBy, hp, hf, hout], hnp', ?_,
      hpl⟩
    rw [hfirst, hf]
    exact Chain.of_sameLinks hs hl

/-! ## Sorting: the claims -/

/-- The test `strcmp(a, b) > 0` holds exactly when `b` is before `a` in the
lexicographic order of byte strings. -/
theorem strcmpGt_iff_lt : ∀ (a b : List Nat), strcmpGt a b = true ↔ b < a
  | [], b => by
    simp only [strcmpGt, Bool.false_eq_true, false_iff]
    exact List.Lex.not_nil_right _ _
  | _ :: _, [] => by
    simp only [strcmpGt, true_iff]
    exact List.Lex.nil
  | x :: a, y :: b => by
    by_cases hxy : x = y
    · subst hxy
      simp only [strcmpGt, if_true]
      rw [strcmpGt_iff_lt a b]
      exact List.Lex.cons_iff.symm
    · simp only [strcmpGt, hxy, if_false, decide_eq_true_eq]
      constructor
      · intro h
        exact List.Lex.rel h
      · intro h
        cases h with
        | cons _ => exact absurd rfl hxy
        | rel h => exact h

theorem sortChildrenById_refine (F : Nat) (h : Heap) (p : Nat) (np : Node) (l : List Nat)
    (hp : h.mem p = some np) (hl : Chain h.mem np.first l) (hF : l.length ≤ F) :
    ∃ h' np', sortChildrenById F h (some p) = some h' ∧ h'.mem p = some np' ∧
      Chain h'.mem np'.first l ∧
      l.map (payloadAt h'.mem) = exchangeSortN idGt l.length (l.map (payloadAt h.mem)) :=
  sortChildrenBy_refine _ idGt (fun _ _ => rfl) F h p np l hp hl hF

theorem sortChildrenByName_refine (F : Nat) (h : Heap) (p : Nat) (np : Node) (l : List Nat)
    (hp : h.mem p = some np) (hl : Chain h.mem np.first l) (hF : l.length ≤ F) :
    ∃ h' np', sortChildrenByName F h (some p) = some h' ∧ h'.mem p = some np' ∧
      Chain h'.mem np'.first l ∧
      l.map (payloadAt h'.mem) = exchangeSortN nameGt l.length (l.map (payloadAt h.mem)) :=
  sortChildrenBy_refine _ nameGt (fun _ _ => rfl) F h p np l hp hl hF

theorem pairwise_of_payloads {gt : Int × List Nat → Int × List Nat → Bool} {m : Store}
    {l : List Nat} (h : (l.map (payloadAt m)).Pairwise (fun a b => gt a b = false)) :
    l.Pairwise (fun a b => gt (payloadAt m a) (payloadAt m b) = false) :=
  List.pairwise_map.1 h

/-- C12: for a node `p` whose child chain is the finite list of slots `l`, both
sort functions return and leave the same chain of slots; after `sortChildrenById`
the ids read along the chain are non-decreasing, and after `sortChildrenByName`
the names read along the chain are non-decreasing in the lexicographic order of
byte strings, the order of `strcmp`.  And the commands `ADD 0 2`, `ADD 0 1`,
`ADD 0 3`, `SORT_NAME 0`, `PRINT 0` on the nodes 1 `B`, 2 `A`, 3 `C` print
`A,B,C` and a newline. -/
theorem sortChildren_sorted (F : Nat) (h : Heap) (p : Nat) (np : Node) (l : List Nat)
    (hp : h.mem p = some np) (hl : Chain h.mem np.first l) (hF : l.length ≤ F) :
    (∃ h' np', sortChildrenById F h (some p) = some h' ∧ h'.mem p = some np' ∧
      Chain h'.mem np'.first l ∧ (l.map (idAt h'.mem)).Pairwise (fun a b => a ≤ b)) ∧
    (∃ h' np', sortChildrenByName F h (some p) = some h' ∧ h'.mem p = some np' ∧
      Chain h'.mem np'.first l ∧ (l.map (nameAt h'.mem)).Pairwise (fun a b => a ≤ b) ∧
      (l.map (nameAt h'.mem)).Pairwise (fun a b => strcmpGt a b = false)) ∧
    ∃ s, run 3 4 (startup [[114], [66], [65], [67]])
        [.add 0 2, .add 0 1, .add 0 3, .sortName 0, .print 0] = some s ∧
      s.out = [65, 44, 66, 44, 67, 10] := by
  refine ⟨?_, ?_, _, rfl, rfl⟩
  · obtain ⟨h', np', hrun, hp', hl', hpay⟩ := sortChildrenById_refine F h p np l hp hl hF
    refine ⟨h', np', hrun, hp', hl', ?_⟩
    have hs := exchangeSortN_sorted idGt idGt_asymm idGt_negTrans l.length
      (l.map (payloadAt h.mem)) (by simp)
    rw [← hpay] at hs
    rw [List.pairwise_map]
    refine (pairwise_of_payloads hs).imp ?_
    intro a b hab
    simpa [idGt, payloadAt] using hab
  · obtain ⟨h', np', hrun, hp', hl', hpay⟩ := sortChildrenByName_refine F h p np l hp hl hF
    have hs := exchangeSortN_sorted nameGt nameGt_asymm nameGt_negTrans l.length
      (l.map (payloadAt h.mem)) (by simp)
    rw [← hpay] at hs
    have hgt : l.Pairwise (fun a b => strcmpGt (nameAt h'.mem a) (nameAt h'.mem b) = false) := by
      refine (pairwise_of_payloads hs).imp ?_
      intro a b hab
      simpa [nameGt, payloadAt] using hab
    refine ⟨h', np', hrun, hp', hl', ?_, ?_⟩
    · rw [List.pairwise_map]
      refine hgt.imp ?_
      intro a b hab
      rw [← not_lt, ← strcmpGt_iff_lt, hab]
      simp
    · rw [List.pairwise_map]
      exact hgt

/-- C12 at a concrete input: the children of node 0 in `memUnsorted` are the slots
2, 1, 3. -/
theorem sortChildren_sorted_witness :
    (∃ h' np', sortChildrenById 3 { mem := memUnsorted, err := [] } (some 0) = some h' ∧
      h'.mem 0 = some np' ∧ Chain h'.mem np'.first [2, 1, 3] ∧
      ([2, 1, 3].map (idAt h'.mem)).Pairwise (fun a b => a ≤ b)) ∧
    (∃ h' np', sortChildrenByName 3 { mem := memUnsorted, err := [] } (some 0) = some h' ∧
      h'.mem 0 = some np' ∧ Chain h'.mem np'.first [2, 1, 3] ∧
      ([2, 1, 3].map (nameAt h'.mem)).Pairwise (fun a b => a ≤ b) ∧
      ([2, 1, 3].map (nameAt h'.mem)).Pairwise (fun a b => strcmpGt a b = false)) ∧
    ∃ s, run 3 4 (startup [[114], [66], [65], [67]])
        [.add 0 2, .add 0 1, .add 0 3, .sortName 0, .print 0] = some s ∧
      s.out = [65, 44, 66, 44, 67, 10] :=
  sortChildren_sorted 3 { mem := memUnsorted, err := [] } 0
    { id := 0, name := [114], first := some 2, nextToFirst := none } [2, 1, 3] rfl
    (by simp [Chain, memUnsorted, storeOf]) (by decide)

/-- C13: for a node `p` whose child chain is the finite list of slots `l`, both
sort functions return and leave the same chain of slots, so the same number of
children, and the list of (id, name) payloads read along the chain afterwards is
a permutation of the list read before: no payload is dropped or duplicated and
each id stays with the name it was stored with. -/
theorem sortChildren_permutes (F : Nat) (h : Heap) (p : Nat) (np : Node) (l : List Nat)
    (hp : h.mem p = some np) (hl : Chain h.mem np.first l) (hF : l.length ≤ F) :
    (∃ h' np', sortChildrenById F h (some p) = some h' ∧ h'.mem p = some np' ∧
      Chain h'.mem np'.first l ∧
      List.Perm (l.map (payloadAt h'.mem)) (l.map (payloadAt h.mem))) ∧
    (∃ h' np', sortChildrenByName F h (some p) = some h' ∧ h'.mem p = some np' ∧
      Chain h'.mem np'.first l ∧
      List.Perm (l.map (payloadAt h'.mem)) (l.map (payloadAt h.mem))) := by
  constructor
  · obtain ⟨h', np', hrun, hp', hl', hpay⟩ := sortChildrenById_refine F h p np l hp hl hF
    exact ⟨h', np', hrun, hp', hl', hpay ▸ exchangeSortN_perm idGt _ _⟩
  · obtain ⟨h', np', hrun, hp', hl', hpay⟩ := sortChildrenByName_refine F h p np l hp hl hF
    exact ⟨h', np', hrun, hp', hl', hpay ▸ exchangeSortN_perm nameGt _ _⟩

/-- C13 at a concrete input: the children of node 0 in `memUnsorted`. -/
theorem sortChildren_permutes_witness :
    (∃ h' np', sortChildrenById 3 { mem := memUnsorted, err := [] } (some 0) = some h' ∧
      h'.mem 0 = some np' ∧ Chain h'.mem np'.first [2, 1, 3] ∧
      List.Perm ([2, 1, 3].map (payloadAt h'.mem)) ([2, 1, 3].map (payloadAt memUnsorted))) ∧
    (∃ h' np', sortChildrenByName 3 { mem := memUnsorted, err := [] } (some 0) = some h' ∧
      h'.mem 0 = some np' ∧ Chain h'.mem np'.first [2, 1, 3] ∧
      List.Perm ([2, 1, 3].map (payloadAt h'.mem)) ([2, 1, 3].map (payloadAt memUnsorted))) :=
  sortChildren_permutes 3 { mem := memUnsorted, err := [] } 0
    { id := 0, name := [114], first := some 2, nextToFirst := none } [2, 1, 3] rfl
    (by simp [Chain, memUnsorted, storeOf]) (by decide)

theorem Node.eq_of_fields {a b : Node} (h1 : a.id = b.id) (h2 : a.name = b.name)
    (h3 : a.first = b.first) (h4 : a.nextToFirst = b.nextToFirst) : a = b := by
  cases a
  cases b
  simp at h1 h2 h3 h4
  simp [h1, h2, h3, h4]

/-- C14: for a node `p` whose child chain is finite, `sortChildrenById` returns a
heap on which a second `sortChildrenById` returns the very same heap: every node,
so every payload along the child chain, is as the first call left it. -/
theorem sortChildrenById_twice (F : Nat) (h : Heap) (p : Nat) (np : Node) (l : List Nat)
    (hp : h.mem p = some np) (hl : Chain h.mem np.first l) (hF : l.length ≤ F) :
    ∃ h₁, sortChildrenById F h (some p) = some h₁ ∧
      sortChildrenById F h₁ (some p) = some h₁ := by
  obtain ⟨h₁, np₁, hrun₁, hp₁, hl₁, hpay₁⟩ := sortChildrenById_refine F h p np l hp hl hF
  obtain ⟨h₂, np₂, hrun₂, _, _, hpay₂⟩ := sortChildrenById_refine F h₁ p np₁ l hp₁ hl₁ hF
  refine ⟨h₁, hrun₁, ?_⟩
  rw [hrun₂]
  have hs := exchangeSortN_sorted idGt idGt_asymm idGt_negTrans l.length
    (l.map (payloadAt h.mem)) (by simp)
  rw [← hpay₁] at hs
  rw [exchangeSortN_noop idGt _ _ hs] at hpay₂
  obtain ⟨herr, hlinks, hframe⟩ := sortChildrenBy_links _ F h₁ h₂ (some p) hrun₂
  have hmem : h₂.mem = h₁.mem := by
    funext a
    by_cases hon : OnChain h₁.mem np₁.first a
    · have hal := OnChain.mem_of_chain hon hl₁
      have hpa := List.map_inj_left.1 hpay₂ a hal
      obtain ⟨n₁, hn₁⟩ := Chain.alloc hl₁ hal
      obtain ⟨n₂, hn₂, hf, hx⟩ := hlinks.node hn₁
      rw [payloadAt_of_some hn₁, payloadAt_of_some hn₂] at hpa
      rw [hn₁, hn₂, Node.eq_of_fields (congrArg Prod.fst hpa) (congrArg Prod.snd hpa) hf hx]
    · exact hframe p np₁ rfl hp₁ a hon
  cases h₁
  cases h₂
  simp at herr hmem
  simp [herr, hmem]

/-- C14 at a concrete input: the children of node 0 in `memUnsorted`. -/
theorem sortChildrenById_twice_witness :
    ∃ h₁, sortChildrenById 3 { mem := memUnsorted, err := [] } (some 0) = some h₁ ∧
      sortChildrenById 3 h₁ (some 0) = some h₁ :=
  sortChildrenById_twice 3 { mem := memUnsorted, err := [] } 0
    { id := 0, name := [114], first := some 2, nextToFirst := none } [2, 1, 3] rfl
    (by simp [Chain, memUnsorted, storeOf]) (by decide)

/-- C15: whenever `sortChildrenById` or `sortChildrenByName` returns, on any
memory and for any node, the diagnostics are as before, every address holds a
node with the `first` and `nextToFirst` links it had, so every node has the child
chain it had, and every node that is not met on the child chain of the sorted
node holds the id and name it had; for an absent node nothing changes at all.
And both functions return when the child chain of the node is finite. -/
theorem sortChildren_frame (F : Nat) (h : Heap) (parent : Ptr) :
    (∀ h', sortChildrenById F h parent = some h' ∨ sortChildrenByName F h parent = some h' →
      h'.err = h.err ∧ SameLinks h.mem h'.mem ∧
      (∀ a n ks, h.mem a = some n → Chain h.mem n.first ks →
        ∃ n', h'.mem a = some n' ∧ n'.first = n.first ∧ n'.nextToFirst = n.nextToFirst ∧
          Chain h'.mem n'.first ks) ∧
      (∀ p np, parent = some p → h.mem p = some np →
        ∀ a, ¬ OnChain h.mem np.first a → h'.mem a = h.mem a) ∧
      (parent = none → h' = h)) ∧
    (∀ p np l, parent = some p → h.mem p = some np → Chain h.mem np.first l → l.length ≤ F →
      (∃ h', sortChildrenById F h parent = some h') ∧
      (∃ h', sortChildrenByName F h parent = some h')) := by
  constructor
  · intro h' hrun
    have hl : h'.err = h.err ∧ SameLinks h.mem h'.mem ∧ ∀ p np, parent = some p →
        h.mem p = some np → ∀ a, ¬ OnChain h.mem np.first a → h'.mem a = h.mem a := by
      rcases hrun with hrun | hrun
      · exact sortChildrenBy_links _ F h h' parent hrun
      · exact sortChildrenBy_links _ F h h' parent hrun
    obtain ⟨herr, hlinks, hframe⟩ := hl
    refine ⟨herr, hlinks, ?_, hframe, ?_⟩
    · intro a n ks hn hks
      obtain ⟨n', hn', hf, hx⟩ := hlinks.node hn
      exact ⟨n', hn', hf, hx, hf ▸ Chain.of_sameLinks hlinks hks⟩
    · rintro rfl
      rcases hrun with hrun | hrun
      · simpa [sortChildrenById, sortChildrenBy] using hrun.symm
      · simpa [sortChildrenByName, sortChildrenBy] using hrun.symm
  · rintro p np l rfl hp hl hF
    obtain ⟨h₁, _, hrun₁, _⟩ := sortChildrenById_refine F h p np l hp hl hF
    obtain ⟨h₂, _, hrun₂, _⟩ := sortChildrenByName_refine F h p np l hp hl hF
    exact ⟨⟨h₁, hrun₁⟩, ⟨h₂, hrun₂⟩⟩

/-- C15 at a concrete input: in `memUnsorted` the children of node 0 are the slots
2, 1, 3 with the ids 2, 1, 3.  `sortChildrenById` returns and exchanges the
payloads of the slots 2 and 1; every link is as before, so the slots 2, 1, 3 are
again the child chain of node 0, and node 0 itself, which is no child of node 0,
is as before. -/
theorem sortChildren_frame_witness :
    ∃ h' n0, sortChildrenById 3 { mem := memUnsorted, err := [] } (some 0) = some h' ∧
      idAt memUnsorted 2 = 2 ∧ idAt memUnsorted 1 = 1 ∧
      idAt h'.mem 2 = 1 ∧ idAt h'.mem 1 = 2 ∧
      h'.err = [] ∧ SameLinks memUnsorted h'.mem ∧
      h'.mem 0 = some n0 ∧ n0.first = some 2 ∧ n0.nextToFirst = none ∧
      Chain h'.mem n0.first [2, 1, 3] ∧ h'.mem 0 = memUnsorted 0 := by
  have hT := sortChildren_frame 3 { mem := memUnsorted, err := [] } (some 0)
  obtain ⟨⟨h', hrun⟩, _⟩ := hT.2 0 _ [2, 1, 3] rfl rfl
    (by simp [Chain, memUnsorted, storeOf]) (by decide)
  obtain ⟨herr, hlinks, hkeep, hframe, _⟩ := hT.1 h' (Or.inl hrun)
  obtain ⟨n0, hn0, hf0, hx0, hchain⟩ := hkeep 0 _ [2, 1, 3] rfl
    (by simp [Chain, memUnsorted, storeOf])
  have hval : ∀ h'', sortChildrenById 3 { mem := memUnsorted, err := [] } (some 0) = some h'' →
      idAt h''.mem 2 = 1 ∧ idAt h''.mem 1 = 2 := by
    intro h'' e
    obtain rfl : _ = h'' := Option.some.inj (Eq.trans rfl e)
    exact ⟨rfl, rfl⟩
  refine ⟨h', n0, hrun, rfl, rfl, (hval h' hrun).1, (hval h' hrun).2, herr, hlinks, hn0, hf0,
    hx0, hchain, hframe 0 _ rfl rfl 0 ?_⟩
  intro hon
  have := OnChain.mem_of_chain hon
    (show Chain memUnsorted (some 2) [2, 1, 3] by simp [Chain, memUnsorted, storeOf])
  simp at this

/-- The kid that `unlinkId` finds is the first one that carries `id`. -/
theorem Shape.unlinkId_of_kids_first {id : Int} {A : Nat} {fA : Shape}
    {post : List (Nat × Int × Shape)} : ∀ (pre : List (Nat × Int × Shape)) (f : Shape),
    (∀ k ∈ pre, k.2.1 ≠ id) → f.kids = pre ++ (A, id, fA) :: post →
    Shape.unlinkId id f = some (A, fA, Shape.ofKids (pre ++ post))
  | [], .nil, _, h => by simp [Shape.kids] at h
  | [], .node a i f n, _, h => by
    simp only [Shape.kids, List.nil_append, List.cons.injEq, Prod.mk.injEq] at h
    obtain ⟨⟨rfl, rfl, rfl⟩, rfl⟩ := h
    simp [Shape.unlinkId, Shape.ofKids_kids]
  | x :: pre, .nil, _, h => by simp [Shape.kids] at h
  | x :: pre, .node a i f n, hne, h => by
    simp only [Shape.kids, List.cons_append, List.cons.injEq] at h
    obtain ⟨rfl, hn⟩ := h
    have hi : ¬ i = id := hne (a, i, f) (by simp)
    have ih := Shape.unlinkId_of_kids_first pre n (fun k hk => hne k (by simp [hk])) hn
    simp [Shape.unlinkId, hi, ih, Shape.ofKids]

theorem Shape.unlinkId_none_of_kids {id : Int} : ∀ (f : Shape),
    (∀ k ∈ f.kids, k.2.1 ≠ id) → Shape.unlinkId id f = none
  | .nil, _ => rfl
  | .node a i f n, h => by
    have hi : ¬ i = id := h (a, i, f) (by simp [Shape.kids])
    have ih := Shape.unlinkId_none_of_kids n (fun k hk => h k (by simp [Shape.kids, hk]))
    simp [Shape.unlinkId, hi, ih]

theorem Shape.nodup_of_subtree {b S : Shape} (h : S ∈ b.subtrees) (hnd : b.addrs.Nodup) :
    S.addrs.Nodup := by
  rw [List.nodup_iff_count_le_one] at hnd ⊢
  intro x
  exact le_trans (Shape.subtrees_count_le h x) (hnd x)

theorem Shape.length_le_of_subtree {b S : Shape} (h : S ∈ b.subtrees) :
    S.addrs.length ≤ b.addrs.length := by
  apply List.Subperm.length_le
  rw [List.subperm_ext_iff]
  intro x _
  exact Shape.subtrees_count_le h x

/-- A chain depends on the `nextToFirst` links of its members only. -/
theorem Chain.of_next {m m' : Store} : ∀ {l : List Nat} {p : Ptr}, Chain m p l →
    (∀ a ∈ l, (m' a).map (fun n => n.nextToFirst) = (m a).map (fun n => n.nextToFirst)) →
    Chain m' p l
  | [], _, h, _ => h
  | a :: l, p, h, hx => by
    obtain ⟨hp, n, hn, hrest⟩ := h
    have ha := hx a (by simp)
    rw [hn] at ha
    cases hm' : m' a with
    | none => simp [hm'] at ha
    | some n' =>
      simp only [hm', Option.map_some', Option.some.injEq] at ha
      exact ⟨hp, n', hm', ha ▸ Chain.of_next hrest (fun x hxl => hx x (by simp [hxl]))⟩

/-- The node behind the one that the scan finds is the node it was started with or
a node of the chain. -/
theorem scanId_prev_mem {m : Store} {id : Int} : ∀ (b : Shape) (p parent : Ptr) (k : Nat)
    (prev : Ptr) (t : Nat), Rep m p b → scanId m id k parent p = some (some (prev, t)) →
    prev = parent ∨ ∃ q, prev = some q ∧ q ∈ b.spine
  | .nil, p, parent, k, prev, t, hb, h => by
    have hp : p = none := hb
    subst hp
    cases k <;> simp [scanId] at h
  | .node a i f n, p, parent, k, prev, t, hb, h => by
    obtain ⟨rfl, nd, hnda, _, _, hn⟩ := hb
    cases k with
    | zero => simp [scanId] at h
    | succ k =>
      by_cases hid : nd.id = id
      · simp only [scanId, hnda, hid, if_true, Option.some.injEq, Prod.mk.injEq] at h
        exact Or.inl h.1.symm
      · simp only [scanId, hnda, hid, if_false] at h
        rcases scanId_prev_mem n _ _ k prev t hn h with h1 | ⟨q, h1, h2⟩
        · exact Or.inr ⟨a, h1, by simp [Shape.spine]⟩
        · exact Or.inr ⟨q, h1, by simp [Shape.spine, h2]⟩

/-- An address of a shape is on its top chain or in the child list of one of its
nodes. -/
theorem Shape.mem_addrs_parent : ∀ (g : Shape) {x : Nat}, x ∈ g.addrs →
    x ∈ g.spine ∨ ∃ P i f n, Shape.node P i f n ∈ g.subtrees ∧ x ∈ f.spine
  | .nil, _, h => by simp [Shape.addrs, Shape.nodes] at h
  | .node a i f n, x, h => by
    simp only [Shape.addrs_node, List.mem_cons, List.mem_append] at h
    rcases h with rfl | h | h
    · exact Or.inl (by simp [Shape.spine])
    · rcases Shape.mem_addrs_parent f h with h1 | ⟨P, j, f', n', h1, h2⟩
      · exact Or.inr ⟨a, i, f, n, by simp [Shape.subtrees], h1⟩
      · exact Or.inr ⟨P, j, f', n', by simp [Shape.subtrees, h1], h2⟩
    · rcases Shape.mem_addrs_parent n h with h1 | ⟨P, j, f', n', h1, h2⟩
      · exact Or.inl (by simp [Shape.spine, h1])
      · exact Or.inr ⟨P, j, f', n', by simp [Shape.subtrees, h1], h2⟩

theorem Store.set_next (m : Store) {x : Nat} {nx : Node} (nx' : Node) (hx : m x = some nx)
    (h : nx'.nextToFirst = nx.nextToFirst) (a : Nat) :
    ((m.set x nx') a).map (fun n => n.nextToFirst) = (m a).map (fun n => n.nextToFirst) := by
  by_cases e : a = x
  · subst e
    simp [hx, h]
  · rw [Store.set_ne _ _ e]

theorem Store.set_first (m : Store) {x : Nat} {nx : Node} (nx' : Node) (hx : m x = some nx)
    (h : nx'.first = nx.first) (a : Nat) :
    ((m.set x nx') a).map (fun n => n.first) = (m a).map (fun n => n.first) := by
  by_cases e : a = x
  · subst e
    simp [hx, h]
  · rw [Store.set_ne _ _ e]

theorem Store.set_payload (m : Store) {x : Nat} {nx : Node} (nx' : Node) (hx : m x = some nx)
    (h1 : nx'.id = nx.id) (h2 : nx'.name = nx.name) (a : Nat) :
    ((m.set x nx') a).map (fun n => (n.id, n.name)) = (m a).map (fun n => (n.id, n.name)) := by
  by_cases e : a = x
  · subst e
    simp [hx, h1, h2]
  · rw [Store.set_ne _ _ e]

theorem first_of_map_eq {m m' : Store} {a : Nat} {n : Node} (hn : m a = some n)
    (h : (m' a).map (fun n => n.first) = (m a).map (fun n => n.first)) :
    ∃ n', m' a = some n' ∧ n'.first = n.first := by
  rw [hn] at h
  cases hm' : m' a with
  | none => simp [hm'] at h
  | some n' =>
    simp only [hm', Option.map_some', Option.some.injEq] at h
    exact ⟨n', rfl, h⟩

/-! ## The invariant of the command loop -/

/-- Two different trees of a forest share no address. -/
theorem IsForest.disjoint {N : Nat} {m : Store} {t₁ t₂ : Shape} {rest : List Shape}
    (h : IsForest N m (t₁ :: t₂ :: rest)) {x : Nat} (h1 : x ∈ t₁.addrs) : x ∉ t₂.addrs := by
  intro h2
  have hc := List.nodup_iff_count_le_one.1 h.2.1 x
  have c1 := List.count_pos_iff.2 h1
  have c2 := List.count_pos_iff.2 h2
  simp only [forestAddrs, List.count_append] at hc
  omega

/-- An `ADD` that names a removed node is outside the contract: after `ADD 0 1` and
`REMOVE 1` the command `ADD 0 1` reads the released node 1, and the command loop
has no defined result. -/
theorem run_add_removed_node :
    admissible 4 3 (startup [[114], [65], [66]]) [.add 0 1, .remove 1, .add 0 1] = false ∧
    run 4 3 (startup [[114], [65], [66]]) [.add 0 1, .remove 1, .add 0 1] = none :=
  ⟨by decide, rfl⟩

end Forest

namespace TreeOnly

open Forest

/-! ## The tree-only variant: release of a subtree -/

theorem mainTree_eq : mainTree = some memMain := by
  show some _ = some memMain
  refine congrArg some (funext fun a => ?_)
  rcases a with _ | _ | _ | _ | _ | _ | a
  · rfl
  · rfl
  · rfl
  · rfl
  · rfl
  · rfl
  · simp [Store.set, createTree, memMain, storeOf]

theorem freeChildren_none (free : Store → Nat → Option Store) (k : Nat) (m : Store) :
    freeChildren free k m none = some m := by
  cases k <;> rfl

/-- The loop of `freeSubtree` on the unfolding `g` of a child chain releases every
address of `g` and nothing else. -/
theorem freeChildren_spec (F : Nat) : ∀ (g : Shape) (d k : Nat) (m : Store) (p : Ptr),
    Rep m p g → g.addrs.Nodup → g.spine.length ≤ k → g.addrs.length ≤ d →
    g.addrs.length ≤ F →
    ∃ m', freeChildren (fun m' c => freeSubtree F d m' (some c)) k m p = some m' ∧
      (∀ a ∈ g.addrs, m' a = none) ∧ (∀ a, a ∉ g.addrs → m' a = m a)
  | .nil, d, k, m, p, hg, _, _, _, _ => by
    have hp : p = none := hg
    subst hp
    exact ⟨m, freeChildren_none _ _ _, by simp [Shape.addrs, Shape.nodes], fun _ _ => rfl⟩
  | .node a i f n, d, k, m, p, hg, hnd, hk, hd, hF => by
    obtain ⟨rfl, nd, hnda, hi, hf, hn⟩ := hg
    have hcount := List.nodup_iff_count_le_one.1 hnd
    obtain ⟨k, rfl⟩ : ∃ j, k = j + 1 := ⟨k - 1, by simp [Shape.spine] at hk; omega⟩
    simp only [Shape.addrs_node, List.length_cons, List.length_append] at hd hF
    obtain ⟨d, rfl⟩ : ∃ j, d = j + 1 := ⟨d - 1, by omega⟩
    have hndf : f.addrs.Nodup := by
      rw [List.nodup_iff_count_le_one]
      intro x
      have := hcount x
      simp only [Shape.addrs_node, List.count_append, List.count_cons] at this
      omega
    have hndn : n.addrs.Nodup := by
      rw [List.nodup_iff_count_le_one]
      intro x
      have := hcount x
      simp only [Shape.addrs_node, List.count_append, List.count_cons] at this
      omega
    have ha_f : a ∉ f.addrs := by
      intro e
      have h1 := List.count_pos_iff.2 e
      have := hcount a
      simp only [Shape.addrs_node, List.count_append, List.count_cons, beq_self_eq_true,
        if_true] at this
      omega
    have ha_n : a ∉ n.addrs := by
      intro e
      have h1 := List.count_pos_iff.2 e
      have := hcount a
      simp only [Shape.addrs_node, List.count_append, List.count_cons, beq_self_eq_true,
        if_true] at this
      omega
    have hfn : ∀ x, x ∈ f.addrs → x ∉ n.addrs := by
      intro x h1 h2
      have h3 := List.count_pos_iff.2 h1
      have h4 := List.count_pos_iff.2 h2
      have := hcount x
      simp only [Shape.addrs_node, List.count_append, List.count_cons] at this
      omega
    obtain ⟨m₁, hrun₁, hfree₁, hframe₁⟩ := freeChildren_spec F f d F m nd.first hf hndf
      (le_trans (Shape.spine_length_le f) (by omega)) (by omega) (by omega)
    have hm₁a : m₁ a = some nd := by rw [hframe₁ a ha_f]; exact hnda
    have hn' : Rep (m₁.free a) nd.nextToFirst n := by
      refine Rep.congr hn ?_
      intro x hx
      have hxa : x ≠ a := fun e => ha_n (e ▸ hx)
      rw [Store.free_ne _ hxa, hframe₁ x (fun e => hfn x e hx)]
    obtain ⟨m₂, hrun₂, hfree₂, hframe₂⟩ := freeChildren_spec F n (d + 1) k (m₁.free a)
      nd.nextToFirst hn' hndn (by simp [Shape.spine] at hk; omega) (by omega) (by omega)
    refine ⟨m₂, ?_, ?_, ?_⟩
    · simp only [freeChildren, hnda, freeSubtree, hrun₁, hm₁a]
      exact hrun₂
    · intro x hx
      simp only [Shape.addrs_node, List.mem_cons, List.mem_append] at hx
      rcases hx with rfl | hx | hx
      · rw [hframe₂ x ha_n, Store.free_same]
      · have hxa : x ≠ a := fun e => ha_f (e ▸ hx)
        rw [hframe₂ x (hfn x hx), Store.free_ne _ hxa]
        exact hfree₁ x hx
      · exact hfree₂ x hx
    · intro x hx
      simp only [Shape.addrs_node, List.mem_cons, List.mem_append, not_or] at hx
      rw [hframe₂ x hx.2.2, Store.free_ne _ hx.1]
      exact hframe₁ x hx.2.1

/-- The call `freeSubtree(node)` on a node whose `first` link unfolds to `f`
releases the node and every address of `f`, and nothing else. -/
theorem freeSubtree_spec (F d : Nat) (m : Store) (a : Nat) (nd : Node) (f : Shape)
    (hnda : m a = some nd) (hf : Rep m nd.first f) (hnd : (a :: f.addrs).Nodup)
    (hd : f.addrs.length < d) (hF : f.addrs.length ≤ F) :
    ∃ m', freeSubtree F d m (some a) = some m' ∧
      (∀ x ∈ a :: f.addrs, m' x = none) ∧ (∀ x, x ∉ a :: f.addrs → m' x = m x) := by
  obtain ⟨d, rfl⟩ : ∃ j, d = j + 1 := ⟨d - 1, by omega⟩
  obtain ⟨ha_f, hndf⟩ := List.nodup_cons.1 hnd
  obtain ⟨m₁, hrun₁, hfree₁, hframe₁⟩ := freeChildren_spec F f d F m nd.first hf hndf
    (le_trans (Shape.spine_length_le f) hF) (by omega) hF
  have hm₁a : m₁ a = some nd := by rw [hframe₁ a ha_f]; exact hnda
  refine ⟨m₁.free a, by simp [freeSubtree, hnda, hrun₁, hm₁a], ?_, ?_⟩
  · intro x hx
    rcases List.mem_cons.1 hx with rfl | hx
    · exact Store.free_same _ _
    · have hxa : x ≠ a := fun e => ha_f (e ▸ hx)
      rw [Store.free_ne _ hxa]
      exact hfree₁ x hx
  · intro x hx
    simp only [List.mem_cons, not_or] at hx
    rw [Store.free_ne _ hx.1]
    exact hframe₁ x hx.2

/-! ## The tree-only variant: the unlink step -/

/-- The locate loop and the unlink step of `removeChild` and `moveChild` on a node
`P` whose child list holds a node with the id: the loop stops at the first such
child `T`, and the step is one write, to the `first` link of `P` or to the sibling
link of a child of `P`, after which the child list of `P` is the previous one
without `T`. -/
theorem unlink_spec (F : Nat) (m : Store) (P : Nat) (iP : Int) (fP nP : Shape) (id : Int)
    (T : Nat) (fT rest : Shape) (hP : Rep m (some P) (.node P iP fP nP))
    (hnd : (Shape.node P iP fP nP).addrs.Nodup)
    (hu : Shape.unlinkId id fP = some (T, fT, rest)) (hF : fP.spine.length ≤ F) :
    ∃ ndP nt prev x nx nx' f₀,
      m P = some ndP ∧ ndP.first = some f₀ ∧ m T = some nt ∧
      scanId m id F none (some f₀) = some (some (prev, T)) ∧
      unlink m P prev T = some (m.set x nx') ∧ m x = some nx ∧
      nx'.id = nx.id ∧ nx'.name = nx.name ∧
      ((x = P ∧ nx'.nextToFirst = nx.nextToFirst) ∨
        (x ∈ fP.spine ∧ nx'.first = nx.first)) ∧
      x ≠ T ∧ x ∉ fT.addrs ∧
      Rep (m.set x nx') (some P) (.node P iP rest nP) ∧
      Rep (m.set x nx') nt.first fT := by
  have hcount := List.nodup_iff_count_le_one.1 hnd
  have hucount := Shape.unlinkId_count hu
  obtain ⟨_, ndP, hndP, hiP, hfP, hnP⟩ := hP
  have hndf : fP.addrs.Nodup := by
    rw [List.nodup_iff_count_le_one]
    intro y
    have := hcount y
    simp only [Shape.addrs_node, List.count_append, List.count_cons] at this
    omega
  obtain ⟨f₀, hf₀⟩ : ∃ f₀, ndP.first = some f₀ := by
    cases fP with
    | nil => simp [Shape.unlinkId] at hu
    | node a i f n => exact ⟨a, hfP.1⟩
  have hT1 : fP.addrs.count T ≥ 1 := by
    have := hucount T
    simp only [List.count_cons, List.count_nil, beq_self_eq_true, if_true] at this
    omega
  have key : ∀ y, [T].count y + (fT.addrs.count y + rest.addrs.count y) + nP.addrs.count y
      + (if y = P then 1 else 0) ≤ 1 := by
    intro y
    have h1 := hcount y
    have h2 := hucount y
    simp only [Shape.addrs_node, List.count_append, List.count_cons] at h1
    by_cases hy : y = P
    · subst hy
      simp only [beq_self_eq_true, if_true] at h1 ⊢
      omega
    · have hy' : (P == y) = false := by simpa using fun e => hy e.symm
      simp only [hy', if_false, hy] at h1 ⊢
      omega
  have keyT := key T
  simp only [List.count_cons, List.count_nil, beq_self_eq_true, if_true] at keyT
  have hPT : P ≠ T := by
    intro e
    simp only [e, if_true] at keyT
    omega
  have hPnot : ∀ l : List Nat, l.count P = 0 → P ∉ l := fun l h => not_mem_of_count_eq_zero h
  have keyP := key P
  simp only [if_true] at keyP
  obtain ⟨nt, hnt, hft, hcase⟩ := scanId_unlink fP ndP.first none F T fT rest hfP hndf hF hu
  rcases hcase with ⟨hscan, hrest⟩ | ⟨q, nq, hscan, hq, hqrest, hrest⟩
  · refine ⟨ndP, nt, none, P, ndP, { ndP with first := nt.nextToFirst }, f₀, hndP, hf₀, hnt,
      hf₀ ▸ hscan, by simp [unlink, hnt, hndP], hndP, rfl, rfl, Or.inl ⟨rfl, rfl⟩, hPT,
      not_mem_of_count_eq_zero (by omega), ?_, ?_⟩
    · exact ⟨rfl, _, Store.set_same _ _ _, hiP,
        Rep.frame_set hrest _ (not_mem_of_count_eq_zero (by omega)),
        Rep.frame_set hnP _ (not_mem_of_count_eq_zero (by omega))⟩
    · exact Rep.frame_set hft _ (not_mem_of_count_eq_zero (by omega))
  · have hqc := List.count_pos_iff.2 hqrest
    have keyq := key q
    have hqP : q ≠ P := by
      intro e
      simp only [e, if_true] at keyq
      rw [e] at hqc
      omega
    have hqT : q ≠ T := by
      intro e
      rw [e] at hqc
      omega
    have hqspine : q ∈ fP.spine := by
      rcases scanId_prev_mem fP _ _ F _ T hfP hscan with h1 | ⟨q', h1, h2⟩
      · simp at h1
      · simp only [Option.some.injEq] at h1
        exact h1 ▸ h2
    refine ⟨ndP, nt, some q, q, nq, { nq with nextToFirst := nt.nextToFirst }, f₀, hndP, hf₀,
      hnt, hf₀ ▸ hscan, by simp [unlink, hnt, hq], hq, rfl, rfl, Or.inr ⟨hqspine, rfl⟩, hqT,
      not_mem_of_count_eq_zero (by omega), ?_, ?_⟩
    · refine ⟨rfl, ndP, ?_, hiP, hrest, Rep.frame_set hnP _ (not_mem_of_count_eq_zero ?_)⟩
      · rw [Store.set_ne _ _ hqP.symm]
        exact hndP
      · simp only [hqP, if_false] at keyq
        omega
    · exact Rep.frame_set hft _ (not_mem_of_count_eq_zero (by omega))

/-! ## The tree-only variant: the add step of `moveChild` -/

/-- The add step of `moveChild` on a destination whose child chain is the finite
list `L` without `temp`, for a `temp` without sibling: it is one write, to the
`first` link of the destination when `L` is empty and else to the sibling link of
a member of `L`, and the child chain of the destination becomes `L` followed by
`temp`. -/
theorem appendChild_spec (F : Nat) (m : Store) (D T : Nat) (nD nT : Node) (L : List Nat)
    (hD : m D = some nD) (hL : Chain m nD.first L) (hT : m T = some nT)
    (hTn : nT.nextToFirst = none) (hTL : T ∉ L) (hDT : D ≠ T) (hF : L.length ≤ F) :
    ∃ y ny ny', appendChild F m D T = some (m.set y ny') ∧ m y = some ny ∧
      ny'.id = ny.id ∧ ny'.name = ny.name ∧
      ((y = D ∧ ny'.nextToFirst = ny.nextToFirst) ∨ (y ∈ L ∧ ny'.first = ny.first)) ∧
      y ≠ T ∧ ∃ nD', (m.set y ny') D = some nD' ∧ Chain (m.set y ny') nD'.first (L ++ [T]) := by
  cases L with
  | nil =>
    have hfirst : nD.first = none := hL
    refine ⟨D, nD, { nD with first := some T }, by simp [appendChild, hD, hfirst], hD, rfl, rfl,
      Or.inl ⟨rfl, rfl⟩, hDT, _, Store.set_same _ _ _, rfl, nT, ?_, hTn⟩
    rw [Store.set_ne _ _ hDT.symm]
    exact hT
  | cons g L =>
    have hfirst : nD.first = some g := hL.1
    rw [hfirst] at hL
    obtain ⟨t, ht, hlast⟩ := lastSibling_eq hL hF
    have htL := List.mem_of_getLast?_eq_some hlast
    obtain ⟨ncur, hncur⟩ := Chain.alloc hL htL
    have htT : t ≠ T := fun e => hTL (e ▸ htL)
    have hchain := Chain.snoc_last hncur hT hTn hL hlast (Chain.nodup hL) hTL
    refine ⟨t, ncur, { ncur with nextToFirst := some T },
      by simp [appendChild, hD, hfirst, ht, hncur], hncur, rfl, rfl, Or.inr ⟨htL, rfl⟩, htT, ?_⟩
    obtain ⟨nD', hnD', hf'⟩ := first_of_map_eq hD
      (Store.set_first m { ncur with nextToFirst := some T } hncur rfl D)
    exact ⟨nD', hnD', by rw [hf', hfirst]; exact hchain⟩

/-! ## The tree-only variant: `removeChild` -/

theorem moveChild_main : moveChild 8 memMain (some 1) (some 2) (some 4) = some memMoved := by
  show some _ = some memMoved
  refine congrArg some (funext fun a => ?_)
  rcases a with _ | _ | _ | _ | _ | _ | a
  · rfl
  · rfl
  · rfl
  · rfl
  · rfl
  · rfl
  · simp [Store.set, memMain, memMoved, storeOf]

/-- C18: in a well-formed tree, for a node `P` of the tree and a handle `child` to
an allocated node, `removeChild(parent, child)` returns.  When the child list of
`P` holds an entry with the id of `child`, the first such entry `T` is taken out
of the list and every node of its subtree is released; `P` then unfolds to its
previous child list without that entry, the other entries in their previous order
with their previous subtrees; no node outside the child subtrees of `P` other than
`P` changes, and every node that is not released keeps its id and name.  When no
entry of the child list carries the id, the memory is as before. -/
theorem removeChild_frees_subtree (F d : Nat) (m : Store) (root : Ptr) (b : Shape) (P : Nat)
    (iP : Int) (fP nP : Shape) (c : Nat) (nc : Node) (hwf : WellFormed m root b)
    (hP : Shape.node P iP fP nP ∈ b.subtrees) (hc : m c = some nc)
    (hF : b.addrs.length ≤ F) (hd : b.addrs.length ≤ d) :
    (∀ pre T fT post, fP.kids = pre ++ (T, nc.id, fT) :: post → (∀ k ∈ pre, k.2.1 ≠ nc.id) →
      ∃ m', removeChild F d m (some P) (some c) = some m' ∧
        Rep m' (some P) (.node P iP (Shape.ofKids (pre ++ post)) nP) ∧
        (∀ a ∈ T :: fT.addrs, m' a = none) ∧
        (∀ a, a ≠ P → a ∉ fP.addrs → m' a = m a) ∧
        (∀ a, a ∉ T :: fT.addrs →
          (m' a).map (fun n => (n.id, n.name)) = (m a).map (fun n => (n.id, n.name)))) ∧
    ((∀ k ∈ fP.kids, k.2.1 ≠ nc.id) → removeChild F d m (some P) (some c) = some m) := by
  obtain ⟨hrep, hnd⟩ := hwf
  obtain ⟨q, hq⟩ := Rep.subtree hrep hP
  have hqP : q = some P := hq.1
  subst hqP
  have hndP := Shape.nodup_of_subtree hP hnd
  have hlenP := Shape.length_le_of_subtree hP
  have hcount := List.nodup_iff_count_le_one.1 hndP
  simp only [Shape.addrs_node, List.length_cons, List.length_append] at hlenP
  have hspine := Shape.spine_length_le fP
  constructor
  · intro pre T fT post hkids hfirst
    have hu := Shape.unlinkId_of_kids_first pre fP hfirst hkids
    have hucount := Shape.unlinkId_count hu
    obtain ⟨ndP, nt, prev, x, nx, nx', f₀, hndP', hf₀, hnt, hscan, hunl, hx, hxid, hxname,
      hxcase, hxT, hxfT, hrepP, hrepT⟩ := unlink_spec F m P iP fP nP nc.id T fT _ hq hndP hu
        (by omega)
    have key : ∀ y, [T].count y + (fT.addrs.count y + (Shape.ofKids (pre ++ post)).addrs.count y)
        + nP.addrs.count y + [P].count y ≤ 1 := by
      intro y
      have h1 := hcount y
      have h2 := hucount y
      simp only [Shape.addrs_node, List.count_append, List.count_cons, List.count_nil] at h1 h2 ⊢
      omega
    have hT₁ : (m.set x nx') T = some nt := by
      rw [Store.set_ne _ _ hxT.symm]
      exact hnt
    have hndT : (T :: fT.addrs).Nodup := by
      rw [List.nodup_iff_count_le_one]
      intro y
      have := key y
      simp only [List.count_cons, List.count_nil] at this ⊢
      omega
    have hlenT : fT.addrs.length < fP.addrs.length := by
      have := (Shape.unlinkId_nodes hu).length_eq
      simp only [List.length_cons, List.length_append] at this
      simp only [Shape.addrs, List.length_map]
      omega
    obtain ⟨m', hfree, hfreed, hframe⟩ := freeSubtree_spec F d (m.set x nx') T nt fT hT₁ hrepT
      hndT (by omega) (by omega)
    have hxin : x = P ∨ x ∈ fP.addrs := by
      rcases hxcase with h | h
      · exact Or.inl h.1
      · exact Or.inr (Shape.spine_subset_addrs _ _ h.1)
    have hsub : ∀ a ∈ T :: fT.addrs, a ∈ fP.addrs := by
      intro a ha
      have h1 := List.count_pos_iff.2 ha
      have h2 := hucount a
      simp only [List.count_cons, List.count_nil] at h1 h2
      exact List.count_pos_iff.1 (by omega)
    refine ⟨m', ?_, ?_, hfreed, ?_, ?_⟩
    · simp only [removeChild, hndP', hf₀, hc, hscan, hunl]
      exact hfree
    · refine Rep.congr hrepP ?_
      intro a ha
      apply hframe
      intro hmem
      have h1 := List.count_pos_iff.2 ha
      have h2 := List.count_pos_iff.2 hmem
      have := key a
      simp only [Shape.addrs_node, List.count_append, List.count_cons, List.count_nil]
        at h1 h2 this
      omega
    · intro a haP haf
      rw [hframe a (fun e => haf (hsub a e))]
      apply Store.set_ne
      rintro rfl
      rcases hxin with h | h
      · exact haP h
      · exact haf h
    · intro a ha
      rw [hframe a ha]
      exact Store.set_payload m nx' hx hxid hxname a
  · intro hnone
    have hu := Shape.unlinkId_none_of_kids fP hnone
    obtain ⟨_, ndP, hndP', _, hfP, _⟩ := hq
    have hscan := scanId_of_unlinkId_none fP ndP.first none F hfP hu (by omega)
    cases hfirst : ndP.first with
    | none => simp [removeChild, hndP', hfirst]
    | some f =>
      rw [hfirst] at hscan
      simp [removeChild, hndP', hfirst, hc, hscan]

/-- C18 at the input of the test: after the move, `removeChild(root, Child3)` on
the root at address 0 with `Child3` at address 3; the root keeps `Child1` with
`SubChild2` and `Child2` with `SubChild1`, and address 3 is released. -/
theorem removeChild_frees_subtree_witness :
    ∃ m', removeChild 8 8 memMoved (some 0) (some 3) = some m' ∧
      Rep m' (some 0) (.node 0 1 (Shape.ofKids
        ([(1, 2, .node 5 6 .nil .nil), (2, 3, .node 4 5 .nil .nil)] ++ [])) .nil) ∧
      (∀ a ∈ 3 :: Shape.nil.addrs, m' a = none) ∧
      (∀ a, a ≠ 0 → a ∉ (Shape.node 1 2 (.node 5 6 .nil .nil)
        (.node 2 3 (.node 4 5 .nil .nil) (.node 3 4 .nil .nil))).addrs → m' a = memMoved a) ∧
      (∀ a, a ∉ 3 :: Shape.nil.addrs →
        (m' a).map (fun n => (n.id, n.name)) = (memMoved a).map (fun n => (n.id, n.name))) :=
  (removeChild_frees_subtree 8 8 memMoved (some 0) shapeMoved 0 1
    (.node 1 2 (.node 5 6 .nil .nil) (.node 2 3 (.node 4 5 .nil .nil) (.node 3 4 .nil .nil)))
    .nil 3 { id := 4, name := [67, 104, 105, 108, 100, 51], first := none, nextToFirst := none }
    ⟨by simp [Forest.Rep, shapeMoved, memMoved, storeOf], by decide⟩
    (by simp [shapeMoved, Shape.subtrees]) rfl (by decide) (by decide)).1
    [(1, 2, .node 5 6 .nil .nil), (2, 3, .node 4 5 .nil .nil)] 3 .nil [] rfl (by decide)

/-! ## The tree-only variant: `moveChild` -/

/-- C17, counterexample: the root at address 0 with the children `A` and `B` is a
well-formed tree, the child list of the root holds `A`, and the root is not inside
the subtree of `A`; `moveChild(root, root, A)` returns and the child list of the
root is then `B`, `A`: it is neither the previous list without `A` nor the
previous list followed by `A`. -/
theorem moveChild_same_parent_rotates :
    WellFormed memPair (some 0) (.node 0 0 (.node 1 1 .nil (.node 2 2 .nil .nil)) .nil) ∧
    ∃ m' n', moveChild 4 memPair (some 0) (some 0) (some 1) = some m' ∧
      m' 0 = some n' ∧ Chain m' n'.first [2, 1] ∧ ¬ Chain m' n'.first [2] ∧
      ¬ Chain m' n'.first [1, 2, 1] := by
  refine ⟨⟨by simp [Forest.Rep, memPair, storeOf], by decide⟩, _, _, rfl, rfl, ?_, ?_, ?_⟩
  · simp [Chain, Store.set, memPair, storeOf]
  · simp [Chain, Store.set, memPair, storeOf]
  · simp [Chain, Store.set, memPair, storeOf]

/-- C17, as amended: in a well-formed tree, for a source node `S` of the tree and a
handle `child` to an allocated node, `moveChild(source, destination, child)`
returns.  When the child list of `S` holds an entry with the id of `child`, `T` is
the first such entry, and the destination `D` is a node of the tree other than
`S`, other than `T` and not below `T`, then afterwards the child list of `S` is
its previous list without `T`, the other entries in their previous order, the
child list of `D` is its previous list followed by `T`, and `T` has no sibling,
carries the id and has the subtree it had, every node of which is as before.  When
no entry of the child list of `S` carries the id, the memory is as before. -/
theorem moveChild_relocates (F : Nat) (m : Store) (root : Ptr) (b : Shape) (S : Nat) (iS : Int)
    (fS nS : Shape) (c : Nat) (nc : Node) (hwf : WellFormed m root b)
    (hS : Shape.node S iS fS nS ∈ b.subtrees) (hc : m c = some nc) (hF : b.addrs.length ≤ F) :
    (∀ D iD fD nD pre T fT post, Shape.node D iD fD nD ∈ b.subtrees →
      fS.kids = pre ++ (T, nc.id, fT) :: post → (∀ k ∈ pre, k.2.1 ≠ nc.id) →
      D ≠ S → D ∉ T :: fT.addrs →
      ∃ m' nS' nD' nT', moveChild F m (some S) (some D) (some c) = some m' ∧
        m' S = some nS' ∧ Chain m' nS'.first ((pre ++ post).map (fun k => k.1)) ∧
        m' D = some nD' ∧ Chain m' nD'.first (fD.spine ++ [T]) ∧
        m' T = some nT' ∧ nT'.id = nc.id ∧ nT'.nextToFirst = none ∧ Rep m' nT'.first fT ∧
        (∀ a ∈ fT.addrs, m' a = m a)) ∧
    (∀ D, (∀ k ∈ fS.kids, k.2.1 ≠ nc.id) →
      moveChild F m (some S) (some D) (some c) = some m) := by
  obtain ⟨hrep, hnd⟩ := hwf
  obtain ⟨q, hq⟩ := Rep.subtree hrep hS
  have hqS : q = some S := hq.1
  subst hqS
  have hndS := Shape.nodup_of_subtree hS hnd
  have hlenS := Shape.length_le_of_subtree hS
  have hcount := List.nodup_iff_count_le_one.1 hndS
  simp only [Shape.addrs_node, List.length_cons, List.length_append] at hlenS
  have hspine := Shape.spine_length_le fS
  constructor
  · intro D iD fD nD pre T fT post hD hkids hfirst hDS hDT
    simp only [List.mem_cons, not_or] at hDT
    obtain ⟨hDT, hDfT⟩ := hDT
    have hu := Shape.unlinkId_of_kids_first pre fS hfirst hkids
    have hucount := Shape.unlinkId_count hu
    obtain ⟨ndS, nt, prev, x, nx, nx', f₀, hndS', hf₀, hnt, hscan, hunl, hx, hxid, hxname,
      hxcase, hxT, hxfT, hrepS, hrepT⟩ := unlink_spec F m S iS fS nS nc.id T fT _ hq hndS hu
        (by omega)
    have key : ∀ y, [T].count y + (fT.addrs.count y + (Shape.ofKids (pre ++ post)).addrs.count y)
        + nS.addrs.count y + [S].count y ≤ 1 := by
      intro y
      have h1 := hcount y
      have h2 := hucount y
      simp only [Shape.addrs_node, List.count_append, List.count_cons, List.count_nil] at h1 h2 ⊢
      omega
    -- the moved node as a node of the tree
    have hTsubS : Shape.node T nc.id fT (Shape.ofKids post) ∈ fS.subtrees :=
      Shape.kids_subtree pre fS hkids
    have hTsub : Shape.node T nc.id fT (Shape.ofKids post) ∈ b.subtrees :=
      Shape.subtrees_trans hS (by simp [Shape.subtrees, hTsubS])
    have hTspine : T ∈ fS.spine := by
      rw [Shape.spine_eq_kids, hkids]
      simp
    have hrestspine : ∀ a ∈ (Shape.ofKids (pre ++ post)).spine, a ∈ fS.spine := by
      intro a ha
      rw [Shape.spine_ofKids] at ha
      rw [Shape.spine_eq_kids, hkids]
      simp only [List.map_append, List.mem_append, List.map_cons, List.mem_cons] at ha ⊢
      tauto
    have hntid : nt.id = nc.id := by
      obtain ⟨qT, hqT⟩ := Rep.subtree hrep hTsub
      obtain ⟨_, ndT, hndT, hi, _, _⟩ := hqT
      rw [hnt] at hndT
      cases hndT
      exact hi
    have hTfT : T ∉ fT.addrs := by
      apply not_mem_of_count_eq_zero
      have := key T
      simp only [List.count_cons, List.count_nil, beq_self_eq_true, if_true] at this
      omega
    have hTrest : T ∉ (Shape.ofKids (pre ++ post)).spine := by
      intro e
      have h1 := List.count_pos_iff.2 (Shape.spine_subset_addrs _ _ e)
      have := key T
      simp only [List.count_cons, List.count_nil, beq_self_eq_true, if_true] at this
      omega
    have hST : S ≠ T := by
      intro e
      have := key T
      simp only [e, List.count_cons, List.count_nil, beq_self_eq_true, if_true] at this
      omega
    -- the children of the destination are no children of the source and not below `T`
    have d1 : ∀ y ∈ fD.spine, y ∉ fS.spine := fun y hy hy' =>
      hDS (Shape.parent_unique b hnd hD hS hy hy')
    have d2 : ∀ y ∈ fD.spine, y ∉ fT.addrs := by
      intro y hy hy'
      rcases Shape.mem_addrs_parent fT hy' with h1 | ⟨P', j, f', n', h1, h2⟩
      · exact hDT (Shape.parent_unique b hnd hD hTsub hy h1)
      · have hP'sub : Shape.node P' j f' n' ∈ b.subtrees :=
          Shape.subtrees_trans hTsub (by simp [Shape.subtrees, h1])
        have hDP' : D = P' := Shape.parent_unique b hnd hD hP'sub hy h2
        exact hDfT (hDP' ▸ Shape.subtrees_addrs h1 (by simp))
    have hTfD : T ∉ fD.spine := fun e => d1 T e hTspine
    -- the memory after the unlink step and the write to the sibling link of `T`
    have hm₁T : (m.set x nx') T = some nt := by
      rw [Store.set_ne _ _ hxT.symm]
      exact hnt
    obtain ⟨qD, hqD⟩ := Rep.subtree hrep hD
    obtain ⟨_, ndD, hndD, _, hfD, _⟩ := hqD
    have hnext₁ : ∀ a, a ∉ fS.spine →
        ((m.set x nx') a).map (fun n => n.nextToFirst) = (m a).map (fun n => n.nextToFirst) := by
      intro a ha
      rcases hxcase with ⟨_, h⟩ | ⟨h, _⟩
      · exact Store.set_next m nx' hx h a
      · rw [Store.set_ne _ _ (fun e => ha (by rw [e]; exact h))]
    have hfirst₁ : ∀ a, a ≠ S →
        ((m.set x nx') a).map (fun n => n.first) = (m a).map (fun n => n.first) := by
      intro a ha
      rcases hxcase with ⟨h, _⟩ | ⟨_, h⟩
      · rw [Store.set_ne _ _ (fun e => ha (e.trans h))]
      · exact Store.set_first m nx' hx h a
    have hset₂ : ∀ a, a ≠ T →
        ((m.set x nx').set T { nt with nextToFirst := none }) a = (m.set x nx') a :=
      fun a ha => Store.set_ne _ _ ha
    obtain ⟨nD₂, hnD₂, hfD₂⟩ : ∃ nD₂, ((m.set x nx').set T { nt with nextToFirst := none }) D
        = some nD₂ ∧ nD₂.first = ndD.first := by
      rw [hset₂ D hDT]
      exact first_of_map_eq hndD (hfirst₁ D hDS)
    have hLD : Chain ((m.set x nx').set T { nt with nextToFirst := none }) nD₂.first fD.spine := by
      rw [hfD₂]
      refine Chain.of_next (Rep.chain hfD) ?_
      intro a ha
      rw [hset₂ a (fun e => hTfD (e ▸ ha))]
      exact hnext₁ a (d1 a ha)
    obtain ⟨y, ny, ny', happ, hy, hyid, hyname, hycase, hyT, nD', hnD', hchainD⟩ :=
      appendChild_spec F _ D T nD₂ { nt with nextToFirst := none } fD.spine hnD₂ hLD
        (Store.set_same _ _ _) rfl hTfD hDT
        (le_trans (Shape.spine_length_le fD) (by
          have := Shape.length_le_of_subtree hD
          simp only [Shape.addrs_node, List.length_cons, List.length_append] at this
          omega))
    have hyfT : y ∉ fT.addrs := by
      rcases hycase with ⟨h, _⟩ | ⟨h, _⟩
      · rw [h]
        exact hDfT
      · exact d2 y h
    -- the source after the call
    obtain ⟨_, nS₁, hnS₁, _, hrest₁, _⟩ := hrepS
    have hnS₂ : ((m.set x nx').set T { nt with nextToFirst := none }) S = some nS₁ := by
      rw [hset₂ S hST]
      exact hnS₁
    have hchainS₂ : Chain ((m.set x nx').set T { nt with nextToFirst := none }) nS₁.first
        (Shape.ofKids (pre ++ post)).spine :=
      Chain.agree (Rep.chain hrest₁) (fun a ha => hset₂ a (fun e => hTrest (e ▸ ha)))
    have hfirstS : ((((m.set x nx').set T { nt with nextToFirst := none }).set y ny') S).map
        (fun n => n.first)
        = (((m.set x nx').set T { nt with nextToFirst := none }) S).map (fun n => n.first) := by
      rcases hycase with ⟨h, _⟩ | ⟨_, h⟩
      · rw [Store.set_ne _ _ (fun e => hDS (h ▸ e.symm))]
      · exact Store.set_first _ ny' hy h S
    obtain ⟨nS', hnS', hfS'⟩ := first_of_map_eq hnS₂ hfirstS
    have hchainS : Chain (((m.set x nx').set T { nt with nextToFirst := none }).set y ny')
        nS'.first (Shape.ofKids (pre ++ post)).spine := by
      rw [hfS']
      refine Chain.of_next hchainS₂ ?_
      intro a ha
      rcases hycase with ⟨_, h⟩ | ⟨h, _⟩
      · exact Store.set_next _ ny' hy h a
      · have hay : a ≠ y := by
          rintro rfl
          exact d1 a h (hrestspine a ha)
        rw [Store.set_ne _ _ hay]
    rw [Shape.spine_ofKids] at hchainS
    refine ⟨_, nS', nD', { nt with nextToFirst := none }, ?_, hnS', hchainS, hnD', hchainD, ?_,
      hntid, rfl, ?_, ?_⟩
    · simp only [moveChild, hndS', hf₀, hc, hscan, hunl, hm₁T]
      exact happ
    · rw [Store.set_ne _ _ hyT.symm]
      exact Store.set_same _ _ _
    · exact Rep.frame_set (Rep.frame_set hrepT _ hTfT) _ hyfT
    · intro a ha
      have hay : a ≠ y := by
        rintro rfl
        exact hyfT ha
      have haT : a ≠ T := by
        rintro rfl
        exact hTfT ha
      have hax : a ≠ x := by
        rintro rfl
        exact hxfT ha
      rw [Store.set_ne _ _ hay, hset₂ a haT, Store.set_ne _ _ hax]
  · intro D hnone
    have hu := Shape.unlinkId_none_of_kids fS hnone
    obtain ⟨_, ndS, hndS', _, hfS, _⟩ := hq
    have hscan := scanId_of_unlinkId_none fS ndS.first none F hfS hu (by omega)
    cases hfirst : ndS.first with
    | none => simp [moveChild, hndS', hfirst]
    | some f =>
      rw [hfirst] at hscan
      simp [moveChild, hndS', hfirst, hc, hscan]

/-- C17 at the input of the test: `moveChild(Child1, Child2, SubChild1)` on the
tree that `main` builds, with `Child1` at address 1, `Child2` at address 2 and
`SubChild1` at address 4.  Afterwards `Child1` has the only child `SubChild2`
(address 5) and `Child2` has the only child `SubChild1`. -/
theorem moveChild_relocates_witness :
    mainTree = some memMain ∧
    ∃ m' nS' nD' nT', moveChild 8 memMain (some 1) (some 2) (some 4) = some m' ∧
      m' 1 = some nS' ∧
      Chain m' nS'.first
        (([] ++ [(5, 6, Shape.nil)] : List (Nat × Int × Shape)).map (fun k => k.1)) ∧
      m' 2 = some nD' ∧ Chain m' nD'.first (Shape.nil.spine ++ [4]) ∧
      m' 4 = some nT' ∧ nT'.id = 5 ∧ nT'.nextToFirst = none ∧ Rep m' nT'.first .nil ∧
      (∀ a ∈ Shape.nil.addrs, m' a = memMain a) :=
  ⟨mainTree_eq,
    (moveChild_relocates 8 memMain (some 0) shapeMain 1 2
      (.node 4 5 .nil (.node 5 6 .nil .nil)) (.node 2 3 .nil (.node 3 4 .nil .nil)) 4
      { id := 5, name := [83, 117, 98, 67, 104, 105, 108, 100, 49], first := none,
        nextToFirst := some 5 }
      ⟨by simp [Forest.Rep, shapeMain, memMain, storeOf], by decide⟩
      (by simp [shapeMain, Shape.subtrees]) rfl (by decide)).1 2 3 .nil (.node 3 4 .nil .nil)
      [] 4 .nil [(5, 6, .nil)] (by simp [shapeMain, Shape.subtrees]) rfl (by simp)
      (by decide) (by decide)⟩

end TreeOnly
